import Mathlib

/-!
# ShiftDisplay2: value formatting, segment encoding and the display buffer

A shallow embedding of `src/ShiftDisplay2.cpp`.

* C integers (`int`, `long`) are mathematical integers where the values are
  those of a display (sizes, indices, counts), which stay far inside the range of
  `int`. The one sum of the source that takes an argument of the caller as it
  comes, `_displaySize + sSize` in `construct`, is also given in the arithmetic of
  `int` (`sectionLoopInt`, `constructInt`). Negating the least `long`, and
  converting a `double` outside the range of `long`, are faults.
* A C `char` is its character code, a `byte` is a natural number below 256.
* A local array is a list of cells, a cell being `none` until it is stored to;
  a load from an empty cell or an access outside the array is a fault (`none`).
* The constants of `CharacterEncoding.h` and `ShiftDisplay2.h` are not part of
  the sources at hand, they are the fields of `Header`, a parameter throughout.
* The value of a `double` is a rational number. The rounded product
  `number * pow(10, decimalPlaces)` and the conversion of a `long` to `double`
  depend on the board and are fields of `Header` as well; `round`, the conversion
  `(long)` and comparisons are exact on the value of a `double`.
-/

namespace ShiftDisplay2

/-! ## Types and constants -/

/-- A C `char`, as its character code. -/
abbrev CChar := Nat

/-- An Arduino `byte`. -/
abbrev Byte := Nat

/-- The enumeration `Alignment` of the source. -/
inductive Alignment where
  | ALIGN_LEFT
  | ALIGN_RIGHT
  | ALIGN_CENTER
  deriving DecidableEq, Repr

/-- What the source takes from outside the file. The constants declared in
`CharacterEncoding.h` and `ShiftDisplay2.h`: the segment tables, the two single
patterns, the digit-select table, the capacity of the display, the dwell of one
multiplexed digit and the default arguments. The greatest `int` of the board
(`INT_MAX` of `limits.h`: 32767 on AVR, 2147483647 on the 32-bit cores). The
floating-point arithmetic of the board on the values of `double`s, which are rational
numbers: `scaleDouble number decimalPlaces` is the `double` the expression
`number * pow(10, decimalPlaces)` evaluates to (a rounded product, binary64 on the
32-bit cores, binary32 on AVR; where it is infinite or not a number, a value outside
the range of `long`, whose conversion is a fault), and `longToDouble` is the
conversion of a `long` to `double`. -/
structure Header where
  NUMBERS : Nat → Byte
  LETTERS : Nat → Byte
  MINUS : Byte
  EMPTY : Byte
  INDEXES : Nat → Byte
  MAX_DISPLAY_SIZE : Nat
  POV : Nat
  DEFAULT_DECIMAL_PLACES_INTEGER : Int
  DEFAULT_DECIMAL_PLACES_REAL : Int
  DEFAULT_LEADING_ZEROS : Bool
  DEFAULT_ALIGN_TEXT : Alignment
  INT_MAX : Int
  scaleDouble : ℚ → Int → ℚ
  longToDouble : Int → ℚ

/-- Number of bits of a `long` on the Arduino cores. -/
def LONG_BITS : Nat := 32

/-- The least `long`. -/
def LONG_MIN : Int := -(2 ^ (LONG_BITS - 1))

/-- The greatest `long`. -/
def LONG_MAX : Int := 2 ^ (LONG_BITS - 1) - 1

/-- The character code of a character literal. -/
def chr (c : Char) : CChar := c.toNat

/-- Conversion of an `int` to a `byte`: the value modulo 256. -/
def toByte (x : Int) : Byte := (x % 256).toNat

/-- The C expression `~b` on a `byte` operand, stored back into a `byte`: the
operand is promoted to `int`, complemented (`-b - 1`) and truncated. -/
def bitNot (b : Byte) : Byte := toByte (-(b : Int) - 1)

/-- The Arduino function `bitWrite(x, 0, bit)` on a byte: sets or clears bit 0. -/
def bitWrite0 (x : Byte) (bit : Bool) : Byte :=
  if bit then x ||| 1 else x &&& 254

/-! ## Arrays -/

/-- A freshly declared local array `T a[size]`: every cell is empty. -/
def newArray {α : Type} (size : Int) : Option (List (Option α)) :=
  if size < 0 then none else some (List.replicate size.toNat none)

/-- The cell of a list at an integer index, `none` outside the list. -/
def cell {β : Type} (a : List β) (k : Int) : Option β :=
  if 0 ≤ k then a[k.toNat]? else none

/-- The statement `a[i] = v` on a local array. -/
def store {α : Type} (a : List (Option α)) (i : Int) (v : α) : Option (List (Option α)) :=
  if 0 ≤ i ∧ i < a.length then some (a.set i.toNat (some v)) else none

/-- The expression `a[i]` on a local array. -/
def load {α : Type} (a : List (Option α)) (i : Int) : Option α :=
  (cell a i).join

/-- A caller-supplied, fully initialised array. -/
def ofList {α : Type} (l : List α) : List (Option α) := l.map some

/-- The content of an array all of whose cells have been stored to. -/
def contents {α : Type} : List (Option α) → Option (List α)
  | [] => some []
  | none :: _ => none
  | some v :: rest => (contents rest).map (fun l => v :: l)

/-! ## formatCharacters -/

/-- The lowest index of the value inside the target (`left` of the source). -/
def leftBorder (inSize outSize : Int) : Alignment → Int
  | .ALIGN_LEFT => 0
  | .ALIGN_RIGHT => outSize - inSize
  | .ALIGN_CENTER => (outSize - inSize).tdiv 2

/-- The highest index of the value inside the target (`right` of the source). -/
def rightBorder (inSize outSize : Int) : Alignment → Int
  | .ALIGN_LEFT => inSize - 1
  | .ALIGN_RIGHT => outSize - 1
  | .ALIGN_CENTER => (outSize - inSize).tdiv 2 + inSize - 1

/-- The loop `for (...; i < hi; i++) output[i] = c`, with `n` iterations left to
run and `i` the current index. -/
def fillLoop (c : CChar) : Nat → Int → List (Option CChar) → Option (List (Option CChar))
  | 0, _, output => some output
  | n + 1, i, output => (store output i c).bind (fillLoop c n (i + 1))

/-- The loop `for (int i = left, j = 0; i <= right; i++, j++) if (i >= minimum
&& i <= maximum) output[i] = input[j]`, with `n` iterations left to run. -/
def copyLoop (minimum maximum : Int) (input : List (Option CChar)) :
    Nat → Int → Int → List (Option CChar) → Option (List (Option CChar))
  | 0, _, _, output => some output
  | n + 1, i, j, output =>
    (if i ≥ minimum ∧ i ≤ maximum then (load input j).bind (store output i)
     else some output).bind (copyLoop minimum maximum input n (i + 1) (j + 1))

/-- The function `ShiftDisplay2::formatCharacters`: the filled `output` array and
the returned dot index. -/
def formatCharacters (inSize : Int) (input : List (Option CChar)) (outSize : Int)
    (output : List (Option CChar)) (alignment : Alignment) (leadingZeros : Bool)
    (decimalPlaces : Int) : Option (List (Option CChar) × Int) :=
  let minimum : Int := 0
  let maximum : Int := outSize - 1
  let left := leftBorder inSize outSize alignment
  let right := rightBorder inSize outSize alignment
  (fillLoop (if leadingZeros then chr '0' else chr ' ') (left - 0).toNat 0 output).bind
    fun output1 =>
  (copyLoop minimum maximum input (right + 1 - left).toNat left 0 output1).bind
    fun output2 =>
  (fillLoop (chr ' ') (outSize - (right + 1)).toNat (right + 1) output2).bind
    fun output3 =>
  if decimalPlaces = -1 then some (output3, -1)
  else
    let dotIndex := right - decimalPlaces
    if dotIndex < minimum ∨ dotIndex > maximum then some (output3, -1)
    else some (output3, dotIndex)

/-- An access `formatCharacters` makes to one of its two arrays: the store
`output[i] = ...` or the load `... = input[j]`. -/
inductive Access where
  | write (i : Int)
  | read (j : Int)
  deriving DecidableEq, Repr

/-- The loop `for (...; i < hi; i++) output[i] = c` as in `fillLoop`, together with
the accesses it makes, oldest first. -/
def fillLoopLog (c : CChar) :
    Nat → Int → List (Option CChar) → Option (List (Option CChar) × List Access)
  | 0, _, output => some (output, [])
  | n + 1, i, output =>
    (store output i c).bind fun output1 =>
    (fillLoopLog c n (i + 1) output1).map fun r => (r.1, Access.write i :: r.2)

/-- The loop over the characters as in `copyLoop`, together with the accesses it
makes, oldest first: inside the bounds a load of `input[j]` and then a store to
`output[i]`, outside the bounds none. -/
def copyLoopLog (minimum maximum : Int) (input : List (Option CChar)) :
    Nat → Int → Int → List (Option CChar) → Option (List (Option CChar) × List Access)
  | 0, _, _, output => some (output, [])
  | n + 1, i, j, output =>
    if i ≥ minimum ∧ i ≤ maximum then
      (load input j).bind fun v =>
      (store output i v).bind fun output1 =>
      (copyLoopLog minimum maximum input n (i + 1) (j + 1) output1).map fun r =>
        (r.1, Access.read j :: Access.write i :: r.2)
    else copyLoopLog minimum maximum input n (i + 1) (j + 1) output

/-- The function `ShiftDisplay2::formatCharacters` as in `formatCharacters`, together
with the accesses its three loops make to `output` and `input`, oldest first. -/
def formatCharactersLog (inSize : Int) (input : List (Option CChar)) (outSize : Int)
    (output : List (Option CChar)) (alignment : Alignment) (leadingZeros : Bool)
    (decimalPlaces : Int) : Option (List (Option CChar) × Int × List Access) :=
  let minimum : Int := 0
  let maximum : Int := outSize - 1
  let left := leftBorder inSize outSize alignment
  let right := rightBorder inSize outSize alignment
  (fillLoopLog (if leadingZeros then chr '0' else chr ' ') (left - 0).toNat 0 output).bind
    fun r1 =>
  (copyLoopLog minimum maximum input (right + 1 - left).toNat left 0 r1.1).bind
    fun r2 =>
  (fillLoopLog (chr ' ') (outSize - (right + 1)).toNat (right + 1) r2.1).bind
    fun r3 =>
  if decimalPlaces = -1 then some (r3.1, -1, r1.2 ++ r2.2 ++ r3.2)
  else
    let dotIndex := right - decimalPlaces
    if dotIndex < minimum ∨ dotIndex > maximum then some (r3.1, -1, r1.2 ++ r2.2 ++ r3.2)
    else some (r3.1, dotIndex, r1.2 ++ r2.2 ++ r3.2)

/-! ## getCharacters and countCharacters -/

/-- The loop `for (int i = size-1; i >= 0; i--)` of `getCharacters`, with `n`
iterations left to run; `input` is the part of the number not yet written. -/
def digitLoop : Nat → Int → Int → List (Option CChar) → Option (List (Option CChar))
  | 0, _, _, output => some output
  | n + 1, i, input, output =>
    let digit : Int := input.tmod 10
    let c : CChar := (digit + (chr '0' : Int)).toNat
    (store output i c).bind (digitLoop n (i - 1) (input.tdiv 10))

/-- The function `ShiftDisplay2::getCharacters`. -/
def getCharacters (input : Int) (size : Int) (output : List (Option CChar)) :
    Option (List (Option CChar)) :=
  let negative : Bool := decide (input < 0)
  (if input < 0 then (if input = LONG_MIN then none else some (-input)) else some input).bind
    fun input1 =>
  (digitLoop size.toNat (size - 1) input1 output).bind fun output1 =>
  if negative then store output1 0 (chr '-') else some output1

/-- The function `ShiftDisplay2::countCharacters(long)`. -/
def countCharacters (number : Int) : Option Int :=
  if number < 0 then
    if number = LONG_MIN then none
    else (countCharacters (-number)).map (fun r => 1 + r)
  else if number < 10 then some 1
  else (countCharacters (number.tdiv 10)).map (fun r => 1 + r)
termination_by ((if number < 0 then 1 else 0 : Nat), number.natAbs)
decreasing_by
  · simp_wf
    left
    have h : ¬ (0 < number) := by omega
    simp [*]
  · have h1 : ¬ (number < 0) := by assumption
    have h0 : (0 : Int) ≤ number := by omega
    have h2 : ¬ (number.tdiv 10 < 0) := by
      rw [Int.tdiv_eq_ediv h0 (by decide)]; omega
    have h3 : (number.tdiv 10).natAbs < number.natAbs := by
      rw [Int.tdiv_eq_ediv h0 (by decide)]; omega
    simp only [h1, h2, if_false]
    exact Prod.Lex.right _ h3

/-- The C conversion `(long) number` of a `double`: truncation towards zero, a
fault when the result is not a `long`. -/
def castLong (number : ℚ) : Option Int :=
  let t : Int := if 0 ≤ number then ⌊number⌋ else -⌊-number⌋
  if LONG_MIN ≤ t ∧ t ≤ LONG_MAX then some t else none

/-- The C function `round` on the value of a `double`, followed by the conversion to
`long`: the nearest integer, a tie going away from zero (`round` is exact on a
`double`); a fault when the result is not a `long`. -/
def roundLong (x : ℚ) : Option Int :=
  let r : Int := if 0 ≤ x then ⌊x + 1 / 2⌋ else -⌊-x + 1 / 2⌋
  if LONG_MIN ≤ r ∧ r ≤ LONG_MAX then some r else none

/-- The function `ShiftDisplay2::countCharacters(double)`. -/
def countCharactersDouble (number : ℚ) : Option Int :=
  if number > -1 ∧ number < 0 then some 2
  else (castLong number).bind countCharacters

/-! ## encodeCharacters -/

/-- The `if` chain in the loop of `encodeCharacters`: the pattern of one
character. -/
def encodeChar (h : Header) (c : CChar) : Byte :=
  if c ≥ chr '0' ∧ c ≤ chr '9' then h.NUMBERS (c - chr '0')
  else if c ≥ chr 'a' ∧ c ≤ chr 'z' then h.LETTERS (c - chr 'a')
  else if c ≥ chr 'A' ∧ c ≤ chr 'Z' then h.LETTERS (c - chr 'A')
  else if c = chr '-' then h.MINUS
  else h.EMPTY

/-- The loop `for (int i = 0; i < size; i++)` of `encodeCharacters`, with `n`
iterations left to run. -/
def encodeLoop (h : Header) (input : List (Option CChar)) :
    Nat → Int → List (Option Byte) → Option (List (Option Byte))
  | 0, _, output => some output
  | n + 1, i, output =>
    (load input i).bind fun c =>
    (store output i (encodeChar h c)).bind (encodeLoop h input n (i + 1))

/-- The function `ShiftDisplay2::encodeCharacters`. -/
def encodeCharacters (h : Header) (size : Int) (input : List (Option CChar))
    (output : List (Option Byte)) (dotIndex : Int) : Option (List (Option Byte)) :=
  (encodeLoop h input (size - 0).toNat 0 output).bind fun output1 =>
  if dotIndex ≠ -1 then
    (load output1 dotIndex).bind fun b => store output1 dotIndex (bitWrite0 b true)
  else some output1

/-! ## The display object -/

/-- The enumeration `DisplayType` of the source. -/
inductive DisplayType where
  | COMMON_ANODE
  | COMMON_CATHODE
  deriving DecidableEq, Repr

/-- The enumeration `DisplayDrive` of the source. -/
inductive DisplayDrive where
  | MULTIPLEXED_DRIVE
  | STATIC_DRIVE
  deriving DecidableEq, Repr

/-- What the object does to the outside: the calls of the Arduino core. -/
inductive Event where
  | pinModeOutput (pin : Int)
  | digitalWrite (pin : Int) (high : Bool)
  | shiftOut (dataPin clockPin : Int) (msbFirst : Bool) (value : Byte)
  | delay (ms : Nat)
  deriving DecidableEq, Repr

/-- The data members of a `ShiftDisplay2` object. Its four arrays have
`MAX_DISPLAY_SIZE` cells each. -/
structure State where
  _latchPin : Int
  _clockPin : Int
  _dataPin : Int
  _isCathode : Bool
  _isMultiplexed : Bool
  _isSwapped : Bool
  _displaySize : Int
  _sectionCount : Int
  _sectionBegins : List (Option Int)
  _sectionSizes : List (Option Int)
  _indexes : List (Option Byte)
  _cache : List (Option Byte)

/-- The conditional `_isCathode ? code : ~code` of the source. -/
def polarity (isCathode : Bool) (code : Byte) : Byte :=
  if isCathode then code else bitNot code

/-- The function `ShiftDisplay2::modifyCache(int index, byte code)`. -/
def modifyCache1 (st : State) (index : Int) (code : Byte) : Option State :=
  (store st._cache index (polarity st._isCathode code)).map
    fun cache => { st with _cache := cache }

/-- The loop of `modifyCache(int, int, const byte[])`, with `n` iterations left
to run. -/
def modifyCacheLoop (isCathode : Bool) (beginIndex : Int) (codes : List (Option Byte)) :
    Nat → Int → List (Option Byte) → Option (List (Option Byte))
  | 0, _, cache => some cache
  | n + 1, i, cache =>
    (load codes i).bind fun code =>
    (store cache (i + beginIndex) (polarity isCathode code)).bind
      (modifyCacheLoop isCathode beginIndex codes n (i + 1))

/-- The function `ShiftDisplay2::modifyCache(int beginIndex, int size, const byte
codes[])`. -/
def modifyCache (st : State) (beginIndex size : Int) (codes : List (Option Byte)) :
    Option State :=
  (modifyCacheLoop st._isCathode beginIndex codes (size - 0).toNat 0 st._cache).map
    fun cache => { st with _cache := cache }

/-- The function `ShiftDisplay2::isValidSection`. -/
def isValidSection (st : State) (sectionIndex : Int) : Bool :=
  decide (sectionIndex ≥ 0 ∧ sectionIndex < st._sectionCount)

/-! ## setInteger and setReal -/

/-- The variable `valueSize` and the array `originalCharacters` of `setInteger`
after the call of `getCharacters`. -/
def setIntegerCharacters (number : Int) : Option (Int × List (Option CChar)) :=
  (countCharacters number).bind fun valueSize =>
  (newArray valueSize).bind fun originalCharacters0 =>
  (getCharacters number valueSize originalCharacters0).map fun originalCharacters =>
  (valueSize, originalCharacters)

/-- The array `formattedCharacters` of `setInteger` after the call of
`formatCharacters`, for a section of size `sectionSize`. -/
def setIntegerFormatted (number : Int) (leadingZeros : Bool) (alignment : Alignment)
    (sectionSize : Int) : Option (List (Option CChar)) :=
  (setIntegerCharacters number).bind fun vo =>
  (newArray sectionSize).bind fun formattedCharacters0 =>
  (formatCharacters vo.1 vo.2 sectionSize formattedCharacters0
    alignment leadingZeros (-1)).map fun r => r.1

/-- The array `encodedCharacters` of `setInteger` after the call of
`encodeCharacters`. -/
def setIntegerEncoded (h : Header) (number : Int) (leadingZeros : Bool)
    (alignment : Alignment) (sectionSize : Int) : Option (List (Option Byte)) :=
  (setIntegerFormatted number leadingZeros alignment sectionSize).bind
    fun formattedCharacters =>
  (newArray sectionSize).bind fun encodedCharacters0 =>
  encodeCharacters h sectionSize formattedCharacters encodedCharacters0 (-1)

/-- The function `ShiftDisplay2::setInteger`. -/
def setInteger (h : Header) (st : State) (number : Int) (leadingZeros : Bool)
    (alignment : Alignment) (sectionIndex : Int) : Option State :=
  (load st._sectionSizes sectionIndex).bind fun sectionSize =>
  (setIntegerEncoded h number leadingZeros alignment sectionSize).bind
    fun encodedCharacters =>
  (load st._sectionBegins sectionIndex).bind fun beginIndex =>
  modifyCache st beginIndex sectionSize encodedCharacters

/-- The array `originalCharacters` of `setReal` after the call of
`getCharacters`, together with `valueSize`. -/
def setRealCharacters (h : Header) (number : ℚ) (decimalPlaces : Int) :
    Option (Int × List (Option CChar)) :=
  (roundLong (h.scaleDouble number decimalPlaces)).bind fun value =>
  (countCharactersDouble number).bind fun count =>
  let valueSize : Int := count + decimalPlaces
  (newArray valueSize).bind fun originalCharacters0 =>
  (getCharacters value valueSize originalCharacters0).map fun originalCharacters =>
  (valueSize, originalCharacters)

/-- The array `formattedCharacters` and the variable `dotIndex` of `setReal`
after the call of `formatCharacters`, for a section of size `sectionSize`. -/
def setRealFormatted (h : Header) (number : ℚ) (decimalPlaces : Int) (leadingZeros : Bool)
    (alignment : Alignment) (sectionSize : Int) : Option (List (Option CChar) × Int) :=
  (setRealCharacters h number decimalPlaces).bind fun vo =>
  (newArray sectionSize).bind fun formattedCharacters0 =>
  formatCharacters vo.1 vo.2 sectionSize formattedCharacters0 alignment leadingZeros
    decimalPlaces

/-- The array `encodedCharacters` of `setReal` after the call of
`encodeCharacters`. -/
def setRealEncoded (h : Header) (number : ℚ) (decimalPlaces : Int) (leadingZeros : Bool)
    (alignment : Alignment) (sectionSize : Int) : Option (List (Option Byte)) :=
  (setRealFormatted h number decimalPlaces leadingZeros alignment sectionSize).bind
    fun fd =>
  (newArray sectionSize).bind fun encodedCharacters0 =>
  encodeCharacters h sectionSize fd.1 encodedCharacters0 fd.2

/-- The function `ShiftDisplay2::setReal`. -/
def setReal (h : Header) (st : State) (number : ℚ) (decimalPlaces : Int)
    (leadingZeros : Bool) (alignment : Alignment) (sectionIndex : Int) : Option State :=
  (load st._sectionSizes sectionIndex).bind fun sectionSize =>
  (setRealEncoded h number decimalPlaces leadingZeros alignment sectionSize).bind
    fun encodedCharacters =>
  (load st._sectionBegins sectionIndex).bind fun beginIndex =>
  modifyCache st beginIndex sectionSize encodedCharacters

/-! ## construct -/

/-- The function `ShiftDisplay2::clearMultiplexedDisplay`. -/
def clearMultiplexedDisplay (h : Header) (st : State) : List Event :=
  [Event.digitalWrite st._latchPin false,
   Event.shiftOut st._dataPin st._clockPin true h.EMPTY,
   Event.shiftOut st._dataPin st._clockPin true h.EMPTY,
   Event.digitalWrite st._latchPin true]

/-- The function `ShiftDisplay2::clearStaticDisplay`. -/
def clearStaticDisplay (h : Header) (st : State) : List Event :=
  [Event.digitalWrite st._latchPin false] ++
  List.replicate (st._displaySize - 0).toNat
    (Event.shiftOut st._dataPin st._clockPin true (polarity st._isCathode h.EMPTY)) ++
  [Event.digitalWrite st._latchPin true]

/-- The function `ShiftDisplay2::clear`. -/
def clear (h : Header) (st : State) : List Event :=
  if st._isMultiplexed then clearMultiplexedDisplay h st else clearStaticDisplay h st

/-- The body of the loop of `construct` over `pos`: the value `encodedIndex` for
the configured `index`. -/
def encodedIndex (h : Header) (isCathode : Bool) (index : Int) : Byte :=
  if index ≥ 0 ∧ index < h.MAX_DISPLAY_SIZE then
    (if isCathode then bitNot (h.INDEXES index.toNat) else h.INDEXES index.toNat)
  else 0

/-- The loop of `construct` over `pos`, which fills `_indexes`, with `n`
iterations left to run. -/
def indexLoop (h : Header) (isCathode : Bool) (indexes : List Int) :
    Nat → Int → List (Option Byte) → Option (List (Option Byte))
  | 0, _, out => some out
  | n + 1, pos, out =>
    (cell indexes pos).bind fun index =>
    (store out pos (encodedIndex h isCathode index)).bind
      (indexLoop h isCathode indexes n (pos + 1))

/-- The `while` loop of `construct` over the section sizes, with the sum
`_displaySize + sSize` taken in the mathematical integers. The first argument is
the part of `sectionSizes` from index `_sectionCount` on, so that its head is
`sectionSizes[_sectionCount]`; reading past the end of the array is a fault. The
loop in the arithmetic of `int` is `sectionLoopInt`; the two are the same function
on the lists whose sizes are at most `INT_MAX - MAX_DISPLAY_SIZE`
(`sectionLoopInt_eq`), those of any display. -/
def sectionLoop (h : Header) : List Int → State → Option State
  | [], _ => none
  | sSize :: rest, st =>
    if sSize > 0 then
      if st._displaySize + sSize > h.MAX_DISPLAY_SIZE then some st
      else
        (store st._sectionBegins st._sectionCount st._displaySize).bind fun begins =>
        (store st._sectionSizes st._sectionCount sSize).bind fun sizes =>
        sectionLoop h rest
          { st with _sectionBegins := begins, _sectionSizes := sizes,
                    _displaySize := st._displaySize + sSize,
                    _sectionCount := st._sectionCount + 1 }
    else some st

/-- The function `ShiftDisplay2::construct`, with the section loop in the
mathematical integers (`sectionLoop`): the object it initialises and the calls it
makes. `constructInt` is the function with the loop in the arithmetic of `int`. -/
def construct (h : Header) (latchPin clockPin dataPin : Int) (displayType : DisplayType)
    (sectionSizes : List Int) (displayDrive : DisplayDrive) (swappedShiftRegisters : Bool)
    (indexes : List Int) : Option (State × List Event) :=
  let isCathode : Bool := decide (displayType = DisplayType.COMMON_CATHODE)
  let isMultiplexed : Bool := decide (displayDrive = DisplayDrive.MULTIPLEXED_DRIVE)
  (indexLoop h isCathode indexes h.MAX_DISPLAY_SIZE 0
    (List.replicate h.MAX_DISPLAY_SIZE none)).bind fun idx =>
  let st0 : State :=
    { _latchPin := latchPin, _clockPin := clockPin, _dataPin := dataPin,
      _isCathode := isCathode, _isMultiplexed := isMultiplexed,
      _isSwapped := swappedShiftRegisters,
      _displaySize := 0, _sectionCount := 0,
      _sectionBegins := List.replicate h.MAX_DISPLAY_SIZE none,
      _sectionSizes := List.replicate h.MAX_DISPLAY_SIZE none,
      _indexes := idx,
      _cache := List.replicate h.MAX_DISPLAY_SIZE none }
  (sectionLoop h sectionSizes st0).map fun st1 =>
  let empty : Byte := polarity isCathode h.EMPTY
  let st2 : State := { st1 with _cache := List.replicate h.MAX_DISPLAY_SIZE (some empty) }
  (st2, [Event.pinModeOutput latchPin, Event.pinModeOutput clockPin,
         Event.pinModeOutput dataPin] ++ clear h st2)

/-- The value an `int` takes when the mathematical result of an addition is `x`, on
a board that computes in two's complement: `x` reduced modulo `2 * (INT_MAX + 1)`
into `[-INT_MAX - 1, INT_MAX]`. (C leaves signed overflow undefined; the AVR and ARM
cores wrap.) -/
def wrapInt (h : Header) (x : Int) : Int :=
  (x + (h.INT_MAX + 1)) % (2 * (h.INT_MAX + 1)) - (h.INT_MAX + 1)

/-- The `while` loop of `construct` over the section sizes as in `sectionLoop`, with
`_displaySize + sSize`, `_displaySize += sSize` and `_sectionCount++` in the
arithmetic of `int`. -/
def sectionLoopInt (h : Header) : List Int → State → Option State
  | [], _ => none
  | sSize :: rest, st =>
    if sSize > 0 then
      if wrapInt h (st._displaySize + sSize) > h.MAX_DISPLAY_SIZE then some st
      else
        (store st._sectionBegins st._sectionCount st._displaySize).bind fun begins =>
        (store st._sectionSizes st._sectionCount sSize).bind fun sizes =>
        sectionLoopInt h rest
          { st with _sectionBegins := begins, _sectionSizes := sizes,
                    _displaySize := wrapInt h (st._displaySize + sSize),
                    _sectionCount := wrapInt h (st._sectionCount + 1) }
    else some st

/-- The function `ShiftDisplay2::construct` with the section loop in the arithmetic
of `int` (`sectionLoopInt`): the object it initialises and the calls it makes. -/
def constructInt (h : Header) (latchPin clockPin dataPin : Int) (displayType : DisplayType)
    (sectionSizes : List Int) (displayDrive : DisplayDrive) (swappedShiftRegisters : Bool)
    (indexes : List Int) : Option (State × List Event) :=
  let isCathode : Bool := decide (displayType = DisplayType.COMMON_CATHODE)
  let isMultiplexed : Bool := decide (displayDrive = DisplayDrive.MULTIPLEXED_DRIVE)
  (indexLoop h isCathode indexes h.MAX_DISPLAY_SIZE 0
    (List.replicate h.MAX_DISPLAY_SIZE none)).bind fun idx =>
  let st0 : State :=
    { _latchPin := latchPin, _clockPin := clockPin, _dataPin := dataPin,
      _isCathode := isCathode, _isMultiplexed := isMultiplexed,
      _isSwapped := swappedShiftRegisters,
      _displaySize := 0, _sectionCount := 0,
      _sectionBegins := List.replicate h.MAX_DISPLAY_SIZE none,
      _sectionSizes := List.replicate h.MAX_DISPLAY_SIZE none,
      _indexes := idx,
      _cache := List.replicate h.MAX_DISPLAY_SIZE none }
  (sectionLoopInt h sectionSizes st0).map fun st1 =>
  let empty : Byte := polarity isCathode h.EMPTY
  let st2 : State := { st1 with _cache := List.replicate h.MAX_DISPLAY_SIZE (some empty) }
  (st2, [Event.pinModeOutput latchPin, Event.pinModeOutput clockPin,
         Event.pinModeOutput dataPin] ++ clear h st2)

/-! ## modifyCacheDot, setNumber and setText -/

/-- The function `ShiftDisplay2::modifyCacheDot`. -/
def modifyCacheDot (st : State) (index : Int) (dot : Bool) : Option State :=
  let bit : Bool := if st._isCathode then dot else !dot
  (load st._cache index).bind fun b =>
  (store st._cache index (bitWrite0 b bit)).map fun cache => { st with _cache := cache }

/-- The function `ShiftDisplay2::setNumber(long, ...)`; the call of `setReal`
converts the `long` to `double`. -/
def setNumberLong (h : Header) (st : State) (number : Int) (decimalPlaces : Int)
    (leadingZeros : Bool) (alignment : Alignment) (sectionIndex : Int) : Option State :=
  if decimalPlaces = 0 then setInteger h st number leadingZeros alignment sectionIndex
  else setReal h st (h.longToDouble number) decimalPlaces leadingZeros alignment sectionIndex

/-- The function `ShiftDisplay2::setNumber(double, ...)`. -/
def setNumberDouble (h : Header) (st : State) (number : ℚ) (decimalPlaces : Int)
    (leadingZeros : Bool) (alignment : Alignment) (sectionIndex : Int) : Option State :=
  if decimalPlaces = 0 then
    (roundLong number).bind fun roundNumber =>
    setInteger h st roundNumber leadingZeros alignment sectionIndex
  else setReal h st number decimalPlaces leadingZeros alignment sectionIndex

/-- The function `ShiftDisplay2::setText(const char value[], ...)`. The argument is
the text in front of the terminating zero of `value`, so that its length is
`strlen(value)`. -/
def setTextChars (h : Header) (st : State) (value : List CChar) (alignment : Alignment)
    (sectionIndex : Int) : Option State :=
  let valueSize : Int := value.length
  (load st._sectionSizes sectionIndex).bind fun sectionSize =>
  (newArray sectionSize).bind fun formattedCharacters0 =>
  (formatCharacters valueSize (ofList value) sectionSize formattedCharacters0 alignment
    false (-1)).bind fun r =>
  (newArray sectionSize).bind fun encodedCharacters0 =>
  (encodeCharacters h sectionSize r.1 encodedCharacters0 (-1)).bind fun encodedCharacters =>
  (load st._sectionBegins sectionIndex).bind fun beginIndex =>
  modifyCache st beginIndex sectionSize encodedCharacters

/-- The function `ShiftDisplay2::setText(char value, ...)`. -/
def setTextChar (h : Header) (st : State) (value : CChar) (alignment : Alignment)
    (sectionIndex : Int) : Option State :=
  let originalCharacters : List (Option CChar) := ofList [value]
  (load st._sectionSizes sectionIndex).bind fun sectionSize =>
  (newArray sectionSize).bind fun formattedCharacters0 =>
  (formatCharacters 1 originalCharacters sectionSize formattedCharacters0 alignment
    false (-1)).bind fun r =>
  (newArray sectionSize).bind fun encodedCharacters0 =>
  (encodeCharacters h sectionSize r.1 encodedCharacters0 (-1)).bind fun encodedCharacters =>
  (load st._sectionBegins sectionIndex).bind fun beginIndex =>
  modifyCache st beginIndex sectionSize encodedCharacters

/-- The function `ShiftDisplay2::setText(const String &value, ...)`: the characters
of the `String` are copied to a character array, which goes to the overload for
character arrays. A `String` is the list of its characters. -/
def setTextString (h : Header) (st : State) (value : List CChar) (alignment : Alignment)
    (sectionIndex : Int) : Option State :=
  setTextChars h st value alignment sectionIndex

/-! ## setAt, changeDotAt and changeCharacterAt -/

/-- The argument lists of the overloads of `setAt`, after the section index: an
`int`, a `long` or a `double` with decimal places and leading zeros, each of the
two or neither; a character, a character array, a `String`; an array of custom
patterns; an array of characters with an array of dots. -/
inductive SetAtArgs where
  | intDecimalsZeros (number decimalPlaces : Int) (leadingZeros : Bool) (alignment : Alignment)
  | intZeros (number : Int) (leadingZeros : Bool) (alignment : Alignment)
  | intDecimals (number decimalPlaces : Int) (alignment : Alignment)
  | intOnly (number : Int) (alignment : Alignment)
  | longDecimalsZeros (number decimalPlaces : Int) (leadingZeros : Bool) (alignment : Alignment)
  | longZeros (number : Int) (leadingZeros : Bool) (alignment : Alignment)
  | longDecimals (number decimalPlaces : Int) (alignment : Alignment)
  | longOnly (number : Int) (alignment : Alignment)
  | doubleDecimalsZeros (number : ℚ) (decimalPlaces : Int) (leadingZeros : Bool)
      (alignment : Alignment)
  | doubleZeros (number : ℚ) (leadingZeros : Bool) (alignment : Alignment)
  | doubleDecimals (number : ℚ) (decimalPlaces : Int) (alignment : Alignment)
  | doubleOnly (number : ℚ) (alignment : Alignment)
  | char (value : CChar) (alignment : Alignment)
  | chars (value : List CChar) (alignment : Alignment)
  | string (value : List CChar) (alignment : Alignment)
  | customs (customs : List Byte)
  | charactersDots (characters : List CChar) (dots : List Bool)

/-- The loop of `setAt(int, const char[], const bool[])` over the dots, with `n`
iterations left to run. -/
def dotLoop (beginIndex : Int) (dots : List Bool) : Nat → Int → State → Option State
  | 0, _, st => some st
  | n + 1, i, st =>
    (cell dots i).bind fun dot =>
    (modifyCacheDot st (i + beginIndex) dot).bind (dotLoop beginIndex dots n (i + 1))

/-- The overloads of `ShiftDisplay2::setAt`, one case for each. -/
def setAt (h : Header) (st : State) (sectionIndex : Int) : SetAtArgs → Option State
  | .intDecimalsZeros number decimalPlaces leadingZeros alignment =>
    if isValidSection st sectionIndex then
      setNumberLong h st number decimalPlaces leadingZeros alignment sectionIndex
    else some st
  | .intZeros number leadingZeros alignment =>
    if isValidSection st sectionIndex then
      setNumberLong h st number h.DEFAULT_DECIMAL_PLACES_INTEGER leadingZeros alignment
        sectionIndex
    else some st
  | .intDecimals number decimalPlaces alignment =>
    if isValidSection st sectionIndex then
      setNumberLong h st number decimalPlaces h.DEFAULT_LEADING_ZEROS alignment sectionIndex
    else some st
  | .intOnly number alignment =>
    if isValidSection st sectionIndex then
      setNumberLong h st number h.DEFAULT_DECIMAL_PLACES_INTEGER h.DEFAULT_LEADING_ZEROS
        alignment sectionIndex
    else some st
  | .longDecimalsZeros number decimalPlaces leadingZeros alignment =>
    if isValidSection st sectionIndex then
      setNumberLong h st number decimalPlaces leadingZeros alignment sectionIndex
    else some st
  | .longZeros number leadingZeros alignment =>
    if isValidSection st sectionIndex then
      setNumberLong h st number h.DEFAULT_DECIMAL_PLACES_INTEGER leadingZeros alignment
        sectionIndex
    else some st
  | .longDecimals number decimalPlaces alignment =>
    if isValidSection st sectionIndex then
      setNumberLong h st number decimalPlaces h.DEFAULT_LEADING_ZEROS alignment sectionIndex
    else some st
  | .longOnly number alignment =>
    if isValidSection st sectionIndex then
      setNumberLong h st number h.DEFAULT_DECIMAL_PLACES_INTEGER h.DEFAULT_LEADING_ZEROS
        alignment sectionIndex
    else some st
  | .doubleDecimalsZeros number decimalPlaces leadingZeros alignment =>
    if isValidSection st sectionIndex then
      setNumberDouble h st number decimalPlaces leadingZeros alignment sectionIndex
    else some st
  | .doubleZeros number leadingZeros alignment =>
    if isValidSection st sectionIndex then
      setNumberDouble h st number h.DEFAULT_DECIMAL_PLACES_REAL leadingZeros alignment
        sectionIndex
    else some st
  | .doubleDecimals number decimalPlaces alignment =>
    if isValidSection st sectionIndex then
      setNumberDouble h st number decimalPlaces h.DEFAULT_LEADING_ZEROS alignment sectionIndex
    else some st
  | .doubleOnly number alignment =>
    if isValidSection st sectionIndex then
      setNumberDouble h st number h.DEFAULT_DECIMAL_PLACES_REAL h.DEFAULT_LEADING_ZEROS
        alignment sectionIndex
    else some st
  | .char value alignment =>
    if isValidSection st sectionIndex then setTextChar h st value alignment sectionIndex
    else some st
  | .chars value alignment =>
    if isValidSection st sectionIndex then setTextChars h st value alignment sectionIndex
    else some st
  | .string value alignment =>
    if isValidSection st sectionIndex then setTextString h st value alignment sectionIndex
    else some st
  | .customs customs =>
    if isValidSection st sectionIndex then
      (load st._sectionSizes sectionIndex).bind fun sectionSize =>
      (load st._sectionBegins sectionIndex).bind fun beginIndex =>
      modifyCache st beginIndex sectionSize (ofList customs)
    else some st
  | .charactersDots characters dots =>
    if isValidSection st sectionIndex then
      (load st._sectionSizes sectionIndex).bind fun sectionSize =>
      (newArray sectionSize).bind fun encodedCharacters0 =>
      (encodeCharacters h sectionSize (ofList characters) encodedCharacters0 (-1)).bind
        fun encodedCharacters =>
      (load st._sectionBegins sectionIndex).bind fun beginIndex =>
      (modifyCache st beginIndex sectionSize encodedCharacters).bind fun st1 =>
      dotLoop beginIndex dots (sectionSize - 0).toNat 0 st1
    else some st

/-- The function `ShiftDisplay2::changeDotAt`. -/
def changeDotAt (st : State) (sectionIndex relativeIndex : Int) (dot : Bool) : Option State :=
  if isValidSection st sectionIndex then
    (load st._sectionSizes sectionIndex).bind fun sectionSize =>
    if relativeIndex ≥ 0 ∧ relativeIndex < sectionSize then
      (load st._sectionBegins sectionIndex).bind fun beginIndex =>
      modifyCacheDot st (beginIndex + relativeIndex) dot
    else some st
  else some st

/-- The function `ShiftDisplay2::changeCharacterAt`. -/
def changeCharacterAt (st : State) (sectionIndex relativeIndex : Int) (custom : Byte) :
    Option State :=
  if isValidSection st sectionIndex then
    (load st._sectionSizes sectionIndex).bind fun sectionSize =>
    if relativeIndex ≥ 0 ∧ relativeIndex < sectionSize then
      (load st._sectionBegins sectionIndex).bind fun beginIndex =>
      modifyCache1 st (beginIndex + relativeIndex) custom
    else some st
  else some st

/-! ## update, clear and show -/

/-- The loop of `updateMultiplexedDisplay`, with `n` iterations left to run: the
calls it makes from position `i` on. -/
def updateMultiplexedLoop (h : Header) (st : State) : Nat → Int → Option (List Event)
  | 0, _ => some []
  | n + 1, i =>
    (load st._indexes i).bind fun digit =>
    (load st._cache i).bind fun segments =>
    (updateMultiplexedLoop h st n (i + 1)).map fun rest =>
      [Event.digitalWrite st._latchPin false] ++
      (if !st._isSwapped then
        [Event.shiftOut st._dataPin st._clockPin false digit,
         Event.shiftOut st._dataPin st._clockPin false segments]
       else
        [Event.shiftOut st._dataPin st._clockPin false segments,
         Event.shiftOut st._dataPin st._clockPin false digit]) ++
      [Event.digitalWrite st._latchPin true, Event.delay h.POV] ++ rest

/-- The function `ShiftDisplay2::updateMultiplexedDisplay`: the calls it makes. -/
def updateMultiplexedDisplay (h : Header) (st : State) : Option (List Event) :=
  updateMultiplexedLoop h st (st._displaySize - 0).toNat 0

/-- The loop of `updateStaticDisplay`, with `n` iterations left to run: the calls
it makes from position `i` downwards. -/
def updateStaticLoop (st : State) : Nat → Int → Option (List Event)
  | 0, _ => some []
  | n + 1, i =>
    (load st._cache i).bind fun segments =>
    (updateStaticLoop st n (i - 1)).map fun rest =>
      Event.shiftOut st._dataPin st._clockPin false segments :: rest

/-- The function `ShiftDisplay2::updateStaticDisplay`: the calls it makes. -/
def updateStaticDisplay (st : State) : Option (List Event) :=
  (updateStaticLoop st st._displaySize.toNat (st._displaySize - 1)).map fun shifts =>
    [Event.digitalWrite st._latchPin false] ++ shifts ++
    [Event.digitalWrite st._latchPin true]

/-- The calls `ShiftDisplay2::update` makes. -/
def updateEvents (h : Header) (st : State) : Option (List Event) :=
  if st._isMultiplexed then updateMultiplexedDisplay h st else updateStaticDisplay st

/-- The object together with its surroundings: the reading of the millisecond
clock (an `unsigned long`) and the calls made so far, oldest first. -/
structure Machine where
  display : State
  millis : Nat
  trace : List Event

/-- Conversion to `unsigned long`: the value modulo `2^32`. -/
def toULong (x : Int) : Nat := (x % 2 ^ 32).toNat

/-- The time a sequence of calls takes: only `delay` takes time. -/
def elapsed : List Event → Nat
  | [] => 0
  | Event.delay ms :: rest => ms + elapsed rest
  | _ :: rest => elapsed rest

/-- The machine after the calls `events` have been made. -/
def run (m : Machine) (events : List Event) : Machine :=
  { m with millis := (m.millis + elapsed events) % 2 ^ 32, trace := m.trace ++ events }

/-- The function `ShiftDisplay2::update`. -/
def update (h : Header) (m : Machine) : Option Machine :=
  (updateEvents h m.display).map (run m)

/-- The function `ShiftDisplay2::clear`, on the machine. -/
def clearDisplay (h : Header) (m : Machine) : Option Machine :=
  some (run m (clear h m.display))

/-- The loop `while (millis() <= beforeLast) updateMultiplexedDisplay()` of `show`,
with at most `fuel` evaluations of its condition; `none` when they do not
suffice. -/
def showLoop (h : Header) (beforeLast : Nat) : Nat → Machine → Option Machine
  | 0, _ => none
  | fuel + 1, m =>
    if m.millis ≤ beforeLast then
      (updateMultiplexedDisplay h m.display).bind fun events =>
      showLoop h beforeLast fuel (run m events)
    else some m

/-- The function `ShiftDisplay2::show(unsigned long time)`. -/
def showTime (h : Header) (fuel : Nat) (m : Machine) (time : Nat) : Option Machine :=
  if m.display._isMultiplexed then
    let beforeLast : Nat :=
      toULong ((m.millis : Int) + (time : Int) - ((h.POV : Int) * m.display._displaySize))
    (showLoop h beforeLast fuel m).map fun m1 =>
      run m1 (clearMultiplexedDisplay h m1.display)
  else
    (updateStaticDisplay m.display).map fun events =>
      run (run (run m events) [Event.delay time]) (clearStaticDisplay h m.display)

/-! ## scroll -/

/-- The function `String::substring(left, right)` of the Arduino core. -/
def substring (value : List CChar) (left right : Nat) : List CChar :=
  let lo := if left > right then right else left
  let hi := if left > right then left else right
  if lo ≥ value.length then []
  else (value.drop lo).take ((if hi > value.length then value.length else hi) - lo)

/-- The function `ShiftDisplay2::set(const String &value, Alignment alignment)`,
which writes section 0. -/
def setString (h : Header) (st : State) (value : List CChar) (alignment : Alignment) :
    Option State :=
  setTextString h st value alignment 0

/-- The function `ShiftDisplay2::scroll(String &value, int speed)`, whose body is
the call `scroll(value, speed)` of this same overload; `fuel` bounds the depth of
the calls, `none` when it does not suffice. -/
def scrollString (h : Header) : Nat → Machine → List CChar → Int → Option Machine
  | 0, _, _, _ => none
  | fuel + 1, m, value, speed => scrollString h fuel m value speed

/-- The function `ShiftDisplay2::scroll(const char value[], int speed)`, whose body
is the call `scroll(value, speed)` of this same overload; `fuel` bounds the depth
of the calls, `none` when it does not suffice. -/
def scrollChars (h : Header) : Nat → Machine → List CChar → Int → Option Machine
  | 0, _, _, _ => none
  | fuel + 1, m, value, speed => scrollChars h fuel m value speed

/-- The loop of `scroll(char value, int speed)`, with `n` iterations left to run;
`fuel` is that of each `show`. -/
def scrollCharLoop (h : Header) (fuel : Nat) (value : List CChar) (speed : Int) :
    Nat → Int → Int → Machine → Option Machine
  | 0, _, _, m => some m
  | n + 1, i, endChar, m =>
    (setString h m.display (substring value i.toNat endChar.toNat)
      h.DEFAULT_ALIGN_TEXT).bind fun st =>
    (showTime h fuel { m with display := st } (toULong speed)).bind fun m1 =>
    scrollCharLoop h fuel value speed n (i + 1) (endChar + 1) m1

/-- The function `ShiftDisplay2::scroll(char value, int speed)`. -/
def scrollChar (h : Header) (fuel : Nat) (m : Machine) (value : CChar) (speed : Int) :
    Option Machine :=
  let text : List CChar := if value = 0 then [] else [value]
  if (text.length : Int) > m.display._displaySize then
    scrollCharLoop h fuel text speed text.length 0 m.display._displaySize m
  else
    (setString h m.display text h.DEFAULT_ALIGN_TEXT).bind fun st =>
    showTime h fuel { m with display := st } (toULong (speed * m.display._displaySize))

/-! ## Reference definitions -/

/-- The value `formatCharacters` returns, given the right border. -/
def dotIndexOf (right outSize decimalPlaces : Int) : Int :=
  if decimalPlaces = -1 then -1
  else if right - decimalPlaces < 0 ∨ right - decimalPlaces > outSize - 1 then -1
  else right - decimalPlaces

/-- The decimal digits of a natural number, most significant first; zero has the
single digit 0. -/
def decimalDigits (m : Nat) : List Nat :=
  if m = 0 then [0] else (Nat.digits 10 m).reverse

/-- The decimal representation of an integer as character codes: a minus sign
when it is negative, then the digits of its magnitude, most significant first. -/
def decimalRepr (n : Int) : List CChar :=
  (if n < 0 then [chr '-'] else []) ++ (decimalDigits n.natAbs).map (fun d => d + chr '0')

/-- The character codes of a string. -/
def codes (s : String) : List CChar := s.toList.map Char.toNat

/-- A value laid out in a field with `blanks` blank positions to spare: all of
them in front of the value when it is right-aligned, all behind it when it is
left-aligned, and the lower half (rounded down) in front when it is centred. -/
def padded (a : Alignment) (blanks : Nat) (value : List CChar) : List CChar :=
  match a with
  | .ALIGN_RIGHT => List.replicate blanks (chr ' ') ++ value
  | .ALIGN_LEFT => value ++ List.replicate blanks (chr ' ')
  | .ALIGN_CENTER =>
    List.replicate (blanks / 2) (chr ' ') ++ value ++
      List.replicate (blanks - blanks / 2) (chr ' ')

/-- The number of spare positions that end up in front of a value that fits its
field with `blanks` positions to spare. -/
def frontBlanks (a : Alignment) (blanks : Nat) : Nat :=
  match a with
  | .ALIGN_RIGHT => blanks
  | .ALIGN_LEFT => 0
  | .ALIGN_CENTER => blanks / 2

/-- The part of a source that is kept in a field narrower than the source: its
first `w` characters when left-aligned, its last `w` when right-aligned, and the
`w` characters from index `(length - w) / 2` (rounded down) on when centred. -/
def truncated (a : Alignment) (w : Nat) (source : List CChar) : List CChar :=
  match a with
  | .ALIGN_LEFT => source.take w
  | .ALIGN_RIGHT => source.drop (source.length - w)
  | .ALIGN_CENTER => (source.drop ((source.length - w) / 2)).take w

/-- A header to evaluate the definitions on: seven-segment patterns in the order
`ABCDEFG.`, eight digits, the 16-bit `int` of AVR, and exact arithmetic for `double`
(the product and the conversion without rounding error; the examples below use
numbers at which binary64 gives the same product). The statements below hold for
every header. -/
def sampleHeader : Header where
  NUMBERS := fun i => [0xFC, 0x60, 0xDA, 0xF2, 0x66, 0xB6, 0xBE, 0xE0, 0xFE, 0xF6].getD i 0
  LETTERS := fun i => [0xEE, 0x3E, 0x1A, 0x7A, 0xDE, 0x8E, 0xF6, 0x2E, 0x60, 0x70, 0xAE, 0x1C,
    0xA8, 0x2A, 0x3A, 0xCE, 0xE6, 0x0A, 0xB6, 0x1E, 0x38, 0x7C, 0x54, 0x6E, 0x76, 0xDA].getD i 0
  MINUS := 0x02
  EMPTY := 0x00
  INDEXES := fun i => [0x01, 0x02, 0x04, 0x08, 0x10, 0x20, 0x40, 0x80].getD i 0
  MAX_DISPLAY_SIZE := 8
  POV := 1
  DEFAULT_DECIMAL_PLACES_INTEGER := 0
  DEFAULT_DECIMAL_PLACES_REAL := 1
  DEFAULT_LEADING_ZEROS := false
  DEFAULT_ALIGN_TEXT := Alignment.ALIGN_LEFT
  INT_MAX := 32767
  scaleDouble := fun number decimalPlaces => number * (10 : ℚ) ^ decimalPlaces
  longToDouble := fun number => (number : ℚ)

/-- An object to evaluate the definitions on: eight cache cells, all segments
off, no sections. -/
def sampleState (isCathode : Bool) : State where
  _latchPin := 6
  _clockPin := 7
  _dataPin := 5
  _isCathode := isCathode
  _isMultiplexed := true
  _isSwapped := false
  _displaySize := 0
  _sectionCount := 0
  _sectionBegins := List.replicate 8 none
  _sectionSizes := List.replicate 8 none
  _indexes := List.replicate 8 (some 0)
  _cache := List.replicate 8 (some (polarity isCathode 0))

/-- The tables and the single patterns of a header hold bytes. -/
def ByteHeader (h : Header) : Prop :=
  (∀ i, h.NUMBERS i < 256) ∧ (∀ i, h.LETTERS i < 256) ∧ h.MINUS < 256 ∧ h.EMPTY < 256 ∧
  (∀ i, h.INDEXES i < 256)

/-- The shape `construct` gives an object: a cache and a digit table of
`MAX_DISPLAY_SIZE` stored cells, a display size within `MAX_DISPLAY_SIZE`, and for
every section below the section count a stored begin and a stored positive size
that lie inside the display. -/
def WellFormed (h : Header) (st : State) : Prop :=
  st._cache.length = h.MAX_DISPLAY_SIZE ∧
  (∀ k : Int, 0 ≤ k → k < h.MAX_DISPLAY_SIZE → ∃ b, load st._cache k = some b) ∧
  (∀ k : Int, 0 ≤ k → k < h.MAX_DISPLAY_SIZE → ∃ b, load st._indexes k = some b) ∧
  0 ≤ st._sectionCount ∧ 0 ≤ st._displaySize ∧ st._displaySize ≤ h.MAX_DISPLAY_SIZE ∧
  ∀ s : Int, 0 ≤ s → s < st._sectionCount →
    ∃ b z, load st._sectionBegins s = some b ∧ load st._sectionSizes s = some z ∧
      0 ≤ b ∧ 0 < z ∧ b + z ≤ st._displaySize

/-- Every stored cell of the cache holds a byte. -/
def ByteCache (st : State) : Prop :=
  ∀ (k : Int) (b : Byte), load st._cache k = some b → b < 256

/-- The object `construct` makes for `sampleHeader`, on the default pins and with
the default digit indexes. -/
def sampleDisplay (displayType : DisplayType) (sectionSizes : List Int)
    (displayDrive : DisplayDrive) : Option State :=
  (construct sampleHeader 6 7 5 displayType sectionSizes displayDrive false
    [0, 1, 2, 3, 4, 5, 6, 7]).map fun r => r.1

/-- The number of calls of `delay` in a sequence of calls. -/
def dwells : List Event → Nat
  | [] => 0
  | Event.delay _ :: rest => 1 + dwells rest
  | _ :: rest => dwells rest

/-- The calls of one digit of a multiplexed scan: latch low, the two bytes in the
order the wiring asks for, latch high, the dwell. -/
def scanStep (h : Header) (st : State) (digit segments : Byte) : List Event :=
  [Event.digitalWrite st._latchPin false] ++
  (if st._isSwapped then
    [Event.shiftOut st._dataPin st._clockPin false segments,
     Event.shiftOut st._dataPin st._clockPin false digit]
   else
    [Event.shiftOut st._dataPin st._clockPin false digit,
     Event.shiftOut st._dataPin st._clockPin false segments]) ++
  [Event.digitalWrite st._latchPin true, Event.delay h.POV]

/-- A cache in which the cells from position `b` on are replaced by the bytes
`written`. -/
def splice (cache : List (Option Byte)) (b : Nat) (written : List Byte) : List (Option Byte) :=
  cache.take b ++ ofList written ++ cache.drop (b + written.length)

/-- The number of characters of a real before its decimal places, in closed form: 2
between -1 and 0 (minus sign and zero), otherwise the number of characters of its
integer part (the decimal digits and the minus sign, if any). -/
def realCount (number : ℚ) : Int :=
  if number > -1 ∧ number < 0 then 2
  else ((decimalRepr (if 0 ≤ number then ⌊number⌋ else -⌊-number⌋)).length : Int)

/-- The reals and decimal places `setReal` handles without undefined behaviour: the
number lies strictly between `-2^31` and `2^31`, so that its integer part is a `long`
that can be negated; the scaled number lies strictly between `-(2^31 - 1/2)` and
`2^31 - 1/2`, so that it rounds to such a `long` too; and the size
`realCount number + decimalPlaces` of the buffer is positive and an `int`
(`realCount` is at least 1, see `realCount_pos`). -/
def AcceptedReal (h : Header) (number : ℚ) (decimalPlaces : Int) : Prop :=
  |number| < (LONG_MAX : ℚ) + 1 ∧
  |h.scaleDouble number decimalPlaces| < (LONG_MAX : ℚ) + 1 / 2 ∧
  0 < realCount number + decimalPlaces ∧ realCount number + decimalPlaces ≤ h.INT_MAX

/-- The integers `setNumber(long, ...)` handles without undefined behaviour: with no
decimal places every `long` but the least one, whose negation overflows; with decimal
places those whose conversion to `double` is in `AcceptedReal`. -/
def AcceptedLong (h : Header) (number decimalPlaces : Int) : Prop :=
  if decimalPlaces = 0 then number ≠ LONG_MIN
  else AcceptedReal h (h.longToDouble number) decimalPlaces

/-- The reals `setNumber(double, ...)` handles without undefined behaviour: with no
decimal places those strictly between `-(2^31 - 1/2)` and `2^31 - 1/2`, which round to
a `long` other than the least one; with decimal places those in `AcceptedReal`. -/
def AcceptedDouble (h : Header) (number : ℚ) (decimalPlaces : Int) : Prop :=
  if decimalPlaces = 0 then |number| < (LONG_MAX : ℚ) + 1 / 2
  else AcceptedReal h number decimalPlaces

/-- The arguments `setAt` handles without undefined behaviour on a section of
`sectionSize` digits: the numbers of `AcceptedLong` and `AcceptedDouble`, every
character and every text, and arrays of patterns, of characters and of dots that
have at least `sectionSize` elements. -/
def Accepted (h : Header) (sectionSize : Int) : SetAtArgs → Prop
  | .intDecimalsZeros number decimalPlaces _ _ => AcceptedLong h number decimalPlaces
  | .intZeros number _ _ => AcceptedLong h number h.DEFAULT_DECIMAL_PLACES_INTEGER
  | .intDecimals number decimalPlaces _ => AcceptedLong h number decimalPlaces
  | .intOnly number _ => AcceptedLong h number h.DEFAULT_DECIMAL_PLACES_INTEGER
  | .longDecimalsZeros number decimalPlaces _ _ => AcceptedLong h number decimalPlaces
  | .longZeros number _ _ => AcceptedLong h number h.DEFAULT_DECIMAL_PLACES_INTEGER
  | .longDecimals number decimalPlaces _ => AcceptedLong h number decimalPlaces
  | .longOnly number _ => AcceptedLong h number h.DEFAULT_DECIMAL_PLACES_INTEGER
  | .doubleDecimalsZeros number decimalPlaces _ _ => AcceptedDouble h number decimalPlaces
  | .doubleZeros number _ _ => AcceptedDouble h number h.DEFAULT_DECIMAL_PLACES_REAL
  | .doubleDecimals number decimalPlaces _ => AcceptedDouble h number decimalPlaces
  | .doubleOnly number _ => AcceptedDouble h number h.DEFAULT_DECIMAL_PLACES_REAL
  | .char _ _ => True
  | .chars _ _ => True
  | .string _ _ => True
  | .customs customs => sectionSize ≤ customs.length
  | .charactersDots characters dots =>
    sectionSize ≤ characters.length ∧ sectionSize ≤ dots.length

/-- The indices of the stores in a sequence of accesses, oldest first. -/
def writesOf : List Access → List Int
  | [] => []
  | Access.write i :: rest => i :: writesOf rest
  | Access.read _ :: rest => writesOf rest

/-- The indices of the loads in a sequence of accesses, oldest first. -/
def readsOf : List Access → List Int
  | [] => []
  | Access.write _ :: rest => readsOf rest
  | Access.read j :: rest => j :: readsOf rest

/-- The accesses of `n` iterations of a fill loop from index `i` on. -/
def fillAccesses : Nat → Int → List Access
  | 0, _ => []
  | n + 1, i => Access.write i :: fillAccesses n (i + 1)

/-- The accesses of `n` iterations of the loop over the characters from the
indices `i` and `j` on. -/
def copyAccesses (minimum maximum : Int) : Nat → Int → Int → List Access
  | 0, _, _ => []
  | n + 1, i, j =>
    (if i ≥ minimum ∧ i ≤ maximum then [Access.read j, Access.write i] else []) ++
      copyAccesses minimum maximum n (i + 1) (j + 1)

/-! ## Cells, stores and loads -/

theorem cell_natCast {β : Type} (a : List β) (n : Nat) : cell a (n : Int) = a[n]? := by
  simp [cell]

theorem cell_of_neg {β : Type} (a : List β) {k : Int} (hk : k < 0) : cell a k = none := by
  have h : ¬ (0 ≤ k) := by omega
  simp [cell, h]

theorem cell_of_length_le {β : Type} (a : List β) {k : Int} (hk : (a.length : Int) ≤ k) :
    cell a k = none := by
  unfold cell
  split
  · apply List.getElem?_eq_none
    omega
  · rfl

theorem cell_of_lt {β : Type} (a : List β) {k : Int} (h0 : 0 ≤ k) (hk : k < a.length) :
    ∃ v, cell a k = some v := by
  have hlt : k.toNat < a.length := by omega
  exact ⟨a[k.toNat], by simp [cell, h0, List.getElem?_eq_getElem hlt]⟩

theorem cell_ext {β : Type} {a b : List β} (h : ∀ k : Int, 0 ≤ k → cell a k = cell b k) :
    a = b := by
  apply List.ext_getElem?
  intro n
  have := h (n : Int) (by omega)
  simpa [cell_natCast] using this

theorem store_eq {α : Type} (a : List (Option α)) {i : Int} (v : α) (h0 : 0 ≤ i)
    (hi : i < a.length) : store a i v = some (a.set i.toNat (some v)) := by
  simp [store, h0, hi]

theorem store_length {α : Type} {a a1 : List (Option α)} {i : Int} {v : α}
    (h : store a i v = some a1) : a1.length = a.length := by
  unfold store at h
  split at h
  · cases h
    simp
  · cases h

theorem cell_store {α : Type} {a a1 : List (Option α)} {i : Int} {v : α}
    (h : store a i v = some a1) (k : Int) :
    cell a1 k = if k = i then some (some v) else cell a k := by
  unfold store at h
  split at h
  next hb =>
    cases h
    by_cases hk : 0 ≤ k
    · have hlt : i.toNat < a.length := by omega
      by_cases hki : k = i
      · subst hki
        simp [cell, hk, List.getElem?_set, hlt]
      · have hne : i.toNat ≠ k.toNat := by omega
        simp [cell, hk, hki, List.getElem?_set_ne hne]
    · have hki : k ≠ i := by omega
      simp [cell, hk, hki]
  next => cases h

theorem cell_ofList {α : Type} (l : List α) (k : Int) :
    cell (ofList l) k = (cell l k).map some := by
  unfold cell ofList
  split <;> simp

theorem load_ofList {α : Type} (l : List α) (k : Int) : load (ofList l) k = cell l k := by
  unfold load
  rw [cell_ofList]
  cases cell l k <;> rfl

theorem length_ofList {α : Type} (l : List α) : (ofList l).length = l.length := by
  simp [ofList]

theorem eq_ofList {α : Type} {out : List (Option α)} {l : List α}
    (hlen : out.length = l.length)
    (h : ∀ n : Nat, n < l.length → cell out (n : Int) = some l[n]?) : out = ofList l := by
  apply List.ext_getElem?
  intro n
  by_cases hn : n < l.length
  · have := h n hn
    rw [cell_natCast] at this
    rw [this]
    simp [ofList, List.getElem?_eq_getElem hn]
  · rw [List.getElem?_eq_none (by omega), List.getElem?_eq_none (by simp [ofList]; omega)]

theorem contents_ofList {α : Type} (l : List α) : contents (ofList l) = some l := by
  induction l with
  | nil => rfl
  | cons x xs ih =>
    show contents (some x :: ofList xs) = _
    simp [contents, ih]

/-! ## The loops of formatCharacters -/

theorem fillLoop_spec (c : CChar) (n : Nat) : ∀ (i : Int) (out : List (Option CChar)),
    (0 < n → 0 ≤ i ∧ i + n ≤ out.length) →
    ∃ out1, fillLoop c n i out = some out1 ∧ out1.length = out.length ∧
      ∀ k : Int, cell out1 k = if i ≤ k ∧ k < i + n then some (some c) else cell out k := by
  induction n with
  | zero =>
    intro i out _
    refine ⟨out, rfl, rfl, ?_⟩
    intro k
    rw [if_neg (by omega)]
  | succ n ih =>
    intro i out hpre
    obtain ⟨h0, hn⟩ := hpre (by omega)
    have hs := store_eq out c h0 (by omega)
    obtain ⟨out1, h1, hl1, hc1⟩ := ih (i + 1) (out.set i.toNat (some c))
      (by intro _; simp; omega)
    refine ⟨out1, ?_, ?_, ?_⟩
    · simp [fillLoop, hs, h1]
    · simpa using hl1
    · intro k
      rw [hc1 k, cell_store hs k]
      by_cases hk : k = i
      · rw [if_neg (by omega), if_pos hk, if_pos (by omega)]
      · by_cases hr : i + 1 ≤ k ∧ k < i + 1 + (n : Int)
        · rw [if_pos hr, if_pos (by omega)]
        · rw [if_neg hr, if_neg hk, if_neg (by omega)]

theorem copyLoop_spec (maximum : Int) (inp : List CChar) (n : Nat) :
    ∀ (i j : Int) (out : List (Option CChar)),
    maximum < out.length →
    (∀ t : Int, 0 ≤ t → t < n → 0 ≤ i + t → i + t ≤ maximum →
      0 ≤ j + t ∧ j + t < inp.length) →
    ∃ out1, copyLoop 0 maximum (ofList inp) n i j out = some out1 ∧
      out1.length = out.length ∧
      ∀ k : Int, cell out1 k =
        if i ≤ k ∧ k < i + n ∧ 0 ≤ k ∧ k ≤ maximum then (cell inp (j + (k - i))).map some
        else cell out k := by
  induction n with
  | zero =>
    intro i j out _ _
    refine ⟨out, rfl, rfl, ?_⟩
    intro k
    rw [if_neg (by omega)]
  | succ n ih =>
    intro i j out hmax hin
    have hin1 : ∀ t : Int, 0 ≤ t → t < n → 0 ≤ i + 1 + t → i + 1 + t ≤ maximum →
        0 ≤ j + 1 + t ∧ j + 1 + t < inp.length := by
      intro t ht0 htn h0 h1
      have := hin (t + 1) (by omega) (by omega) (by omega) (by omega)
      omega
    by_cases hb : i ≥ 0 ∧ i ≤ maximum
    · obtain ⟨hj0, hj1⟩ := hin 0 (by omega) (by omega) (by omega) (by omega)
      obtain ⟨v, hv⟩ := cell_of_lt inp (k := j) (by omega) (by omega)
      have hs := store_eq out v hb.1 (by omega)
      obtain ⟨out1, h1, hl1, hc1⟩ := ih (i + 1) (j + 1) (out.set i.toNat (some v))
        (by simp; omega) hin1
      refine ⟨out1, ?_, ?_, ?_⟩
      · simp [copyLoop, hb, load_ofList, hv, hs, h1]
      · simpa using hl1
      · intro k
        rw [hc1 k, cell_store hs k]
        by_cases hk : k = i
        · have h4 : j + (k - i) = j := by omega
          rw [if_neg (by omega), if_pos hk, if_pos (by omega), h4, hv]
          rfl
        · by_cases hr : i + 1 ≤ k ∧ k < i + 1 + (n : Int) ∧ 0 ≤ k ∧ k ≤ maximum
          · have h4 : j + 1 + (k - (i + 1)) = j + (k - i) := by omega
            rw [if_pos hr, if_pos (by omega), h4]
          · rw [if_neg hr, if_neg hk, if_neg (by omega)]
    · obtain ⟨out1, h1, hl1, hc1⟩ := ih (i + 1) (j + 1) out hmax hin1
      refine ⟨out1, ?_, hl1, ?_⟩
      · simp [copyLoop, hb, h1]
      · intro k
        rw [hc1 k]
        by_cases hr : i + 1 ≤ k ∧ k < i + 1 + (n : Int) ∧ 0 ≤ k ∧ k ≤ maximum
        · have h4 : j + 1 + (k - (i + 1)) = j + (k - i) := by omega
          rw [if_pos hr, if_pos (by omega), h4]
        · rw [if_neg hr, if_neg (by omega)]

/-! ## formatCharacters in closed form -/

theorem tdiv_two (d : Int) : d.tdiv 2 = if 0 ≤ d then d / 2 else -((-d) / 2) := by
  split
  next h => exact Int.tdiv_eq_ediv h (by decide)
  next h =>
    have h1 : d = -(-d) := by omega
    have h2 : (0 : Int) ≤ -d := by omega
    conv => lhs; rw [h1, Int.neg_tdiv, Int.tdiv_eq_ediv h2 (by decide)]

theorem border_facts (inSize outSize : Int) (a : Alignment) (hin : 0 ≤ inSize)
    (hout : 0 ≤ outSize) :
    rightBorder inSize outSize a = leftBorder inSize outSize a + inSize - 1 ∧
    leftBorder inSize outSize a ≤ outSize ∧ 0 ≤ leftBorder inSize outSize a + inSize := by
  cases a
  · simp only [rightBorder, leftBorder]
    omega
  · simp only [rightBorder, leftBorder]
    omega
  · simp only [rightBorder, leftBorder]
    rw [tdiv_two]
    by_cases h : 0 ≤ outSize - inSize
    · rw [if_pos h]
      refine ⟨trivial, ?_, ?_⟩ <;> omega
    · rw [if_neg h]
      refine ⟨trivial, ?_, ?_⟩ <;> omega

theorem formatCharacters_spec (inp : List CChar) (outSize : Int) (out0 : List (Option CChar))
    (hlen : (out0.length : Int) = outSize) (a : Alignment) (lz : Bool) (dp : Int) :
    ∃ out, formatCharacters inp.length (ofList inp) outSize out0 a lz dp =
        some (out, dotIndexOf (rightBorder inp.length outSize a) outSize dp) ∧
      out.length = out0.length ∧
      ∀ k : Int, 0 ≤ k → k < outSize → cell out k =
        if k < leftBorder inp.length outSize a then
          some (some (if lz then chr '0' else chr ' '))
        else if k ≤ rightBorder inp.length outSize a then
          (cell inp (k - leftBorder inp.length outSize a)).map some
        else some (some (chr ' ')) := by
  obtain ⟨hR, hL, hLn⟩ := border_facts inp.length outSize a (by omega) (by omega)
  simp only [formatCharacters]
  generalize leftBorder (inp.length : Int) outSize a = L at *
  generalize rightBorder (inp.length : Int) outSize a = R at *
  obtain ⟨o1, e1, l1, c1⟩ := fillLoop_spec (if lz then chr '0' else chr ' ') (L - 0).toNat 0 out0
    (by intro _; omega)
  obtain ⟨o2, e2, l2, c2⟩ := copyLoop_spec (outSize - 1) inp (R + 1 - L).toNat L 0 o1
    (by omega) (by intro t _ _ _ _; omega)
  obtain ⟨o3, e3, l3, c3⟩ := fillLoop_spec (chr ' ') (outSize - (R + 1)).toNat (R + 1) o2
    (by intro _; omega)
  refine ⟨o3, ?_, by omega, ?_⟩
  · have e1b : fillLoop (if lz = true then chr '0' else chr ' ') (L - 0).toNat 0 out0 = some o1 := e1
    rw [e1b, Option.some_bind, e2, Option.some_bind, e3, Option.some_bind]
    unfold dotIndexOf
    split
    · rfl
    · split <;> rfl
  · intro k hk0 hk1
    rw [c3 k, c2 k, c1 k]
    by_cases hkL : k < L
    · rw [if_neg (by omega), if_neg (by omega), if_pos (by omega), if_pos hkL]
    · by_cases hkR : k ≤ R
      · have h4 : (0 : Int) + (k - L) = k - L := by omega
        rw [if_neg (by omega), if_pos (by omega), if_neg hkL, if_pos hkR, h4]
      · rw [if_pos (by omega), if_neg hkL, if_neg hkR]

/-! ## countCharacters and getCharacters in closed form -/

theorem digits_getD (i : Nat) : ∀ m : Nat, (Nat.digits 10 m).getD i 0 = m / 10 ^ i % 10 := by
  induction i with
  | zero =>
    intro m
    by_cases hm : m = 0
    · subst hm
      simp
    · rw [Nat.digits_eq_cons_digits_div (by decide) hm]
      simp
  | succ i ih =>
    intro m
    by_cases hm : m = 0
    · subst hm
      simp
    · rw [Nat.digits_eq_cons_digits_div (by decide) hm]
      have := ih (m / 10)
      simp only [List.getD_eq_getElem?_getD, List.getElem?_cons_succ] at this ⊢
      rw [this, Nat.div_div_eq_div_mul, pow_succ, Nat.mul_comm]

theorem decimalDigits_length_pos (m : Nat) : 0 < (decimalDigits m).length := by
  unfold decimalDigits
  split
  · simp
  next h =>
    rw [List.length_reverse]
    exact List.length_pos.mpr (Nat.digits_ne_nil_iff_ne_zero.mpr h)

theorem decimalDigits_getElem? (m k : Nat) (hk : k < (decimalDigits m).length) :
    (decimalDigits m)[k]? = some (m / 10 ^ ((decimalDigits m).length - 1 - k) % 10) := by
  unfold decimalDigits at hk ⊢
  split at hk
  next h =>
    subst h
    simp at hk
    subst hk
    simp
  next h =>
    rw [if_neg h]
    rw [List.length_reverse] at hk ⊢
    rw [List.getElem?_reverse hk, ← digits_getD]
    have hlt : (Nat.digits 10 m).length - 1 - k < (Nat.digits 10 m).length := by omega
    simp [List.getElem?_eq_getElem hlt]

theorem decimalDigits_step (m : Nat) (hm : 10 ≤ m) :
    (decimalDigits m).length = (decimalDigits (m / 10)).length + 1 := by
  have h1 : m ≠ 0 := by omega
  have h2 : m / 10 ≠ 0 := by omega
  unfold decimalDigits
  rw [if_neg h1, if_neg h2, Nat.digits_eq_cons_digits_div (by decide) h1]
  simp

theorem decimalDigits_small (m : Nat) (hm : m < 10) : (decimalDigits m).length = 1 := by
  unfold decimalDigits
  split
  · rfl
  next h =>
    rw [Nat.digits_of_lt 10 m h hm]
    rfl

theorem countCharacters_natCast (m : Nat) :
    countCharacters (m : Int) = some ((decimalDigits m).length : Int) := by
  induction m using Nat.strong_induction_on with
  | _ m ih =>
    rw [countCharacters]
    have h0 : ¬ ((m : Int) < 0) := by omega
    rw [if_neg h0]
    by_cases h10 : m < 10
    · rw [if_pos (by omega), decimalDigits_small m h10]
      rfl
    · rw [if_neg (by omega)]
      have hd : (m : Int).tdiv 10 = ((m / 10 : Nat) : Int) := by
        rw [Int.tdiv_eq_ediv (by omega) (by decide)]
        omega
      rw [hd, ih (m / 10) (by omega), decimalDigits_step m (by omega)]
      simp only [Option.map_some', Option.some.injEq]
      omega

theorem decimalRepr_length (n : Int) :
    ((decimalRepr n).length : Int) =
      (if n < 0 then 1 else 0) + ((decimalDigits n.natAbs).length : Int) := by
  unfold decimalRepr
  split
  · simp only [List.length_append, List.length_map, List.length_singleton]
    omega
  · simp

theorem countCharacters_eq (n : Int) (hn : n ≠ LONG_MIN) :
    countCharacters n = some ((decimalRepr n).length : Int) := by
  rw [decimalRepr_length]
  by_cases h : n < 0
  · rw [countCharacters, if_pos h, if_neg hn, if_pos h]
    have hneg : -n = ((n.natAbs : Nat) : Int) := by omega
    rw [hneg, countCharacters_natCast]
    rfl
  · have hpos : n = ((n.natAbs : Nat) : Int) := by omega
    rw [if_neg h]
    conv => lhs; rw [hpos]
    rw [countCharacters_natCast]
    simp

theorem digitLoop_spec (n : Nat) : ∀ (i : Int) (m : Nat) (out : List (Option CChar)),
    i = (n : Int) - 1 → (n : Int) ≤ out.length →
    ∃ out1, digitLoop n i (m : Int) out = some out1 ∧ out1.length = out.length ∧
      ∀ k : Int, cell out1 k =
        if 0 ≤ k ∧ k < n then some (some (m / 10 ^ ((n : Int) - 1 - k).toNat % 10 + chr '0'))
        else cell out k := by
  induction n with
  | zero =>
    intro i m out _ _
    refine ⟨out, rfl, rfl, ?_⟩
    intro k
    rw [if_neg (by omega)]
  | succ n ih =>
    intro i m out hi hlen
    have hc : (((m : Int).tmod 10 + (chr '0' : Int)).toNat : Nat) = m % 10 + chr '0' := by
      rw [Int.tmod_eq_emod (by omega) (by decide)]
      omega
    have hd : (m : Int).tdiv 10 = ((m / 10 : Nat) : Int) := by
      rw [Int.tdiv_eq_ediv (by omega) (by decide)]
      omega
    have hs := store_eq out (m % 10 + chr '0') (i := i) (by omega) (by omega)
    obtain ⟨out1, h1, hl1, hc1⟩ := ih (i - 1) (m / 10) (out.set i.toNat (some (m % 10 + chr '0')))
      (by omega) (by simp; omega)
    refine ⟨out1, ?_, ?_, ?_⟩
    · simp only [digitLoop, hc, hd, hs, Option.some_bind, h1]
    · simpa using hl1
    · intro k
      rw [hc1 k, cell_store hs k]
      by_cases hk : k = i
      · have he : (((n + 1 : Nat) : Int) - 1 - k).toNat = 0 := by omega
        rw [if_neg (by omega), if_pos hk, if_pos (by omega), he]
        simp
      · by_cases hr : 0 ≤ k ∧ k < (n : Int)
        · have he : (((n + 1 : Nat) : Int) - 1 - k).toNat = ((n : Int) - 1 - k).toNat + 1 := by
            omega
          rw [if_pos hr, if_pos (by omega), he, Nat.div_div_eq_div_mul, pow_succ, Nat.mul_comm]
        · rw [if_neg hr, if_neg hk, if_neg (by omega)]

theorem getCharacters_spec (v : Int) (hv : v ≠ LONG_MIN) (size : Nat)
    (out0 : List (Option CChar)) (hlen : out0.length = size) (hneg : v < 0 → 0 < size) :
    ∃ out, getCharacters v size out0 = some out ∧ out.length = size ∧
      ∀ k : Int, 0 ≤ k → k < size → cell out k =
        some (some (if v < 0 ∧ k = 0 then chr '-'
          else v.natAbs / 10 ^ ((size : Int) - 1 - k).toNat % 10 + chr '0')) := by
  obtain ⟨o1, e1, l1, c1⟩ := digitLoop_spec size ((size : Int) - 1) v.natAbs out0 rfl (by omega)
  by_cases h : v < 0
  · have hs := store_eq o1 (chr '-') (i := 0) (by omega) (by have := hneg h; omega)
    have habs : -v = ((v.natAbs : Nat) : Int) := by omega
    refine ⟨o1.set (0 : Int).toNat (some (chr '-')), ?_, ?_, ?_⟩
    · simp only [getCharacters, if_pos h, if_neg hv, Option.some_bind, habs, Int.toNat_ofNat, e1,
        hs]
      simp [h]
    · simp; omega
    · intro k hk0 hk1
      rw [cell_store hs k, c1 k]
      by_cases hk : k = 0
      · rw [if_pos hk, if_pos ⟨h, hk⟩]
      · rw [if_neg hk, if_pos ⟨hk0, hk1⟩, if_neg (by omega)]
  · have habs : v = ((v.natAbs : Nat) : Int) := by omega
    refine ⟨o1, ?_, by omega, ?_⟩
    · have e2 : digitLoop size ((size : Int) - 1) v out0 = some o1 := by
        rw [habs]
        simpa using e1
      simp only [getCharacters, if_neg h, Option.some_bind, Int.toNat_ofNat, e2]
      simp [h]
    · intro k hk0 hk1
      rw [c1 k, if_pos ⟨hk0, hk1⟩, if_neg (by omega)]

theorem decimalRepr_getElem? (n : Int) (idx : Nat) (hidx : idx < (decimalRepr n).length) :
    (decimalRepr n)[idx]? = some (if n < 0 ∧ (idx : Int) = 0 then chr '-'
      else n.natAbs / 10 ^ ((((decimalRepr n).length : Nat) : Int) - 1 - idx).toNat % 10
        + chr '0') := by
  have hl := decimalRepr_length n
  by_cases h : n < 0
  · rw [if_pos h] at hl
    by_cases h0 : idx = 0
    · subst h0
      simp [decimalRepr, h]
    · have hlt : idx - 1 < (decimalDigits n.natAbs).length := by omega
      have he : (((decimalRepr n).length : Int) - 1 - idx).toNat =
          (decimalDigits n.natAbs).length - 1 - (idx - 1) := by omega
      rw [if_neg (by omega), he]
      unfold decimalRepr
      rw [if_pos h, List.getElem?_append_right (by simp; omega), List.getElem?_map,
        List.length_singleton, decimalDigits_getElem? _ _ hlt]
      rfl
  · rw [if_neg h] at hl
    have hlt : idx < (decimalDigits n.natAbs).length := by omega
    have he : (((decimalRepr n).length : Int) - 1 - idx).toNat =
        (decimalDigits n.natAbs).length - 1 - idx := by omega
    rw [if_neg (by omega), he]
    unfold decimalRepr
    rw [if_neg h, List.nil_append, List.getElem?_map, decimalDigits_getElem? _ _ hlt]
    rfl

theorem getCharacters_eq (n : Int) (hn : n ≠ LONG_MIN) (out0 : List (Option CChar))
    (hlen : out0.length = (decimalRepr n).length) :
    getCharacters n ((decimalRepr n).length : Int) out0 = some (ofList (decimalRepr n)) := by
  have hpos : 0 < (decimalRepr n).length := by
    have h1 := decimalRepr_length n
    have h2 := decimalDigits_length_pos n.natAbs
    split at h1 <;> omega
  obtain ⟨out, e, l, c⟩ := getCharacters_spec n hn (decimalRepr n).length out0 hlen
    (fun _ => hpos)
  rw [e]
  congr 1
  apply eq_ofList l
  intro idx hidx
  rw [c idx (by omega) (by omega), decimalRepr_getElem? n idx hidx]

/-! ## Fully written arrays -/

theorem exists_ofList (out : List (Option Nat))
    (h : ∀ n : Nat, n < out.length → ∃ v, cell out (n : Int) = some (some v)) :
    out = ofList (out.map (fun o => o.getD 0)) := by
  apply List.ext_getElem?
  intro n
  by_cases hn : n < out.length
  · obtain ⟨v, hv⟩ := h n hn
    rw [cell_natCast] at hv
    simp [ofList, hv]
  · rw [List.getElem?_eq_none (by omega), List.getElem?_eq_none (by simp [ofList]; omega)]

theorem newArray_eq {α : Type} (size : Nat) :
    newArray (α := α) (size : Int) = some (List.replicate size none) := by
  have h : ¬ ((size : Int) < 0) := by omega
  simp [newArray, h]

theorem formatCharacters_eq (inp : List CChar) (outSize : Nat) (out0 : List (Option CChar))
    (hlen : out0.length = outSize) (a : Alignment) (lz : Bool) (dp : Int) :
    ∃ chars : List CChar, formatCharacters inp.length (ofList inp) outSize out0 a lz dp =
        some (ofList chars, dotIndexOf (rightBorder inp.length outSize a) outSize dp) ∧
      chars.length = outSize ∧
      ∀ n : Nat, n < outSize → chars[n]? =
        if (n : Int) < leftBorder inp.length outSize a then
          some (if lz then chr '0' else chr ' ')
        else if (n : Int) ≤ rightBorder inp.length outSize a then
          cell inp ((n : Int) - leftBorder inp.length outSize a)
        else some (chr ' ') := by
  obtain ⟨out, e, l, c⟩ := formatCharacters_spec inp outSize out0 (by omega) a lz dp
  obtain ⟨hR, hL, hLn⟩ := border_facts inp.length outSize a (by omega) (by omega)
  have hdef : ∀ n : Nat, n < out.length → ∃ v, cell out (n : Int) = some (some v) := by
    intro n hn
    rw [c n (by omega) (by omega)]
    split
    · exact ⟨_, rfl⟩
    · split
      · obtain ⟨v, hv⟩ := cell_of_lt inp
          (k := (n : Int) - leftBorder inp.length outSize a) (by omega) (by omega)
        exact ⟨v, by rw [hv]; rfl⟩
      · exact ⟨_, rfl⟩
  have hof := exists_ofList out hdef
  refine ⟨out.map (fun o => o.getD 0), by rw [← hof]; exact e, by simp; omega, ?_⟩
  intro n hn
  have hc := c n (by omega) (by omega)
  rw [hof, cell_ofList, cell_natCast] at hc
  have hinj : Function.Injective (Option.map (some : CChar → Option CChar)) :=
    Option.map_injective (Option.some_injective _)
  by_cases h1 : (n : Int) < leftBorder inp.length outSize a
  · rw [if_pos h1] at hc ⊢
    exact hinj hc
  · rw [if_neg h1] at hc ⊢
    by_cases h2 : (n : Int) ≤ rightBorder inp.length outSize a
    · rw [if_pos h2] at hc ⊢
      exact hinj hc
    · rw [if_neg h2] at hc ⊢
      exact hinj hc

/-! ## encodeCharacters in closed form -/

theorem encodeLoop_spec (h : Header) (inp : List CChar) (n : Nat) :
    ∀ (i : Int) (out : List (Option Byte)),
    0 ≤ i → i + n ≤ out.length → i + n ≤ inp.length →
    ∃ out1, encodeLoop h (ofList inp) n i out = some out1 ∧ out1.length = out.length ∧
      ∀ k : Int, cell out1 k =
        if i ≤ k ∧ k < i + n then (cell inp k).map (fun c => some (encodeChar h c))
        else cell out k := by
  induction n with
  | zero =>
    intro i out _ _ _
    refine ⟨out, rfl, rfl, ?_⟩
    intro k
    rw [if_neg (by omega)]
  | succ n ih =>
    intro i out h0 hout hinp
    obtain ⟨v, hv⟩ := cell_of_lt inp (k := i) h0 (by omega)
    have hs := store_eq out (encodeChar h v) h0 (by omega)
    obtain ⟨out1, h1, hl1, hc1⟩ := ih (i + 1) (out.set i.toNat (some (encodeChar h v)))
      (by omega) (by simp; omega) (by omega)
    refine ⟨out1, ?_, ?_, ?_⟩
    · simp [encodeLoop, load_ofList, hv, hs, h1]
    · simpa using hl1
    · intro k
      rw [hc1 k, cell_store hs k]
      by_cases hk : k = i
      · rw [if_neg (by omega), if_pos hk, if_pos (by omega), hk, hv]
        rfl
      · by_cases hr : i + 1 ≤ k ∧ k < i + 1 + (n : Int)
        · rw [if_pos hr, if_pos (by omega)]
        · rw [if_neg hr, if_neg hk, if_neg (by omega)]

theorem encodeLoop_eq (h : Header) (inp : List CChar) (out0 : List (Option Byte))
    (hlen : out0.length = inp.length) :
    encodeLoop h (ofList inp) inp.length 0 out0 =
      some (ofList (inp.map (encodeChar h))) := by
  obtain ⟨out, e, l, c⟩ := encodeLoop_spec h inp inp.length 0 out0
    (by omega) (by omega) (by omega)
  rw [e]
  congr 1
  apply eq_ofList (by simp; omega)
  intro n hn
  rw [List.length_map] at hn
  rw [c n, if_pos (by omega), cell_natCast, List.getElem?_map]
  simp [List.getElem?_eq_getElem hn]

theorem encodeCharacters_plain (h : Header) (inp : List CChar) (out0 : List (Option Byte))
    (hlen : out0.length = inp.length) :
    encodeCharacters h inp.length (ofList inp) out0 (-1) =
      some (ofList (inp.map (encodeChar h))) := by
  simp [encodeCharacters, encodeLoop_eq h inp out0 hlen]

theorem encodeCharacters_dot (h : Header) (inp : List CChar) (out0 : List (Option Byte))
    (hlen : out0.length = inp.length) (dot : Nat) (hdot : dot < inp.length) :
    encodeCharacters h inp.length (ofList inp) out0 (dot : Int) =
      some (ofList ((inp.map (encodeChar h)).set dot
        (bitWrite0 (encodeChar h (inp.getD dot 0)) true))) := by
  have hne : ¬ ((dot : Int) = -1) := by omega
  have hl : load (ofList (inp.map (encodeChar h))) (dot : Int) =
      some (encodeChar h (inp.getD dot 0)) := by
    rw [load_ofList, cell_natCast]
    simp [List.getElem?_eq_getElem hdot]
  have hs := store_eq (ofList (inp.map (encodeChar h)))
    (bitWrite0 (encodeChar h (inp.getD dot 0)) true) (i := (dot : Int)) (by omega)
    (by simp [ofList]; omega)
  simp only [encodeCharacters, Int.sub_zero, Int.toNat_ofNat, encodeLoop_eq h inp out0 hlen,
    Option.some_bind, ne_eq, hne, not_false_eq_true, if_true, hl, hs]
  simp [ofList, List.map_set]

/-! ## A value that fits its field -/

theorem padded_eq (a : Alignment) (blanks : Nat) (value : List CChar) :
    padded a blanks value =
      List.replicate (frontBlanks a blanks) (chr ' ') ++ value ++
        List.replicate (blanks - frontBlanks a blanks) (chr ' ') := by
  cases a <;> simp [padded, frontBlanks]

theorem leftBorder_fits (len blanks : Nat) (a : Alignment) :
    leftBorder (len : Int) ((len + blanks : Nat) : Int) a = (frontBlanks a blanks : Nat) := by
  cases a
  · simp [leftBorder, frontBlanks]
  · simp only [leftBorder, frontBlanks]
    omega
  · simp only [leftBorder, frontBlanks]
    rw [tdiv_two, if_pos (by omega)]
    omega

theorem frontBlanks_le (a : Alignment) (blanks : Nat) : frontBlanks a blanks ≤ blanks := by
  cases a <;> simp only [frontBlanks] <;> omega

theorem formatCharacters_fits (inp : List CChar) (blanks : Nat) (out0 : List (Option CChar))
    (hlen : out0.length = inp.length + blanks) (a : Alignment) (lz : Bool) (dp : Int) :
    formatCharacters inp.length (ofList inp) ((inp.length + blanks : Nat) : Int) out0 a lz dp =
      some (ofList (List.replicate (frontBlanks a blanks) (if lz then chr '0' else chr ' ') ++
          inp ++ List.replicate (blanks - frontBlanks a blanks) (chr ' ')),
        dotIndexOf (rightBorder inp.length ((inp.length + blanks : Nat) : Int) a)
          ((inp.length + blanks : Nat) : Int) dp) := by
  obtain ⟨chars, e, l, c⟩ := formatCharacters_eq inp (inp.length + blanks) out0 hlen a lz dp
  obtain ⟨hR, _, _⟩ := border_facts inp.length ((inp.length + blanks : Nat) : Int) a
    (by omega) (by omega)
  have hf := frontBlanks_le a blanks
  rw [e]
  have key : chars = List.replicate (frontBlanks a blanks) (if lz then chr '0' else chr ' ') ++
      inp ++ List.replicate (blanks - frontBlanks a blanks) (chr ' ') := ?_
  · rw [key]
  apply List.ext_getElem?
  intro n
  by_cases hn : n < inp.length + blanks
  · rw [c n hn, hR, leftBorder_fits]
    by_cases h1 : n < frontBlanks a blanks
    · rw [if_pos (by omega), List.append_assoc, List.getElem?_append_left (by simpa using h1),
        List.getElem?_replicate_of_lt h1]
    · rw [if_neg (by omega)]
      by_cases h2 : n < frontBlanks a blanks + inp.length
      · have h3 : (n : Int) - (frontBlanks a blanks : Nat) = ((n - frontBlanks a blanks : Nat) : Int) := by
          omega
        rw [if_pos (by omega), h3, cell_natCast,
          List.getElem?_append_left (by simp; omega),
          List.getElem?_append_right (by simp; omega)]
        simp
      · rw [if_neg (by omega), List.getElem?_append_right (by simp; omega),
          List.getElem?_replicate_of_lt (by simp; omega)]
  · rw [List.getElem?_eq_none (by omega), List.getElem?_eq_none (by simp; omega)]

/-! ## Integers in a section that holds them -/

theorem setIntegerCharacters_eq (n : Int) (hn : n ≠ LONG_MIN) :
    setIntegerCharacters n = some (((decimalRepr n).length : Int), ofList (decimalRepr n)) := by
  simp only [setIntegerCharacters, countCharacters_eq n hn, Option.some_bind, newArray_eq,
    getCharacters_eq n hn _ (List.length_replicate _ _), Option.map_some']

theorem setIntegerFormatted_fits (n : Int) (hn : n ≠ LONG_MIN) (blanks : Nat) (a : Alignment)
    (lz : Bool) :
    setIntegerFormatted n lz a (((decimalRepr n).length + blanks : Nat) : Int) =
      some (ofList (List.replicate (frontBlanks a blanks) (if lz then chr '0' else chr ' ') ++
        decimalRepr n ++ List.replicate (blanks - frontBlanks a blanks) (chr ' '))) := by
  simp only [setIntegerFormatted, setIntegerCharacters_eq n hn, Option.some_bind, newArray_eq,
    formatCharacters_fits (decimalRepr n) blanks _ (List.length_replicate _ _) a lz (-1),
    Option.map_some']

/-- C1: an integer `n` other than the least `long`, of `k = countCharacters(n)`
characters, written without leading zeros into a section of size `w ≥ k`, is
formatted as its decimal representation (a minus sign first when `n < 0`, then the
digits of `|n|`, most significant first) with the `w - k` spare positions blank:
all in front for `ALIGN_RIGHT`, all behind for `ALIGN_LEFT`, and `(w - k) / 2`
(rounded down) in front, the rest behind, for `ALIGN_CENTER`; the bytes handed to
the cache are the encodings of these characters, position by position. -/
theorem setInteger_formats_aligned (h : Header) (n : Int) (hn : n ≠ LONG_MIN) (k : Int)
    (hk : countCharacters n = some k) (w : Int) (hw : k ≤ w) (a : Alignment) :
    k = (decimalRepr n).length ∧
    setIntegerFormatted n false a w =
      some (ofList (padded a (w - k).toNat (decimalRepr n))) ∧
    setIntegerEncoded h n false a w =
      some (ofList ((padded a (w - k).toNat (decimalRepr n)).map (encodeChar h))) := by
  have hk1 := countCharacters_eq n hn
  rw [hk] at hk1
  have hk2 : k = ((decimalRepr n).length : Int) := Option.some.inj hk1
  have hw1 : w = (((decimalRepr n).length + (w - k).toNat : Nat) : Int) := by omega
  have hf : setIntegerFormatted n false a w =
      some (ofList (padded a (w - k).toNat (decimalRepr n))) := by
    conv => lhs; rw [hw1]
    rw [setIntegerFormatted_fits n hn (w - k).toNat a false, padded_eq]
    rfl
  refine ⟨hk2, hf, ?_⟩
  have hl : (padded a (w - k).toNat (decimalRepr n)).length =
      (decimalRepr n).length + (w - k).toNat := by
    have := frontBlanks_le a (w - k).toNat
    rw [padded_eq]
    simp only [List.length_append, List.length_replicate]
    omega
  generalize padded a (w - k).toNat (decimalRepr n) = P at hf hl ⊢
  have hw2 : w = ((P.length : Nat) : Int) := by
    rw [hl]
    exact hw1
  simp only [setIntegerEncoded, hf, Option.some_bind]
  rw [hw2, newArray_eq, Option.some_bind,
    encodeCharacters_plain h _ _ (List.length_replicate _ _)]

/-- C1, on an example: 123 right-aligned in a section of size 5 is `"  123"`,
encoded as two blank patterns and the patterns of 1, 2 and 3. -/
theorem setInteger_formats_aligned_witness :
    setIntegerFormatted 123 false Alignment.ALIGN_RIGHT 5 = some (ofList (codes "  123")) ∧
    setIntegerEncoded sampleHeader 123 false Alignment.ALIGN_RIGHT 5 =
      some (ofList [sampleHeader.EMPTY, sampleHeader.EMPTY, sampleHeader.NUMBERS 1,
        sampleHeader.NUMBERS 2, sampleHeader.NUMBERS 3]) := by
  have hk : countCharacters 123 = some 3 := by
    rw [countCharacters_eq 123 (by decide)]
    simp [decimalRepr, decimalDigits]
  have hr : decimalRepr 123 = codes "123" := by
    simp [decimalRepr, decimalDigits, codes, chr]
  obtain ⟨_, h1, h2⟩ := setInteger_formats_aligned sampleHeader 123 (by decide) 3 hk 5
    (by decide) Alignment.ALIGN_RIGHT
  rw [hr] at h1 h2
  exact ⟨h1, h2⟩

/-! ## Padding -/

theorem setIntegerFormatted_eq (n : Int) (hn : n ≠ LONG_MIN) (w : Nat) (a : Alignment)
    (lz : Bool) :
    setIntegerFormatted n lz a (w : Int) =
      (formatCharacters (decimalRepr n).length (ofList (decimalRepr n)) w
        (List.replicate w none) a lz (-1)).map (fun r => r.1) := by
  simp only [setIntegerFormatted, setIntegerCharacters_eq n hn, Option.some_bind, newArray_eq]

/-- C2: in the characters `formatCharacters` produces, for every source and every
target width, alignment and decimal places, each position before the left border
holds `'0'` when `leadingZeros` is set and a blank when it is not, and each
position after the right border holds a blank whatever `leadingZeros` is; this is
so in particular for the buffer of every integer `setInteger` formats. -/
theorem formatCharacters_padding (inp : List CChar) (w : Nat) (out0 : List (Option CChar))
    (hlen : out0.length = w) (a : Alignment) (lz : Bool) (dp : Int) :
    (∃ chars d, formatCharacters inp.length (ofList inp) w out0 a lz dp =
        some (ofList chars, d) ∧ chars.length = w ∧
      ∀ idx : Nat, idx < w →
        ((idx : Int) < leftBorder inp.length w a →
          chars[idx]? = some (if lz then chr '0' else chr ' ')) ∧
        (rightBorder inp.length w a < (idx : Int) → chars[idx]? = some (chr ' '))) ∧
    (∀ n : Int, n ≠ LONG_MIN → ∃ k chars, countCharacters n = some k ∧
      setIntegerFormatted n lz a w = some (ofList chars) ∧ chars.length = w ∧
      ∀ idx : Nat, idx < w →
        ((idx : Int) < leftBorder k w a →
          chars[idx]? = some (if lz then chr '0' else chr ' ')) ∧
        (rightBorder k w a < (idx : Int) → chars[idx]? = some (chr ' '))) := by
  have gen : ∀ (src : List CChar) (o0 : List (Option CChar)), o0.length = w →
      ∃ chars d, formatCharacters src.length (ofList src) w o0 a lz dp =
        some (ofList chars, d) ∧ chars.length = w ∧
      ∀ idx : Nat, idx < w →
        ((idx : Int) < leftBorder src.length w a →
          chars[idx]? = some (if lz then chr '0' else chr ' ')) ∧
        (rightBorder src.length w a < (idx : Int) → chars[idx]? = some (chr ' ')) := by
    intro src o0 ho0
    obtain ⟨chars, e, l, c⟩ := formatCharacters_eq src w o0 ho0 a lz dp
    obtain ⟨hR, _, _⟩ := border_facts src.length (w : Int) a (by omega) (by omega)
    refine ⟨chars, _, e, l, ?_⟩
    intro idx hidx
    constructor
    · intro hlt
      rw [c idx hidx, if_pos hlt]
    · intro hgt
      rw [c idx hidx, if_neg (by omega), if_neg (by omega)]
  refine ⟨gen inp out0 hlen, ?_⟩
  intro n hn
  obtain ⟨chars, e, l, c⟩ := formatCharacters_eq (decimalRepr n) w (List.replicate w none)
    (List.length_replicate _ _) a lz (-1)
  obtain ⟨hR, _, _⟩ := border_facts (decimalRepr n).length (w : Int) a (by omega) (by omega)
  refine ⟨_, chars, countCharacters_eq n hn, ?_, l, ?_⟩
  · rw [setIntegerFormatted_eq n hn, e]
    rfl
  · intro idx hidx
    constructor
    · intro hlt
      rw [c idx hidx, if_pos hlt]
    · intro hgt
      rw [c idx hidx, if_neg (by omega), if_neg (by omega)]

/-- C2, on an example: `-7` with leading zeros, right-aligned in a field of 4. -/
theorem formatCharacters_padding_witness :
    (∃ chars d, formatCharacters (codes "-7").length (ofList (codes "-7")) (4 : Nat)
        (List.replicate 4 none) Alignment.ALIGN_RIGHT true (-1) =
        some (ofList chars, d) ∧ chars.length = 4 ∧
      ∀ idx : Nat, idx < 4 →
        ((idx : Int) < leftBorder (codes "-7").length (4 : Nat) Alignment.ALIGN_RIGHT →
          chars[idx]? = some (if true then chr '0' else chr ' ')) ∧
        (rightBorder (codes "-7").length (4 : Nat) Alignment.ALIGN_RIGHT < (idx : Int) →
          chars[idx]? = some (chr ' '))) :=
  (formatCharacters_padding (codes "-7") 4 (List.replicate 4 none) rfl
    Alignment.ALIGN_RIGHT true (-1)).1

/-! ## The integer -7 with leading zeros -/

theorem decimalRepr_minus_seven : decimalRepr (-7) = codes "-7" := by
  simp [decimalRepr, decimalDigits, codes, chr]

/-- C3, as the code has it: for `-7` with leading zeros, right-aligned in a section
of size 3, the buffer `setInteger` builds has the two characters `"-7"` (the minus
sign counts as a character), and the formatted characters are `"0-7"`: the one
position before the left border takes the zero fill, the buffer follows. -/
theorem setInteger_minus_seven :
    setIntegerCharacters (-7) = some (2, ofList (codes "-7")) ∧
    setIntegerFormatted (-7) true Alignment.ALIGN_RIGHT 3 = some (ofList (codes "0-7")) := by
  constructor
  · rw [setIntegerCharacters_eq (-7) (by decide), decimalRepr_minus_seven]
    rfl
  · have h := setIntegerFormatted_fits (-7) (by decide) 1 Alignment.ALIGN_RIGHT true
    rw [decimalRepr_minus_seven] at h
    exact h

/-- C3 as stated fails: for `-7` with leading zeros, right-aligned in a section of
size 3, neither the buffer of `setInteger` nor its formatted characters are
`"-07"`. -/
theorem setInteger_minus_seven_counterexample :
    setIntegerCharacters (-7) ≠ some (3, ofList (codes "-07")) ∧
    setIntegerFormatted (-7) true Alignment.ALIGN_RIGHT 3 ≠ some (ofList (codes "-07")) := by
  have hc : setIntegerCharacters (-7) = some (2, ofList (codes "-7")) := by
    rw [setIntegerCharacters_eq (-7) (by decide), decimalRepr_minus_seven]
    rfl
  have hf : setIntegerFormatted (-7) true Alignment.ALIGN_RIGHT 3 =
      some (ofList (codes "0-7")) := by
    have h := setIntegerFormatted_fits (-7) (by decide) 1 Alignment.ALIGN_RIGHT true
    rw [decimalRepr_minus_seven] at h
    exact h
  rw [hc, hf]
  constructor <;> decide

/-! ## A source wider than its field -/

/-- C4: a source longer than the target width `w` is cut to exactly `w` of its own
characters and the call does not fault: `ALIGN_LEFT` keeps the first `w`,
`ALIGN_RIGHT` the last `w`, and `ALIGN_CENTER` the `w` characters that start at
source index `(inSize - w) / 2`, rounded down, so that the number of characters
dropped behind the window is the number dropped in front of it, plus one when the
excess is odd. -/
theorem formatCharacters_truncates (inp : List CChar) (w : Nat) (hw : w < inp.length)
    (out0 : List (Option CChar)) (hlen : out0.length = w) (a : Alignment) (lz : Bool)
    (dp : Int) :
    (∃ d, formatCharacters inp.length (ofList inp) w out0 a lz dp =
      some (ofList (truncated a w inp), d)) ∧
    (truncated a w inp).length = w ∧
    inp.length - ((inp.length - w) / 2 + w) = (inp.length - w) / 2 + (inp.length - w) % 2 := by
  obtain ⟨chars, e, l, c⟩ := formatCharacters_eq inp w out0 hlen a lz dp
  have hl : (truncated a w inp).length = w := by
    cases a <;> simp only [truncated, List.length_take, List.length_drop] <;> omega
  have key : chars = truncated a w inp := ?_
  · refine ⟨⟨dotIndexOf (rightBorder inp.length w a) w dp, ?_⟩, hl, by omega⟩
    rw [e, key]
  apply List.ext_getElem?
  intro idx
  by_cases hidx : idx < w
  · rw [c idx hidx]
    cases a
    · simp only [leftBorder, rightBorder, truncated]
      rw [if_neg (by omega), if_pos (by omega), List.getElem?_take_of_lt hidx]
      have h3 : (idx : Int) - 0 = ((idx : Nat) : Int) := by omega
      rw [h3, cell_natCast]
    · simp only [leftBorder, rightBorder, truncated]
      rw [if_neg (by omega), if_pos (by omega), List.getElem?_drop]
      have h3 : (idx : Int) - ((w : Int) - (inp.length : Int)) =
          ((inp.length - w + idx : Nat) : Int) := by omega
      rw [h3, cell_natCast]
    · have hL : ((w : Int) - (inp.length : Int)).tdiv 2 =
          -(((inp.length - w) / 2 : Nat) : Int) := by
        have hneg : ¬ (0 ≤ (w : Int) - (inp.length : Int)) := by omega
        rw [tdiv_two, if_neg hneg]
        omega
      simp only [leftBorder, rightBorder, truncated, hL]
      rw [if_neg (by omega), if_pos (by omega), List.getElem?_take_of_lt hidx,
        List.getElem?_drop]
      have h3 : (idx : Int) - -(((inp.length - w) / 2 : Nat) : Int) =
          (((inp.length - w) / 2 + idx : Nat) : Int) := by omega
      rw [h3, cell_natCast]
  · rw [List.getElem?_eq_none (by omega), List.getElem?_eq_none (by omega)]

/-- C4, on an example: `"123456"` in a field of 3 is `"123"`, `"456"` or `"234"`. -/
theorem formatCharacters_truncates_witness :
    ((∃ d, formatCharacters (codes "123456").length (ofList (codes "123456")) (3 : Nat)
        (List.replicate 3 none) Alignment.ALIGN_CENTER false (-1) =
      some (ofList (codes "234"), d)) ∧ (codes "234").length = 3) :=
  ⟨(formatCharacters_truncates (codes "123456") 3 (by decide) (List.replicate 3 none) rfl
    Alignment.ALIGN_CENTER false (-1)).1,
   (formatCharacters_truncates (codes "123456") 3 (by decide) (List.replicate 3 none) rfl
    Alignment.ALIGN_CENTER false (-1)).2.1⟩

/-! ## The real pipeline -/

theorem newArray_some {α : Type} {size : Int} {arr : List (Option α)}
    (h : newArray size = some arr) : 0 ≤ size ∧ arr = List.replicate size.toNat none := by
  unfold newArray at h
  split at h
  · cases h
  next hs =>
    cases h
    exact ⟨by omega, rfl⟩

theorem LONG_MIN_neg : LONG_MIN < 0 := by decide

theorem getCharacters_defined (v : Int) (size : Nat) (out : List (Option CChar))
    (h : getCharacters v size (List.replicate size none) = some out) :
    v ≠ LONG_MIN ∧ ∃ inp : List CChar, out = ofList inp ∧ inp.length = size ∧
      ∀ k : Nat, k < size → inp[k]? =
        some (if v < 0 ∧ (k : Int) = 0 then chr '-'
          else v.natAbs / 10 ^ ((size : Int) - 1 - k).toNat % 10 + chr '0') := by
  have hv : v ≠ LONG_MIN := by
    intro hv
    subst hv
    simp [getCharacters, LONG_MIN_neg] at h
  refine ⟨hv, ?_⟩
  by_cases hz : v < 0 ∧ size = 0
  · obtain ⟨hneg, hsz⟩ := hz
    subst hsz
    simp [getCharacters, hneg, hv, digitLoop, store] at h
  · obtain ⟨o, e, l, c⟩ := getCharacters_spec v hv size (List.replicate size none)
      (List.length_replicate _ _) (by intro hneg; omega)
    rw [e] at h
    cases h
    have hof := exists_ofList out (by
      intro n hn
      exact ⟨_, c n (by omega) (by omega)⟩)
    refine ⟨out.map (fun x => x.getD 0), hof, by simp; omega, ?_⟩
    intro k hk
    have hc := c k (by omega) (by omega)
    rw [hof, cell_ofList, cell_natCast] at hc
    exact Option.map_injective (Option.some_injective _) hc

theorem setRealCharacters_defined (hd : Header) (number : ℚ) (d : Int) (vs : Int)
    (buf : List (Option CChar)) (h : setRealCharacters hd number d = some (vs, buf)) :
    ∃ (value : Int) (count : Int) (inp : List CChar),
      roundLong (hd.scaleDouble number d) = some value ∧
      countCharactersDouble number = some count ∧ vs = count + d ∧
      buf = ofList inp ∧ (inp.length : Int) = vs ∧
      ∀ k : Nat, k < inp.length → inp[k]? =
        some (if value < 0 ∧ (k : Int) = 0 then chr '-'
          else value.natAbs / 10 ^ (vs - 1 - k).toNat % 10 + chr '0') := by
  simp only [setRealCharacters, Option.bind_eq_some, Option.map_eq_some', Prod.mk.injEq] at h
  obtain ⟨value, hvalue, count, hcount, arr0, harr, o, hget, hvs, hbuf⟩ := h
  obtain ⟨h0, harr0⟩ := newArray_some harr
  subst harr0
  have hcast : count + d = (((count + d).toNat : Nat) : Int) := by omega
  have hget1 : getCharacters value (((count + d).toNat : Nat) : Int)
      (List.replicate (count + d).toNat none) = some o := by
    rw [← hcast]
    exact hget
  obtain ⟨_, inp, hof, hl, hc⟩ := getCharacters_defined value (count + d).toNat o hget1
  refine ⟨value, count, inp, hvalue, hcount, hvs.symm, by rw [← hbuf, hof], by omega, ?_⟩
  intro k hk
  rw [hc k (by omega), ← hvs, ← hcast]

theorem setRealFormatted_defined (hd : Header) (number : ℚ) (d : Int) (lz : Bool)
    (a : Alignment) (w : Int) (fmt : List (Option CChar)) (dot : Int)
    (h : setRealFormatted hd number d lz a w = some (fmt, dot)) :
    0 ≤ w ∧ ∃ chars : List CChar, fmt = ofList chars ∧ (chars.length : Int) = w := by
  simp only [setRealFormatted, Option.bind_eq_some] at h
  obtain ⟨vo, hvo, arr0, harr, hfmt⟩ := h
  obtain ⟨h0, harr0⟩ := newArray_some harr
  subst harr0
  obtain ⟨value, count, inp, _, _, _, hbuf, hl, _⟩ :=
    setRealCharacters_defined hd number d vo.1 vo.2 hvo
  obtain ⟨chars, e, l, _⟩ := formatCharacters_eq inp w.toNat (List.replicate w.toNat none)
    (List.length_replicate _ _) a lz d
  have hw : w = ((w.toNat : Nat) : Int) := by omega
  have hfmt1 : formatCharacters inp.length (ofList inp) ((w.toNat : Nat) : Int)
      (List.replicate w.toNat none) a lz d = some (fmt, dot) := by
    rw [← hw, hl, ← hbuf]
    exact hfmt
  rw [e] at hfmt1
  have hfmt := hfmt1
  simp only [Option.some.injEq, Prod.mk.injEq] at hfmt
  exact ⟨h0, chars, hfmt.1.symm, by omega⟩

/-- C5: for every source, target width, alignment and `decimalPlaces ≥ 0`,
`formatCharacters` returns `right - decimalPlaces` when that index lies in
`[0, outSize - 1]` and `-1` otherwise; and, whatever the floating-point arithmetic
of the board, whenever the formatting step of `setReal` yields `-1`, the bytes
`setReal` hands to the cache are the plain encodings of the formatted characters,
with no decimal-point bit added. -/
theorem formatCharacters_dot_index (inp : List CChar) (w : Nat) (out0 : List (Option CChar))
    (hlen : out0.length = w) (a : Alignment) (lz : Bool) (dp : Int) (hdp : 0 ≤ dp) :
    (∃ chars, formatCharacters inp.length (ofList inp) w out0 a lz dp =
      some (ofList chars,
        if 0 ≤ rightBorder inp.length w a - dp ∧ rightBorder inp.length w a - dp ≤ (w : Int) - 1
        then rightBorder inp.length w a - dp else -1)) ∧
    (∀ (h : Header) (number : ℚ) (lzr : Bool) (ar : Alignment) (fmt : List (Option CChar)),
      setRealFormatted h number dp lzr ar w = some (fmt, -1) →
      ∃ chars : List CChar, fmt = ofList chars ∧ chars.length = w ∧
        setRealEncoded h number dp lzr ar w = some (ofList (chars.map (encodeChar h))) ∧
        ∀ (st : State) (sectionIndex beginIndex : Int),
          load st._sectionSizes sectionIndex = some (w : Int) →
          load st._sectionBegins sectionIndex = some beginIndex →
          setReal h st number dp lzr ar sectionIndex =
            modifyCache st beginIndex w (ofList (chars.map (encodeChar h)))) := by
  constructor
  · obtain ⟨chars, e, _, _⟩ := formatCharacters_eq inp w out0 hlen a lz dp
    refine ⟨chars, ?_⟩
    rw [e]
    congr 2
    unfold dotIndexOf
    rw [if_neg (by omega)]
    by_cases hr : 0 ≤ rightBorder inp.length w a - dp ∧
        rightBorder inp.length w a - dp ≤ (w : Int) - 1
    · rw [if_pos hr, if_neg (by omega)]
    · rw [if_neg hr, if_pos (by omega)]
  · intro h number lzr ar fmt hfmt
    obtain ⟨_, chars, hof, hl⟩ := setRealFormatted_defined h number dp lzr ar w fmt (-1) hfmt
    have hl1 : chars.length = w := by omega
    have henc : setRealEncoded h number dp lzr ar w =
        some (ofList (chars.map (encodeChar h))) := by
      simp only [setRealEncoded, hfmt, Option.some_bind, newArray_eq, hof]
      rw [← hl1]
      exact encodeCharacters_plain h chars _ (List.length_replicate _ _)
    refine ⟨chars, hof, hl1, henc, ?_⟩
    intro st sectionIndex beginIndex hsize hbegin
    simp only [setReal, hsize, Option.some_bind, henc, hbegin]

theorem setRealCharacters_half :
    setRealCharacters sampleHeader (247 / 2) 1 = some (4, ofList (codes "1235")) := by
  have hr : roundLong (sampleHeader.scaleDouble (247 / 2) 1) = some 1235 := by
    show roundLong ((247 / 2 : ℚ) * (10 : ℚ) ^ (1 : Int)) = some 1235
    norm_num [roundLong, LONG_MIN, LONG_MAX, LONG_BITS]
  have hfl : ⌊(247 / 2 : ℚ)⌋ = 123 := by
    rw [Int.floor_eq_iff]
    norm_num
  have hcast : castLong (247 / 2 : ℚ) = some 123 := by
    norm_num [castLong, LONG_MIN, LONG_MAX, LONG_BITS, hfl]
  have hcount : countCharacters 123 = some 3 := by
    rw [countCharacters_eq 123 (by decide)]
    simp [decimalRepr, decimalDigits]
  have hcd : countCharactersDouble (247 / 2 : ℚ) = some 3 := by
    unfold countCharactersDouble
    rw [if_neg (by norm_num), hcast]
    exact hcount
  have hnew : newArray (α := CChar) ((3 : Int) + 1) = some (List.replicate 4 none) := by
    decide
  have hget : getCharacters 1235 ((3 : Int) + 1) (List.replicate 4 none) =
      some (ofList (codes "1235")) := by
    decide
  simp only [setRealCharacters, hr, hcd, Option.some_bind, hnew, hget, Option.map_some']
  rfl

/-- C5, on examples. `"1234"` left-aligned in a field of 6 with 2 decimal places:
`right - decimalPlaces = 3 - 2 = 1` lies in the field and is returned. `"1235"`
left-aligned in a field of 2 with 1 decimal place: `3 - 1 = 2` lies outside `[0, 1]`
and -1 is returned. And 123.5 with 1 decimal place written into a section of size 2
(the scaled number is 1235, in binary64 as in the exact arithmetic of
`sampleHeader`): the formatting step yields `"12"` and -1, the bytes are the
patterns of `1` and `2` without a decimal point, and `setReal` writes these. -/
theorem formatCharacters_dot_index_witness :
    (List.replicate 6 (none : Option CChar)).length = 6 ∧
    (List.replicate 2 (none : Option CChar)).length = 2 ∧ (0 : Int) ≤ 2 ∧ (0 : Int) ≤ 1 ∧
    formatCharacters (codes "1234").length (ofList (codes "1234")) (6 : Nat)
      (List.replicate 6 none) Alignment.ALIGN_LEFT false 2 =
      some (ofList (codes "1234  "), 1) ∧
    formatCharacters (codes "1235").length (ofList (codes "1235")) (2 : Nat)
      (List.replicate 2 none) Alignment.ALIGN_LEFT false 1 = some (ofList (codes "12"), -1) ∧
    setRealFormatted sampleHeader (247 / 2) 1 false Alignment.ALIGN_LEFT (2 : Nat) =
      some (ofList (codes "12"), -1) ∧
    setRealEncoded sampleHeader (247 / 2) 1 false Alignment.ALIGN_LEFT (2 : Nat) =
      some (ofList [sampleHeader.NUMBERS 1, sampleHeader.NUMBERS 2]) ∧
    (∀ (st : State) (sectionIndex beginIndex : Int),
      load st._sectionSizes sectionIndex = some ((2 : Nat) : Int) →
      load st._sectionBegins sectionIndex = some beginIndex →
      setReal sampleHeader st (247 / 2) 1 false Alignment.ALIGN_LEFT sectionIndex =
        modifyCache st beginIndex (2 : Nat)
          (ofList [sampleHeader.NUMBERS 1, sampleHeader.NUMBERS 2])) := by
  have hinj : ∀ (c1 c2 : List CChar) (d1 d2 : Int),
      some (ofList c1, d1) = some (ofList c2, d2) → c1 = c2 ∧ d1 = d2 := by
    intro c1 c2 d1 d2 he
    simp only [Option.some.injEq, Prod.mk.injEq] at he
    have h3 := congrArg contents he.1
    rw [contents_ofList, contents_ofList] at h3
    exact ⟨Option.some.inj h3, he.2⟩
  obtain ⟨chars1, h1⟩ := (formatCharacters_dot_index (codes "1234") 6 (List.replicate 6 none)
    rfl Alignment.ALIGN_LEFT false 2 (by decide)).1
  obtain ⟨chars2, h2⟩ := (formatCharacters_dot_index (codes "1235") 2 (List.replicate 2 none)
    rfl Alignment.ALIGN_LEFT false 1 (by decide)).1
  have hd1 : formatCharacters (codes "1234").length (ofList (codes "1234")) (6 : Nat)
      (List.replicate 6 none) Alignment.ALIGN_LEFT false 2 =
      some (ofList (codes "1234  "), 1) := by
    decide
  have hd2 : formatCharacters (codes "1235").length (ofList (codes "1235")) (2 : Nat)
      (List.replicate 2 none) Alignment.ALIGN_LEFT false 1 =
      some (ofList (codes "12"), -1) := by
    decide
  have he1 := hinj _ _ _ _ (h1.symm.trans hd1)
  have he2 := hinj _ _ _ _ (h2.symm.trans hd2)
  rw [he1.1, he1.2] at h1
  rw [he2.1, he2.2] at h2
  have hfmt : setRealFormatted sampleHeader (247 / 2) 1 false Alignment.ALIGN_LEFT
      (2 : Nat) = some (ofList (codes "12"), -1) := by
    simp only [setRealFormatted, setRealCharacters_half, Option.some_bind]
    decide
  obtain ⟨chars, hof, hl, henc, hset⟩ := (formatCharacters_dot_index (codes "1235") 2
    (List.replicate 2 none) rfl Alignment.ALIGN_LEFT false 1 (by decide)).2 sampleHeader
    (247 / 2) false Alignment.ALIGN_LEFT (ofList (codes "12")) hfmt
  have hch : chars = codes "12" := by
    have h3 := congrArg contents hof
    rw [contents_ofList, contents_ofList] at h3
    exact (Option.some.inj h3).symm
  subst hch
  exact ⟨rfl, rfl, by decide, by decide, h1, h2, hfmt, henc, hset⟩

/-! ## The decimal point of a real -/

theorem countCharacters_some {t c : Int} (h : countCharacters t = some c) :
    t ≠ LONG_MIN ∧ c = ((decimalRepr t).length : Int) := by
  have ht : t ≠ LONG_MIN := by
    intro ht
    subst ht
    rw [countCharacters, if_pos LONG_MIN_neg, if_pos rfl] at h
    cases h
  rw [countCharacters_eq t ht] at h
  exact ⟨ht, (Option.some.inj h).symm⟩

theorem roundLong_neg {x : ℚ} {v : Int} (h : roundLong x = some v) (hv : v < 0) : x < 0 := by
  by_contra hx
  have hx0 : 0 ≤ x := not_lt.mp hx
  unfold roundLong at h
  simp only [hx0, if_true] at h
  split at h
  · have h1 : v = ⌊x + 1 / 2⌋ := (Option.some.inj h).symm
    have h2 : 0 ≤ ⌊x + 1 / 2⌋ := Int.floor_nonneg.mpr (by linarith)
    omega
  · cases h

theorem countCharactersDouble_bounds {number : ℚ} {count : Int}
    (h : countCharactersDouble number = some count) :
    1 ≤ count ∧ (number < 0 → 2 ≤ count) := by
  unfold countCharactersDouble at h
  split at h
  · have : count = 2 := (Option.some.inj h).symm
    omega
  next hcond =>
    simp only [Option.bind_eq_some] at h
    obtain ⟨t, ht, hc⟩ := h
    obtain ⟨_, hlen⟩ := countCharacters_some hc
    have hrl := decimalRepr_length t
    have hpos := decimalDigits_length_pos t.natAbs
    constructor
    · split at hrl <;> omega
    · intro hneg
      have hle : number ≤ -1 := by
        by_contra hgt
        exact hcond ⟨not_le.mp hgt, hneg⟩
      have hnn : ¬ (0 ≤ number) := not_le.mpr hneg
      unfold castLong at ht
      simp only [hnn, if_false] at ht
      split at ht
      · have h1 : t = -⌊-number⌋ := (Option.some.inj ht).symm
        have h2 : 0 < ⌊-number⌋ := Int.floor_pos.mpr (by linarith)
        rw [if_pos (by omega)] at hrl
        omega
      · cases ht

theorem bitWrite0_true (x : Byte) : bitWrite0 x true = x ||| 1 := by
  simp [bitWrite0]

/-- C6: whatever the floating-point arithmetic of the board, provided the scaled
number `number * pow(10, d)` is negative only when `number` is (the sign of a
floating-point product with a positive power of ten): when the characters `setReal`
builds for a real with `d ≥ 1` decimal places fit the section, the dot index is
`right - d`, it lies inside the section, the character there is the units digit of
the rounded value divided by `10^d` (the digit `d` places left of the last one),
and the encoded bytes are the plain encodings of the formatted characters except at
that one position, where bit 0 is set in addition; so with patterns whose bit 0 is
clear, exactly that byte has the decimal-point bit. -/
theorem setReal_dot_position (h : Header) (number : ℚ) (d : Int) (hd : 1 ≤ d)
    (hsign : h.scaleDouble number d < 0 → number < 0) (vs : Int)
    (buf : List (Option CChar)) (hchars : setRealCharacters h number d = some (vs, buf))
    (w : Int) (hw : vs ≤ w) (a : Alignment) (lz : Bool) :
    ∃ (value : Int) (chars : List CChar) (p : Nat),
      roundLong (h.scaleDouble number d) = some value ∧
      setRealFormatted h number d lz a w = some (ofList chars, (p : Int)) ∧
      (p : Int) = rightBorder vs w a - d ∧ (chars.length : Int) = w ∧ p < chars.length ∧
      chars[p]? = some (value.natAbs / 10 ^ d.toNat % 10 + chr '0') ∧
      setRealEncoded h number d lz a w =
        some (ofList ((chars.map (encodeChar h)).set p
          (encodeChar h (value.natAbs / 10 ^ d.toNat % 10 + chr '0') ||| 1))) ∧
      ((∀ c, encodeChar h c % 2 = 0) → ∀ (i : Nat) (b : Byte),
        ((chars.map (encodeChar h)).set p
          (encodeChar h (value.natAbs / 10 ^ d.toNat % 10 + chr '0') ||| 1))[i]? = some b →
        (b % 2 = 1 ↔ i = p)) := by
  obtain ⟨value, count, inp, hvalue, hcount, hvs, hbuf, hl, hc⟩ :=
    setRealCharacters_defined h number d vs buf hchars
  obtain ⟨hc1, hc2⟩ := countCharactersDouble_bounds hcount
  obtain ⟨blanks, hbl⟩ : ∃ blanks : Nat, w = ((inp.length + blanks : Nat) : Int) :=
    ⟨(w - vs).toNat, by omega⟩
  obtain ⟨cm, hcm⟩ : ∃ cm : Nat, count = (cm : Int) + 1 := ⟨(count - 1).toNat, by omega⟩
  subst hbl
  subst hl
  subst hcm
  have hfront := frontBlanks_le a blanks
  have hLb := leftBorder_fits inp.length blanks a
  obtain ⟨hR, _, _⟩ := border_facts inp.length ((inp.length + blanks : Nat) : Int) a
    (by omega) (by omega)
  generalize hchs : List.replicate (frontBlanks a blanks)
      (if lz then chr '0' else chr ' ') ++ inp ++
      List.replicate (blanks - frontBlanks a blanks) (chr ' ') = chars
  have hlen : chars.length = inp.length + blanks := by
    rw [← hchs]
    simp only [List.length_append, List.length_replicate]
    omega
  have hp : (((frontBlanks a blanks + cm : Nat) : Int)) =
      rightBorder inp.length ((inp.length + blanks : Nat) : Int) a - d := by
    rw [hR, hLb]
    omega
  have hfmt : setRealFormatted h number d lz a ((inp.length + blanks : Nat) : Int) =
      some (ofList chars, ((frontBlanks a blanks + cm : Nat) : Int)) := by
    simp only [setRealFormatted, hchars, Option.some_bind, hbuf]
    rw [newArray_eq, Option.some_bind,
      formatCharacters_fits inp blanks _ (List.length_replicate _ _) a lz d, hchs]
    have hdot : dotIndexOf (rightBorder inp.length ((inp.length + blanks : Nat) : Int) a)
        ((inp.length + blanks : Nat) : Int) d = ((frontBlanks a blanks + cm : Nat) : Int) := by
      unfold dotIndexOf
      rw [if_neg (by omega), if_neg (by omega)]
      exact hp.symm
    rw [hdot]
  have hdigit : chars[frontBlanks a blanks + cm]? =
      some (value.natAbs / 10 ^ d.toNat % 10 + chr '0') := by
    rw [← hchs, List.getElem?_append_left (by simp; omega),
      List.getElem?_append_right (by simp), List.length_replicate, Nat.add_sub_cancel_left,
      hc cm (by omega)]
    have hneg : ¬ (value < 0 ∧ ((cm : Nat) : Int) = 0) := by
      intro hh
      have := hc2 (hsign (roundLong_neg hvalue hh.1))
      omega
    have he : (((inp.length : Nat) : Int) - 1 - ((cm : Nat) : Int)).toNat = d.toNat := by omega
    rw [if_neg hneg, he]
  have hget : chars.getD (frontBlanks a blanks + cm) 0 =
      value.natAbs / 10 ^ d.toNat % 10 + chr '0' := by
    rw [List.getD_eq_getElem?_getD, hdigit]
    rfl
  refine ⟨value, chars, frontBlanks a blanks + cm, hvalue, hfmt, hp,
    by omega, by omega, hdigit, ?_, ?_⟩
  · simp only [setRealEncoded, hfmt, Option.some_bind]
    rw [← hlen, newArray_eq, Option.some_bind,
      encodeCharacters_dot h chars _ (List.length_replicate _ _) _ (by omega), hget,
      bitWrite0_true]
  · intro heven i b hb
    rw [List.getElem?_set] at hb
    by_cases hip : frontBlanks a blanks + cm = i
    · rw [if_pos hip] at hb
      split at hb
      · have hbv := (Option.some.inj hb).symm
        constructor
        · intro _
          exact hip.symm
        · intro _
          rw [hbv]
          exact Nat.or_mod_two_eq_one.mpr (Or.inr rfl)
      · cases hb
    · rw [if_neg hip, List.getElem?_map] at hb
      constructor
      · intro hodd
        exfalso
        cases hci : chars[i]? with
        | none => rw [hci] at hb; cases hb
        | some c =>
          rw [hci] at hb
          have hbv : b = encodeChar h c := (Option.some.inj hb).symm
          have h0 : encodeChar h c % 2 = 0 := heven c
          rw [← hbv, hodd] at h0
          cases h0
      · intro hi
        exact absurd hi.symm hip

theorem sampleHeader_scaleDouble (number : ℚ) (decimalPlaces : Int) :
    sampleHeader.scaleDouble number decimalPlaces = number * (10 : ℚ) ^ decimalPlaces :=
  rfl

theorem setRealCharacters_example :
    setRealCharacters sampleHeader (1234 / 100) 2 = some (4, ofList (codes "1234")) := by
  have hr : roundLong (sampleHeader.scaleDouble (1234 / 100) 2) = some 1234 := by
    rw [sampleHeader_scaleDouble]
    norm_num [roundLong, LONG_MIN, LONG_MAX, LONG_BITS]
  have hfl : ⌊(1234 / 100 : ℚ)⌋ = 12 := by
    rw [Int.floor_eq_iff]
    norm_num
  have hcast : castLong (1234 / 100 : ℚ) = some 12 := by
    norm_num [castLong, LONG_MIN, LONG_MAX, LONG_BITS, hfl]
  have hcount : countCharacters 12 = some 2 := by
    rw [countCharacters_eq 12 (by decide)]
    simp [decimalRepr, decimalDigits]
  have hcd : countCharactersDouble (1234 / 100 : ℚ) = some 2 := by
    unfold countCharactersDouble
    rw [if_neg (by norm_num), hcast]
    exact hcount
  have hnew : newArray (α := CChar) ((2 : Int) + 2) = some (List.replicate 4 none) := by
    decide
  have hget : getCharacters 1234 ((2 : Int) + 2) (List.replicate 4 none) =
      some (ofList (codes "1234")) := by
    decide
  simp only [setRealCharacters, hr, hcd, Option.some_bind, hnew, hget, Option.map_some']
  rfl

/-- C6, on an example: 12.34 with 2 decimal places, left-aligned in a section of
size 6; the scaled number is 1234, as it also is in binary64. -/
theorem setReal_dot_position_witness :
    setRealFormatted sampleHeader (1234 / 100) 2 false Alignment.ALIGN_LEFT 6 =
      some (ofList (codes "1234  "), 1) ∧
    setRealEncoded sampleHeader (1234 / 100) 2 false Alignment.ALIGN_LEFT 6 =
      some (ofList [sampleHeader.NUMBERS 1, sampleHeader.NUMBERS 2 ||| 1,
        sampleHeader.NUMBERS 3, sampleHeader.NUMBERS 4, sampleHeader.EMPTY,
        sampleHeader.EMPTY]) := by
  obtain ⟨value, chars, p, hvalue, hfmt, hp, _, _, _, henc, _⟩ :=
    setReal_dot_position sampleHeader (1234 / 100) 2 (by decide)
      (by rw [sampleHeader_scaleDouble]; intro hneg; norm_num at hneg)
      4 (ofList (codes "1234")) setRealCharacters_example 6 (by decide)
      Alignment.ALIGN_LEFT false
  have hp1 : p = 1 := by
    have h1 : rightBorder 4 6 Alignment.ALIGN_LEFT = 3 := by decide
    omega
  subst hp1
  have hdirect : setRealFormatted sampleHeader (1234 / 100) 2 false Alignment.ALIGN_LEFT 6 =
      some (ofList (codes "1234  "), 1) := by
    simp only [setRealFormatted, setRealCharacters_example, Option.some_bind]
    decide
  have hch : chars = codes "1234  " := by
    rw [hfmt] at hdirect
    have h2 : ofList chars = ofList (codes "1234  ") := by
      simpa using hdirect
    have h3 := congrArg contents h2
    rw [contents_ofList, contents_ofList] at h3
    exact Option.some.inj h3
  subst hch
  refine ⟨hdirect, ?_⟩
  rw [henc]
  have hv : value = 1234 := by
    have hr : roundLong (sampleHeader.scaleDouble (1234 / 100) 2) = some 1234 := by
      rw [sampleHeader_scaleDouble]
      norm_num [roundLong, LONG_MIN, LONG_MAX, LONG_BITS]
    rw [hr] at hvalue
    exact (Option.some.inj hvalue).symm
  subst hv
  decide

/-! ## The encoding of one character -/

theorem encodeChar_cases (h : Header) :
    (∀ c, chr '0' ≤ c → c ≤ chr '9' → encodeChar h c = h.NUMBERS (c - chr '0')) ∧
    (∀ j, j < 26 → encodeChar h (chr 'a' + j) = h.LETTERS j ∧
      encodeChar h (chr 'A' + j) = h.LETTERS j) ∧
    encodeChar h (chr '-') = h.MINUS ∧
    encodeChar h (chr ' ') = h.EMPTY ∧
    (∀ c, ¬ (chr '0' ≤ c ∧ c ≤ chr '9') → ¬ (chr 'a' ≤ c ∧ c ≤ chr 'z') →
      ¬ (chr 'A' ≤ c ∧ c ≤ chr 'Z') → c ≠ chr '-' → encodeChar h c = h.EMPTY) := by
  have h0 : chr '0' = 48 := rfl
  have h9 : chr '9' = 57 := rfl
  have ha : chr 'a' = 97 := rfl
  have hz : chr 'z' = 122 := rfl
  have hA : chr 'A' = 65 := rfl
  have hZ : chr 'Z' = 90 := rfl
  have hm : chr '-' = 45 := rfl
  have hs : chr ' ' = 32 := rfl
  simp only [h0, h9, ha, hz, hA, hZ, hm, hs, encodeChar]
  unfold CChar
  refine ⟨?_, ?_, ?_, ?_, ?_⟩
  · intro c h1 h2
    rw [if_pos ⟨h1, h2⟩]
  · intro j hj
    constructor
    · rw [if_neg (by omega), if_pos (by omega), Nat.add_sub_cancel_left]
    · rw [if_neg (by omega), if_neg (by omega), if_pos (by omega), Nat.add_sub_cancel_left]
  · simp
  · simp
  · intro c h1 h2 h3 h4
    rw [if_neg h1, if_neg h2, if_neg h3, if_neg h4]

/-- C7: `encodeCharacters` fills an output as long as its input; away from the dot
index the byte at a position is the pattern of the character at that position
alone (`NUMBERS` for a digit, `LETTERS` for a letter in either case, `MINUS` for
`'-'`, `EMPTY` for anything else, the blank included), and at the dot index, when
there is one, it is that pattern with bit 0 set. -/
theorem encodeCharacters_pointwise (h : Header) (inp : List CChar)
    (out0 : List (Option Byte)) (hlen : out0.length = inp.length) (dot : Int)
    (hdot : dot = -1 ∨ (0 ≤ dot ∧ dot < inp.length)) :
    (∃ out : List Byte,
      encodeCharacters h inp.length (ofList inp) out0 dot = some (ofList out) ∧
      out.length = inp.length ∧
      ∀ (i : Nat) (c : CChar), inp[i]? = some c →
        out[i]? = some (if (i : Int) = dot then encodeChar h c ||| 1 else encodeChar h c)) ∧
    (∀ c, chr '0' ≤ c → c ≤ chr '9' → encodeChar h c = h.NUMBERS (c - chr '0')) ∧
    (∀ j, j < 26 → encodeChar h (chr 'a' + j) = h.LETTERS j ∧
      encodeChar h (chr 'A' + j) = h.LETTERS j) ∧
    encodeChar h (chr '-') = h.MINUS ∧
    encodeChar h (chr ' ') = h.EMPTY ∧
    (∀ c, ¬ (chr '0' ≤ c ∧ c ≤ chr '9') → ¬ (chr 'a' ≤ c ∧ c ≤ chr 'z') →
      ¬ (chr 'A' ≤ c ∧ c ≤ chr 'Z') → c ≠ chr '-' → encodeChar h c = h.EMPTY) := by
  refine ⟨?_, encodeChar_cases h⟩
  rcases hdot with hd | ⟨hd0, hd1⟩
  · subst hd
    refine ⟨inp.map (encodeChar h), encodeCharacters_plain h inp out0 hlen, by simp, ?_⟩
    intro i c hi
    rw [if_neg (by omega), List.getElem?_map, hi]
    rfl
  · obtain ⟨n, hn⟩ : ∃ n : Nat, dot = (n : Int) := ⟨dot.toNat, by omega⟩
    subst hn
    have hn1 : n < inp.length := by omega
    refine ⟨_, encodeCharacters_dot h inp out0 hlen n hn1, by simp, ?_⟩
    intro i c hi
    rw [List.getElem?_set]
    by_cases hin : n = i
    · subst hin
      rw [if_pos rfl, if_pos (by simpa using hn1), if_pos rfl]
      have hg : inp.getD n 0 = c := by
        rw [List.getD_eq_getElem?_getD, hi]
        rfl
      rw [hg, bitWrite0_true]
    · rw [if_neg hin, if_neg (by omega), List.getElem?_map, hi]
      rfl

/-- C7, on an example: `"a-B 7"` with the dot at index 4. -/
theorem encodeCharacters_pointwise_witness :
    encodeCharacters sampleHeader 5 (ofList (codes "a-B 7")) (List.replicate 5 none) 4 =
      some (ofList [sampleHeader.LETTERS 0, sampleHeader.MINUS, sampleHeader.LETTERS 1,
        sampleHeader.EMPTY, sampleHeader.NUMBERS 7 ||| 1]) := by
  obtain ⟨out, he, hl, hp⟩ := (encodeCharacters_pointwise sampleHeader (codes "a-B 7")
    (List.replicate 5 none) rfl 4 (Or.inr (by decide))).1
  have hd : encodeCharacters sampleHeader 5 (ofList (codes "a-B 7")) (List.replicate 5 none) 4 =
      encodeCharacters sampleHeader (codes "a-B 7").length (ofList (codes "a-B 7"))
        (List.replicate 5 none) 4 := rfl
  rw [hd, he]
  have h0 := hp 0 _ rfl
  have h1 := hp 1 _ rfl
  have h2 := hp 2 _ rfl
  have h3 := hp 3 _ rfl
  have h4 := hp 4 _ rfl
  match out, hl, h0, h1, h2, h3, h4 with
  | [b0, b1, b2, b3, b4], _, h0, h1, h2, h3, h4 =>
    simp only [List.getElem?_cons_zero, List.getElem?_cons_succ, Option.some.injEq] at h0 h1 h2 h3 h4
    subst h0 h1 h2 h3 h4
    decide

/-! ## Writing the cache -/

theorem bitNot_eq (c : Byte) (hc : c < 256) : bitNot c = 255 - c := by
  unfold bitNot toByte
  unfold Byte at *
  omega

theorem polarity_eq (isCathode : Bool) (c : Byte) (hc : c < 256) :
    polarity isCathode c = if isCathode then c else 255 - c := by
  unfold polarity
  split
  · rfl
  · exact bitNot_eq c hc

set_option maxRecDepth 100000 in
theorem complement_eq_xor : ∀ c : Nat, c < 256 → 255 - c = c ^^^ 255 := by
  decide

theorem modifyCacheLoop_spec (isCathode : Bool) (beginIndex : Int) (codes : List Byte)
    (n : Nat) : ∀ (i : Int) (cache : List (Option Byte)),
    0 ≤ i → i + n ≤ codes.length → 0 ≤ beginIndex → i + beginIndex + n ≤ cache.length →
    ∃ cache1, modifyCacheLoop isCathode beginIndex (ofList codes) n i cache = some cache1 ∧
      cache1.length = cache.length ∧
      ∀ k : Int, cell cache1 k =
        if i + beginIndex ≤ k ∧ k < i + beginIndex + n then
          (cell codes (k - beginIndex)).map (fun c => some (polarity isCathode c))
        else cell cache k := by
  induction n with
  | zero =>
    intro i cache _ _ _ _
    refine ⟨cache, rfl, rfl, ?_⟩
    intro k
    rw [if_neg (by omega)]
  | succ n ih =>
    intro i cache h0 hcodes hb hcache
    obtain ⟨v, hv⟩ := cell_of_lt codes (k := i) h0 (by omega)
    have hs := store_eq cache (polarity isCathode v) (i := i + beginIndex) (by omega) (by omega)
    obtain ⟨c1, h1, hl1, hc1⟩ := ih (i + 1)
      (cache.set (i + beginIndex).toNat (some (polarity isCathode v)))
      (by omega) (by omega) hb (by simp; omega)
    refine ⟨c1, ?_, ?_, ?_⟩
    · simp [modifyCacheLoop, load_ofList, hv, hs, h1]
    · simpa using hl1
    · intro k
      rw [hc1 k, cell_store hs k]
      by_cases hk : k = i + beginIndex
      · have h4 : k - beginIndex = i := by omega
        rw [if_neg (by omega), if_pos hk, if_pos (by omega), h4, hv]
        rfl
      · by_cases hr : i + 1 + beginIndex ≤ k ∧ k < i + 1 + beginIndex + (n : Int)
        · rw [if_pos hr, if_pos (by omega)]
        · rw [if_neg hr, if_neg hk, if_neg (by omega)]

/-- C8: after `modifyCache(begin, size, codes)` the cache holds at `begin + i` the
byte `codes[i]` itself on a common-cathode display and its 8-bit complement
`255 - codes[i]` (all eight bits flipped) on a common-anode display, and the
complement of that stored byte is `codes[i]` again; the same holds for the
single-byte `modifyCache(index, code)`. -/
theorem modifyCache_roundtrip (st : State) (beginIndex : Int) (codes : List Byte)
    (hbytes : ∀ c ∈ codes, c < 256) (hbegin : 0 ≤ beginIndex)
    (hfit : beginIndex + codes.length ≤ st._cache.length) :
    (∃ st1, modifyCache st beginIndex codes.length (ofList codes) = some st1 ∧
      ∀ (i : Nat) (c : Byte), codes[i]? = some c →
        load st1._cache (beginIndex + i) = some (if st._isCathode then c else 255 - c) ∧
        255 - c = c ^^^ 255 ∧ bitNot (255 - c) = c) ∧
    (∀ (index : Int) (code : Byte), code < 256 → 0 ≤ index → index < st._cache.length →
      ∃ st2, modifyCache1 st index code = some st2 ∧
        load st2._cache index = some (if st._isCathode then code else 255 - code) ∧
        255 - code = code ^^^ 255 ∧ bitNot (255 - code) = code) := by
  constructor
  · obtain ⟨c1, e, l, c⟩ := modifyCacheLoop_spec st._isCathode beginIndex codes codes.length 0
      st._cache (by omega) (by omega) hbegin (by omega)
    refine ⟨{ st with _cache := c1 }, ?_, ?_⟩
    · simp only [modifyCache, Int.sub_zero, Int.toNat_ofNat, e, Option.map_some']
    · intro i code hi
      have hlt : i < codes.length := by
        rcases List.getElem?_eq_some.mp hi with ⟨hlt, _⟩
        exact hlt
      have hmem : code ∈ codes := List.getElem?_mem hi
      have hb := hbytes code hmem
      have h4 : beginIndex + (i : Int) - beginIndex = ((i : Nat) : Int) := by omega
      refine ⟨?_, complement_eq_xor code hb, ?_⟩
      · show load c1 (beginIndex + i) = _
        unfold load
        rw [c (beginIndex + i), if_pos (by omega), h4, cell_natCast, hi]
        show some (polarity st._isCathode code) = _
        rw [polarity_eq st._isCathode code hb]
      · rw [bitNot_eq (255 - code) (by unfold Byte at *; omega)]
        unfold Byte at *
        omega
  · intro index code hb h0 h1
    have hs := store_eq st._cache (polarity st._isCathode code) h0 h1
    refine ⟨{ st with _cache := st._cache.set index.toNat (some (polarity st._isCathode code)) },
      ?_, ?_, complement_eq_xor code hb, ?_⟩
    · simp only [modifyCache1, hs, Option.map_some']
    · show load (st._cache.set index.toNat (some (polarity st._isCathode code))) index = _
      unfold load
      rw [cell_store hs index, if_pos rfl]
      show some (polarity st._isCathode code) = _
      rw [polarity_eq st._isCathode code hb]
    · rw [bitNot_eq (255 - code) (by unfold Byte at *; omega)]
      unfold Byte at *
      omega

/-- C8, on an example: two patterns written at positions 2 and 3 of a
common-anode display are read back complemented. -/
theorem modifyCache_roundtrip_witness :
    ∃ st1, modifyCache (sampleState false) 2 2 (ofList [0x60, 0xDA]) = some st1 ∧
      load st1._cache 2 = some 0x9F ∧ load st1._cache 3 = some 0x25 := by
  obtain ⟨st1, e, hp⟩ := (modifyCache_roundtrip (sampleState false) 2 [0x60, 0xDA]
    (by decide) (by decide) (by decide)).1
  exact ⟨st1, e, (hp 0 _ rfl).1, (hp 1 _ rfl).1⟩

/-! ## construct -/

theorem indexLoop_spec (h : Header) (isCathode : Bool) (indexes : List Int) (n : Nat) :
    ∀ (pos : Int) (out : List (Option Byte)),
    0 ≤ pos → pos + n ≤ indexes.length → pos + n ≤ out.length →
    ∃ out1, indexLoop h isCathode indexes n pos out = some out1 ∧
      out1.length = out.length ∧
      ∀ k : Int, cell out1 k =
        if pos ≤ k ∧ k < pos + n then
          (cell indexes k).map (fun index => some (encodedIndex h isCathode index))
        else cell out k := by
  induction n with
  | zero =>
    intro pos out _ _ _
    refine ⟨out, rfl, rfl, ?_⟩
    intro k
    rw [if_neg (by omega)]
  | succ n ih =>
    intro pos out h0 hidx hout
    obtain ⟨v, hv⟩ := cell_of_lt indexes (k := pos) h0 (by omega)
    have hs := store_eq out (encodedIndex h isCathode v) h0 (by omega)
    obtain ⟨o1, h1, hl1, hc1⟩ := ih (pos + 1)
      (out.set pos.toNat (some (encodedIndex h isCathode v)))
      (by omega) (by omega) (by simp; omega)
    refine ⟨o1, ?_, ?_, ?_⟩
    · simp only [indexLoop, hv, Option.some_bind, hs, h1]
    · simpa using hl1
    · intro k
      rw [hc1 k, cell_store hs k]
      by_cases hk : k = pos
      · rw [if_neg (by omega), if_pos hk, if_pos (by omega), hk, hv]
        rfl
      · by_cases hr : pos + 1 ≤ k ∧ k < pos + 1 + (n : Int)
        · rw [if_pos hr, if_pos (by omega)]
        · rw [if_neg hr, if_neg hk, if_neg (by omega)]

theorem sectionLoop_spec (h : Header) : ∀ (rest : List Int) (st : State),
    (∃ z ∈ rest, z ≤ 0) →
    0 ≤ st._sectionCount → st._sectionCount ≤ st._displaySize →
    st._displaySize ≤ h.MAX_DISPLAY_SIZE →
    st._sectionBegins.length = h.MAX_DISPLAY_SIZE →
    st._sectionSizes.length = h.MAX_DISPLAY_SIZE →
    ∃ (st1 : State) (j : Nat), sectionLoop h rest st = some st1 ∧ j < rest.length ∧
      st1._sectionCount = st._sectionCount + j ∧
      st1._displaySize = st._displaySize + (rest.take j).sum ∧
      st1._displaySize ≤ h.MAX_DISPLAY_SIZE ∧
      (∀ i : Nat, i < j → ∃ s, rest[i]? = some s ∧ 0 < s ∧
        st._displaySize + (rest.take (i + 1)).sum ≤ h.MAX_DISPLAY_SIZE ∧
        load st1._sectionSizes (st._sectionCount + i) = some s ∧
        load st1._sectionBegins (st._sectionCount + i) =
          some (st._displaySize + (rest.take i).sum)) ∧
      (∃ s, rest[j]? = some s ∧
        (s ≤ 0 ∨ st._displaySize + (rest.take (j + 1)).sum > h.MAX_DISPLAY_SIZE)) ∧
      (∀ k : Int, k < st._sectionCount →
        cell st1._sectionSizes k = cell st._sectionSizes k ∧
        cell st1._sectionBegins k = cell st._sectionBegins k) ∧
      st1._isCathode = st._isCathode := by
  intro rest
  induction rest with
  | nil =>
    intro st hz
    obtain ⟨z, hmem, _⟩ := hz
    cases hmem
  | cons s rest ih =>
    intro st hz hc0 hcd hdm hlb hls
    by_cases hs : s > 0
    · by_cases hover : st._displaySize + s > h.MAX_DISPLAY_SIZE
      · refine ⟨st, 0, ?_, by simp, by simp, by simp, hdm, ?_, ?_, ?_, rfl⟩
        · simp only [sectionLoop, hs, if_true, hover]
        · intro i hi
          omega
        · exact ⟨s, List.getElem?_cons_zero, Or.inr (by simpa using hover)⟩
        · intro k _
          exact ⟨rfl, rfl⟩
      · have hsb := store_eq st._sectionBegins st._displaySize (i := st._sectionCount) hc0
          (by omega)
        have hss := store_eq st._sectionSizes s (i := st._sectionCount) hc0 (by omega)
        have hz1 : ∃ z ∈ rest, z ≤ 0 := by
          obtain ⟨z, hmem, hz0⟩ := hz
          rcases List.mem_cons.mp hmem with hzs | hzr
          · omega
          · exact ⟨z, hzr, hz0⟩
        obtain ⟨st1, j, e, hj, hcount, hdisp, hmax, hacc, hterm, hframe, hcat⟩ :=
          ih { st with
              _sectionBegins := st._sectionBegins.set st._sectionCount.toNat
                (some st._displaySize),
              _sectionSizes := st._sectionSizes.set st._sectionCount.toNat (some s),
              _displaySize := st._displaySize + s,
              _sectionCount := st._sectionCount + 1 }
            hz1 (by show 0 ≤ st._sectionCount + 1; omega)
            (by show st._sectionCount + 1 ≤ st._displaySize + s; omega)
            (by show st._displaySize + s ≤ _; omega)
            (by simp; exact hlb) (by simp; exact hls)
        simp only at hcount hdisp hacc hterm hframe hcat
        refine ⟨st1, j + 1, ?_, by simp; omega, by rw [hcount]; push_cast; omega, ?_, hmax,
          ?_, ?_, ?_, hcat⟩
        · simp only [sectionLoop, hs, if_true, hover, if_false, hsb, hss, Option.some_bind, e]
        · rw [hdisp, List.take_succ_cons, List.sum_cons]
          omega
        · intro i hi
          cases i with
          | zero =>
            obtain ⟨hf1, hf2⟩ := hframe st._sectionCount (by omega)
            refine ⟨s, List.getElem?_cons_zero, hs, by simp; omega, ?_, ?_⟩
            · unfold load
              rw [show st._sectionCount + ((0 : Nat) : Int) = st._sectionCount by simp, hf1,
                cell_store hss, if_pos rfl]
              rfl
            · unfold load
              rw [show st._sectionCount + ((0 : Nat) : Int) = st._sectionCount by simp, hf2,
                cell_store hsb, if_pos rfl]
              simp
          | succ i =>
            obtain ⟨s1, hs1, hpos, hsum, hl1, hl2⟩ := hacc i (by omega)
            refine ⟨s1, by simpa using hs1, hpos, ?_, ?_, ?_⟩
            · rw [List.take_succ_cons, List.sum_cons]
              omega
            · rw [show st._sectionCount + ((i + 1 : Nat) : Int) =
                st._sectionCount + 1 + (i : Int) by push_cast; omega]
              exact hl1
            · rw [show st._sectionCount + ((i + 1 : Nat) : Int) =
                st._sectionCount + 1 + (i : Int) by push_cast; omega, hl2,
                List.take_succ_cons, List.sum_cons]
              congr 1
              omega
        · obtain ⟨s1, hs1, hor⟩ := hterm
          refine ⟨s1, by simpa using hs1, ?_⟩
          rw [List.take_succ_cons, List.sum_cons]
          rcases hor with h1 | h1
          · exact Or.inl h1
          · exact Or.inr (by omega)
        · intro k hk
          obtain ⟨hf1, hf2⟩ := hframe k (by omega)
          rw [hf1, hf2, cell_store hss, cell_store hsb, if_neg (by omega), if_neg (by omega)]
          exact ⟨rfl, rfl⟩
    · refine ⟨st, 0, ?_, by simp, by simp, by simp, hdm, ?_, ?_, ?_, rfl⟩
      · simp only [sectionLoop, hs, if_false]
      · intro i hi
        omega
      · exact ⟨s, List.getElem?_cons_zero, Or.inl (by omega)⟩
      · intro k _
        exact ⟨rfl, rfl⟩

theorem construct_spec (h : Header) (latchPin clockPin dataPin : Int)
    (displayType : DisplayType) (sectionSizes : List Int) (hzero : (0 : Int) ∈ sectionSizes)
    (displayDrive : DisplayDrive) (swapped : Bool) (indexes : List Int)
    (hidx : h.MAX_DISPLAY_SIZE ≤ indexes.length) :
    ∃ (st : State) (ev : List Event) (k : Nat),
      construct h latchPin clockPin dataPin displayType sectionSizes displayDrive swapped
        indexes = some (st, ev) ∧
      st._sectionCount = (k : Int) ∧ k < sectionSizes.length ∧
      st._displaySize = (sectionSizes.take k).sum ∧
      st._displaySize ≤ (h.MAX_DISPLAY_SIZE : Int) ∧
      (∀ i : Nat, i < k → ∃ s, sectionSizes[i]? = some s ∧ 0 < s ∧
        (sectionSizes.take (i + 1)).sum ≤ (h.MAX_DISPLAY_SIZE : Int) ∧
        load st._sectionSizes (i : Int) = some s ∧
        load st._sectionBegins (i : Int) = some (sectionSizes.take i).sum) ∧
      (∃ s, sectionSizes[k]? = some s ∧
        (s ≤ 0 ∨ (sectionSizes.take (k + 1)).sum > (h.MAX_DISPLAY_SIZE : Int))) := by
  obtain ⟨idx, hidx1, _, _⟩ := indexLoop_spec h
    (decide (displayType = DisplayType.COMMON_CATHODE)) indexes h.MAX_DISPLAY_SIZE 0
    (List.replicate h.MAX_DISPLAY_SIZE none) (by omega) (by omega) (by simp)
  obtain ⟨st1, j, e, hj, hcount, hdisp, hmax, hacc, hterm, _, _⟩ := sectionLoop_spec h
    sectionSizes
    { _latchPin := latchPin, _clockPin := clockPin, _dataPin := dataPin,
      _isCathode := decide (displayType = DisplayType.COMMON_CATHODE),
      _isMultiplexed := decide (displayDrive = DisplayDrive.MULTIPLEXED_DRIVE),
      _isSwapped := swapped,
      _displaySize := 0, _sectionCount := 0,
      _sectionBegins := List.replicate h.MAX_DISPLAY_SIZE none,
      _sectionSizes := List.replicate h.MAX_DISPLAY_SIZE none,
      _indexes := idx,
      _cache := List.replicate h.MAX_DISPLAY_SIZE none }
    ⟨0, hzero, le_refl _⟩ (le_refl _) (le_refl _) (by show (0 : Int) ≤ _; omega)
    (by simp) (by simp)
  simp only at hcount hdisp hacc hterm
  have hcons : ∃ st ev, construct h latchPin clockPin dataPin displayType sectionSizes
      displayDrive swapped indexes = some (st, ev) ∧
      st._sectionCount = st1._sectionCount ∧ st._displaySize = st1._displaySize ∧
      st._sectionSizes = st1._sectionSizes ∧ st._sectionBegins = st1._sectionBegins := by
    simp only [construct, hidx1, Option.some_bind, e, Option.map_some']
    exact ⟨_, _, rfl, rfl, rfl, rfl, rfl⟩
  obtain ⟨st, ev, hc, h1, h2, h3, h4⟩ := hcons
  refine ⟨st, ev, j, hc, ?_, hj, ?_, ?_, ?_, ?_⟩
  · rw [h1, hcount]
    omega
  · rw [h2, hdisp]
    omega
  · rw [h2]
    exact hmax
  · intro i hi
    obtain ⟨s, hs, hpos, hsum, hl1, hl2⟩ := hacc i hi
    refine ⟨s, hs, hpos, by omega, ?_, ?_⟩
    · rw [h3, ← hl1]
      congr 1
      omega
    · rw [h4, show ((i : Nat) : Int) = 0 + (i : Int) by omega, hl2]
      congr 1
      omega
  · obtain ⟨s, hs, hor⟩ := hterm
    refine ⟨s, hs, ?_⟩
    rcases hor with h5 | h5
    · exact Or.inl h5
    · exact Or.inr (by omega)

theorem sum_take_succ_of (l : List Int) (i : Nat) (s : Int) (hs : l[i]? = some s) :
    (l.take (i + 1)).sum = (l.take i).sum + s := by
  rw [List.take_succ, hs]
  simp

/-- The section table with the sums in the mathematical integers: for every
zero-terminated list of section sizes, `construct` accepts the first `k` entries,
where entry `k` is the first that is not positive or would raise the running total
above `MAX_DISPLAY_SIZE` (all entries before it are positive and keep the total
within `MAX_DISPLAY_SIZE`); the accepted sections are stored with their sizes,
section 0 begins at 0, each later one begins where the previous one ends, and the
display size is the sum of the accepted sizes, at most `MAX_DISPLAY_SIZE`. -/
theorem construct_sections (h : Header) (latchPin clockPin dataPin : Int)
    (displayType : DisplayType) (sectionSizes : List Int) (hzero : (0 : Int) ∈ sectionSizes)
    (displayDrive : DisplayDrive) (swapped : Bool) (indexes : List Int)
    (hidx : h.MAX_DISPLAY_SIZE ≤ indexes.length) :
    ∃ (st : State) (ev : List Event) (k : Nat),
      construct h latchPin clockPin dataPin displayType sectionSizes displayDrive swapped
        indexes = some (st, ev) ∧
      st._sectionCount = (k : Int) ∧ k < sectionSizes.length ∧
      st._displaySize = (sectionSizes.take k).sum ∧
      st._displaySize ≤ (h.MAX_DISPLAY_SIZE : Int) ∧
      (∀ i : Nat, i < k → ∃ s, sectionSizes[i]? = some s ∧ 0 < s ∧
        (sectionSizes.take (i + 1)).sum ≤ (h.MAX_DISPLAY_SIZE : Int) ∧
        load st._sectionSizes (i : Int) = some s ∧
        load st._sectionBegins (i : Int) = some (sectionSizes.take i).sum) ∧
      (∃ s, sectionSizes[k]? = some s ∧
        (s ≤ 0 ∨ (sectionSizes.take (k + 1)).sum > (h.MAX_DISPLAY_SIZE : Int))) ∧
      (0 < k → load st._sectionBegins 0 = some 0) ∧
      (∀ i : Nat, i + 1 < k → ∃ b s, load st._sectionBegins (i : Int) = some b ∧
        load st._sectionSizes (i : Int) = some s ∧
        load st._sectionBegins ((i : Int) + 1) = some (b + s)) := by
  obtain ⟨st, ev, k, e, hcount, hk, hdisp, hmax, hacc, hterm⟩ := construct_spec h latchPin
    clockPin dataPin displayType sectionSizes hzero displayDrive swapped indexes hidx
  refine ⟨st, ev, k, e, hcount, hk, hdisp, hmax, hacc, hterm, ?_, ?_⟩
  · intro hk0
    obtain ⟨s, _, _, _, _, hb⟩ := hacc 0 hk0
    simpa using hb
  · intro i hi
    obtain ⟨s, hs, _, _, hsz, hb⟩ := hacc i (by omega)
    obtain ⟨s1, _, _, _, _, hb1⟩ := hacc (i + 1) hi
    refine ⟨_, s, hb, hsz, ?_⟩
    rw [sum_take_succ_of sectionSizes i s hs] at hb1
    exact_mod_cast hb1

/-- The section table on an example: of the sizes 3, 2, 4, 1 on a display of at
most 8 digits the first two are accepted. -/
theorem construct_sections_witness :
    ∃ (st : State) (ev : List Event),
      construct sampleHeader 6 7 5 DisplayType.COMMON_CATHODE [3, 2, 4, 1, 0]
        DisplayDrive.STATIC_DRIVE false [0, 1, 2, 3, 4, 5, 6, 7] = some (st, ev) ∧
      st._sectionCount = 2 ∧ st._displaySize = 5 ∧
      load st._sectionBegins 0 = some 0 ∧ load st._sectionSizes 0 = some 3 ∧
      load st._sectionBegins 1 = some 3 ∧ load st._sectionSizes 1 = some 2 := by
  obtain ⟨st, ev, k, e, hcount, hk, hdisp, _, hacc, hterm, _, _⟩ :=
    construct_sections sampleHeader 6 7 5 DisplayType.COMMON_CATHODE [3, 2, 4, 1, 0]
      (by decide) DisplayDrive.STATIC_DRIVE false [0, 1, 2, 3, 4, 5, 6, 7] (by decide)
  have hk2 : k = 2 := by
    obtain ⟨s, hs, hor⟩ := hterm
    simp only [List.length_cons, List.length_nil] at hk
    have hM : ((sampleHeader.MAX_DISPLAY_SIZE : Nat) : Int) = 8 := rfl
    rw [hM] at hor
    interval_cases k
    · simp at hs
      subst hs
      simp at hor
    · simp at hs
      subst hs
      simp at hor
    · rfl
    · obtain ⟨s2, _, _, hsum, _, _⟩ := hacc 2 (by omega)
      rw [hM] at hsum
      simp at hsum
    · obtain ⟨s2, _, _, hsum, _, _⟩ := hacc 2 (by omega)
      rw [hM] at hsum
      simp at hsum
  subst hk2
  obtain ⟨s0, hs0, _, _, hz0, hb0⟩ := hacc 0 (by omega)
  obtain ⟨s1, hs1, _, _, hz1, hb1⟩ := hacc 1 (by omega)
  simp at hs0 hs1
  subst hs0 hs1
  refine ⟨st, ev, e, hcount, ?_, ?_, hz0, ?_, hz1⟩
  · rw [hdisp]
    rfl
  · simpa using hb0
  · simpa using hb1

/-! ## Section 0 -/

/-- C10 as stated fails: constructed for a display of size 0, or of a size above
`MAX_DISPLAY_SIZE`, the object has no section at all, `isValidSection(0)` is false
and the size of section 0 was never stored. -/
theorem construct_section_zero_counterexample :
    (∃ (st : State) (ev : List Event),
      construct sampleHeader 6 7 5 DisplayType.COMMON_CATHODE [0, 0]
        DisplayDrive.MULTIPLEXED_DRIVE false [0, 1, 2, 3, 4, 5, 6, 7] = some (st, ev) ∧
      st._sectionCount = 0 ∧ isValidSection st 0 = false ∧
      load st._sectionSizes 0 = none) ∧
    (∃ (st : State) (ev : List Event),
      construct sampleHeader 6 7 5 DisplayType.COMMON_CATHODE [9, 0]
        DisplayDrive.MULTIPLEXED_DRIVE false [0, 1, 2, 3, 4, 5, 6, 7] = some (st, ev) ∧
      st._sectionCount = 0 ∧ isValidSection st 0 = false ∧
      load st._sectionSizes 0 = none) :=
  ⟨⟨_, _, rfl, rfl, rfl, rfl⟩, ⟨_, _, rfl, rfl, rfl, rfl⟩⟩

/-- C10, as the code has it: after construction with a zero-terminated list of
section sizes, section 0 exists exactly when the first size lies in
`[1, MAX_DISPLAY_SIZE]`; then the section count is at least 1, `isValidSection(0)`
is true and section 0 begins at 0 with that size. Otherwise there is no section
and `isValidSection(0)` is false. -/
theorem construct_section_zero (h : Header) (latchPin clockPin dataPin : Int)
    (displayType : DisplayType) (sectionSizes : List Int) (hzero : (0 : Int) ∈ sectionSizes)
    (displayDrive : DisplayDrive) (swapped : Bool) (indexes : List Int)
    (hidx : h.MAX_DISPLAY_SIZE ≤ indexes.length) :
    ∃ (st : State) (ev : List Event) (s0 : Int),
      construct h latchPin clockPin dataPin displayType sectionSizes displayDrive swapped
        indexes = some (st, ev) ∧
      sectionSizes[0]? = some s0 ∧
      ((0 < s0 ∧ s0 ≤ (h.MAX_DISPLAY_SIZE : Int)) →
        1 ≤ st._sectionCount ∧ isValidSection st 0 = true ∧
        load st._sectionSizes 0 = some s0 ∧ load st._sectionBegins 0 = some 0) ∧
      (¬ (0 < s0 ∧ s0 ≤ (h.MAX_DISPLAY_SIZE : Int)) →
        st._sectionCount = 0 ∧ isValidSection st 0 = false) := by
  obtain ⟨st, ev, k, e, hcount, hk, hdisp, hmax, hacc, hterm⟩ := construct_spec h latchPin
    clockPin dataPin displayType sectionSizes hzero displayDrive swapped indexes hidx
  obtain ⟨s0, rest, hl⟩ : ∃ s0 rest, sectionSizes = s0 :: rest := by
    cases sectionSizes with
    | nil => cases hzero
    | cons a l => exact ⟨a, l, rfl⟩
  subst hl
  refine ⟨st, ev, s0, e, List.getElem?_cons_zero, ?_, ?_⟩
  · intro hs0
    have hk1 : 0 < k := by
      by_contra hk0
      have hk00 : k = 0 := by omega
      subst hk00
      obtain ⟨s, hs, hor⟩ := hterm
      simp at hs
      subst hs
      simp at hor
      omega
    obtain ⟨s, hs, _, _, hsz, hb⟩ := hacc 0 hk1
    simp at hs
    subst hs
    refine ⟨by omega, ?_, by simpa using hsz, by simpa using hb⟩
    simp only [isValidSection, decide_eq_true_eq]
    omega
  · intro hs0
    have hk0 : k = 0 := by
      by_contra hk1
      obtain ⟨s, hs, hpos, hsum, _, _⟩ := hacc 0 (by omega)
      simp at hs
      subst hs
      simp at hsum
      exact hs0 ⟨hpos, hsum⟩
    subst hk0
    refine ⟨by simpa using hcount, ?_⟩
    simp only [isValidSection, decide_eq_false_iff_not]
    omega

/-- C10, on an example: a display of four digits has its section 0. -/
theorem construct_section_zero_witness :
    ∃ (st : State) (ev : List Event),
      construct sampleHeader 6 7 5 DisplayType.COMMON_ANODE [4, 0]
        DisplayDrive.MULTIPLEXED_DRIVE false [0, 1, 2, 3, 4, 5, 6, 7] = some (st, ev) ∧
      1 ≤ st._sectionCount ∧ isValidSection st 0 = true ∧
      load st._sectionSizes 0 = some 4 ∧ load st._sectionBegins 0 = some 0 := by
  obtain ⟨st, ev, s0, e, hs0, hyes, _⟩ :=
    construct_section_zero sampleHeader 6 7 5 DisplayType.COMMON_ANODE [4, 0] (by decide)
      DisplayDrive.MULTIPLEXED_DRIVE false [0, 1, 2, 3, 4, 5, 6, 7] (by decide)
  have h4 : s0 = 4 := by
    simp at hs0
    exact hs0.symm
  subst h4
  exact ⟨st, ev, e, hyes ⟨by decide, by decide⟩⟩

/-! ## The object after construct -/

theorem sectionLoop_frame (h : Header) : ∀ (rest : List Int) (st st1 : State),
    sectionLoop h rest st = some st1 →
    st1._cache = st._cache ∧ st1._indexes = st._indexes ∧ st1._isCathode = st._isCathode ∧
    st1._isMultiplexed = st._isMultiplexed ∧ st1._isSwapped = st._isSwapped ∧
    st1._latchPin = st._latchPin ∧ st1._clockPin = st._clockPin ∧
    st1._dataPin = st._dataPin := by
  intro rest
  induction rest with
  | nil =>
    intro st st1 e
    cases e
  | cons s rest ih =>
    intro st st1 e
    unfold sectionLoop at e
    split at e
    · split at e
      · cases e
        exact ⟨rfl, rfl, rfl, rfl, rfl, rfl, rfl, rfl⟩
      · simp only [Option.bind_eq_some] at e
        obtain ⟨begins, _, sizes, _, e1⟩ := e
        have := ih _ _ e1
        simpa using this
    · cases e
      exact ⟨rfl, rfl, rfl, rfl, rfl, rfl, rfl, rfl⟩

theorem sum_take_le (l : List Int) (k : Nat)
    (hpos : ∀ i : Nat, i < k → ∃ s, l[i]? = some s ∧ 0 < s) :
    ∀ i : Nat, i ≤ k → (l.take i).sum ≤ (l.take k).sum := by
  induction k with
  | zero =>
    intro i hi
    have : i = 0 := by omega
    subst this
    exact le_refl _
  | succ k ih =>
    intro i hi
    obtain ⟨s, hs, hs0⟩ := hpos k (by omega)
    have hk := sum_take_succ_of l k s hs
    by_cases hik : i = k + 1
    · subst hik
      exact le_refl _
    · have := ih (fun j hj => hpos j (by omega)) i (by omega)
      omega

theorem construct_full (h : Header) (latchPin clockPin dataPin : Int)
    (displayType : DisplayType) (sectionSizes : List Int) (hzero : (0 : Int) ∈ sectionSizes)
    (displayDrive : DisplayDrive) (swapped : Bool) (indexes : List Int)
    (hidx : h.MAX_DISPLAY_SIZE ≤ indexes.length) :
    ∃ (st : State) (ev : List Event),
      construct h latchPin clockPin dataPin displayType sectionSizes displayDrive swapped
        indexes = some (st, ev) ∧
      WellFormed h st ∧
      st._cache = List.replicate h.MAX_DISPLAY_SIZE
        (some (polarity (decide (displayType = DisplayType.COMMON_CATHODE)) h.EMPTY)) ∧
      st._isCathode = decide (displayType = DisplayType.COMMON_CATHODE) ∧
      st._isMultiplexed = decide (displayDrive = DisplayDrive.MULTIPLEXED_DRIVE) ∧
      st._isSwapped = swapped ∧
      (∀ pos : Nat, pos < h.MAX_DISPLAY_SIZE → ∃ index, indexes[pos]? = some index ∧
        load st._indexes (pos : Int) =
          some (encodedIndex h (decide (displayType = DisplayType.COMMON_CATHODE)) index)) := by
  obtain ⟨idx, hidx1, hidxl, hidxc⟩ := indexLoop_spec h
    (decide (displayType = DisplayType.COMMON_CATHODE)) indexes h.MAX_DISPLAY_SIZE 0
    (List.replicate h.MAX_DISPLAY_SIZE none) (by omega) (by omega) (by simp)
  obtain ⟨st1, j, e, hj, hcount, hdisp, hmax, hacc, hterm, _, _⟩ := sectionLoop_spec h
    sectionSizes
    { _latchPin := latchPin, _clockPin := clockPin, _dataPin := dataPin,
      _isCathode := decide (displayType = DisplayType.COMMON_CATHODE),
      _isMultiplexed := decide (displayDrive = DisplayDrive.MULTIPLEXED_DRIVE),
      _isSwapped := swapped,
      _displaySize := 0, _sectionCount := 0,
      _sectionBegins := List.replicate h.MAX_DISPLAY_SIZE none,
      _sectionSizes := List.replicate h.MAX_DISPLAY_SIZE none,
      _indexes := idx,
      _cache := List.replicate h.MAX_DISPLAY_SIZE none }
    ⟨0, hzero, le_refl _⟩ (le_refl _) (le_refl _) (by show (0 : Int) ≤ _; omega)
    (by simp) (by simp)
  obtain ⟨_, hfi, hfc, hfm, hfs, _, _, _⟩ := sectionLoop_frame h _ _ _ e
  simp only at hcount hdisp hacc hterm hfi hfc hfm hfs
  have hcons : ∃ st ev, construct h latchPin clockPin dataPin displayType sectionSizes
      displayDrive swapped indexes = some (st, ev) ∧
      st._sectionCount = st1._sectionCount ∧ st._displaySize = st1._displaySize ∧
      st._sectionSizes = st1._sectionSizes ∧ st._sectionBegins = st1._sectionBegins ∧
      st._indexes = st1._indexes ∧ st._isCathode = st1._isCathode ∧
      st._isMultiplexed = st1._isMultiplexed ∧ st._isSwapped = st1._isSwapped ∧
      st._cache = List.replicate h.MAX_DISPLAY_SIZE
        (some (polarity (decide (displayType = DisplayType.COMMON_CATHODE)) h.EMPTY)) := by
    simp only [construct, hidx1, Option.some_bind, e, Option.map_some']
    exact ⟨_, _, rfl, rfl, rfl, rfl, rfl, rfl, rfl, rfl, rfl, rfl⟩
  obtain ⟨st, ev, hc, h1, h2, h3, h4, h5, h6, h7, h8, h9⟩ := hcons
  have hidxcell : ∀ pos : Nat, pos < h.MAX_DISPLAY_SIZE → ∃ index, indexes[pos]? = some index ∧
      load st._indexes (pos : Int) =
        some (encodedIndex h (decide (displayType = DisplayType.COMMON_CATHODE)) index) := by
    intro pos hpos
    have hlt : pos < indexes.length := by omega
    refine ⟨indexes[pos], List.getElem?_eq_getElem hlt, ?_⟩
    rw [h5, hfi]
    unfold load
    rw [hidxc (pos : Int), if_pos (by omega), cell_natCast, List.getElem?_eq_getElem hlt]
    rfl
  have hposs : ∀ i : Nat, i < j → ∃ s, sectionSizes[i]? = some s ∧ 0 < s := by
    intro i hi
    obtain ⟨s, hs, hs0, _⟩ := hacc i hi
    exact ⟨s, hs, hs0⟩
  refine ⟨st, ev, hc, ⟨?_, ?_, ?_, ?_, ?_, ?_, ?_⟩, h9, by rw [h6, hfc], by rw [h7, hfm],
    by rw [h8, hfs], hidxcell⟩
  · rw [h9]
    simp
  · intro k hk0 hk1
    refine ⟨polarity (decide (displayType = DisplayType.COMMON_CATHODE)) h.EMPTY, ?_⟩
    rw [h9]
    unfold load cell
    rw [if_pos hk0, List.getElem?_replicate, if_pos (by omega)]
    rfl
  · intro k hk0 hk1
    obtain ⟨index, _, hl⟩ := hidxcell k.toNat (by omega)
    rw [show ((k.toNat : Nat) : Int) = k by omega] at hl
    exact ⟨_, hl⟩
  · rw [h1, hcount]
    omega
  · rw [h2, hdisp]
    have := sum_take_le sectionSizes j hposs 0 (by omega)
    simp only [List.take_zero, List.sum_nil] at this
    omega
  · rw [h2]
    exact hmax
  · intro s hs0 hs1
    rw [h1, hcount] at hs1
    obtain ⟨z, hz, hz0, _, hl1, hl2⟩ := hacc s.toNat (by omega)
    have hcast : (0 : Int) + ((s.toNat : Nat) : Int) = s := by omega
    rw [hcast] at hl1 hl2
    refine ⟨_, z, by rw [h4]; exact hl2, by rw [h3]; exact hl1, ?_, hz0, ?_⟩
    · have := sum_take_le sectionSizes s.toNat (fun i hi => hposs i (by omega)) 0 (by omega)
      simp only [List.take_zero, List.sum_nil] at this
      omega
    · have h10 := sum_take_le sectionSizes j hposs (s.toNat + 1) (by omega)
      rw [sum_take_succ_of sectionSizes s.toNat z hz] at h10
      rw [h2, hdisp]
      omega

theorem construct_byteCache (h : Header) (hE : h.EMPTY < 256) (isCathode : Bool) (st : State)
    (hc : st._cache = List.replicate h.MAX_DISPLAY_SIZE (some (polarity isCathode h.EMPTY))) :
    ByteCache st := by
  intro k b hb
  rw [hc] at hb
  unfold load cell at hb
  split at hb
  · rw [List.getElem?_replicate] at hb
    split at hb
    · have hbv : polarity isCathode h.EMPTY = b := by
        simpa using hb
      rw [← hbv]
      unfold polarity
      split
      · exact hE
      · unfold bitNot toByte
        unfold Byte at *
        omega
    · simp at hb
  · simp at hb

/-! ## The digit-index table -/

/-- C20: in the digit-index table `construct` builds, the cell of every position
below `MAX_DISPLAY_SIZE` holds, when the configured index lies in
`[0, MAX_DISPLAY_SIZE)`, the complement of `INDEXES[index]` on a common-cathode
display and `INDEXES[index]` itself on a common-anode display, and holds 0 on
both when the configured index lies outside that range. -/
theorem construct_indexes (h : Header) (latchPin clockPin dataPin : Int)
    (displayType : DisplayType) (sectionSizes : List Int) (hzero : (0 : Int) ∈ sectionSizes)
    (displayDrive : DisplayDrive) (swapped : Bool) (indexes : List Int)
    (hidx : h.MAX_DISPLAY_SIZE ≤ indexes.length) :
    ∃ (st : State) (ev : List Event),
      construct h latchPin clockPin dataPin displayType sectionSizes displayDrive swapped
        indexes = some (st, ev) ∧
      ∀ (pos : Nat) (index : Int), pos < h.MAX_DISPLAY_SIZE → indexes[pos]? = some index →
        ((0 ≤ index ∧ index < (h.MAX_DISPLAY_SIZE : Int)) →
          load st._indexes (pos : Int) =
            some (if displayType = DisplayType.COMMON_CATHODE then
              bitNot (h.INDEXES index.toNat) else h.INDEXES index.toNat) ∧
          (h.INDEXES index.toNat < 256 →
            bitNot (h.INDEXES index.toNat) = 255 - h.INDEXES index.toNat)) ∧
        (¬ (0 ≤ index ∧ index < (h.MAX_DISPLAY_SIZE : Int)) →
          load st._indexes (pos : Int) = some 0) := by
  obtain ⟨st, ev, hc, _, _, _, _, _, hcell⟩ := construct_full h latchPin clockPin dataPin
    displayType sectionSizes hzero displayDrive swapped indexes hidx
  refine ⟨st, ev, hc, ?_⟩
  intro pos index hpos hindex
  obtain ⟨index1, hi1, hl⟩ := hcell pos hpos
  rw [hindex] at hi1
  cases hi1
  constructor
  · intro hin
    refine ⟨?_, fun hb => bitNot_eq _ hb⟩
    rw [hl]
    unfold encodedIndex
    rw [if_pos ⟨by omega, hin.2⟩]
    by_cases hd : displayType = DisplayType.COMMON_CATHODE
    · simp [hd]
    · simp [hd]
  · intro hout
    rw [hl]
    unfold encodedIndex
    rw [if_neg (by intro hh; exact hout ⟨by omega, hh.2⟩)]

/-- C20, on an example: with the configured indexes 0, 1, ..., 6, 9 on a
common-cathode display, position 1 holds the complement of `INDEXES[1]` and
position 7 holds 0. -/
theorem construct_indexes_witness :
    ∃ (st : State) (ev : List Event),
      construct sampleHeader 6 7 5 DisplayType.COMMON_CATHODE [4, 0]
        DisplayDrive.MULTIPLEXED_DRIVE false [0, 1, 2, 3, 4, 5, 6, 9] = some (st, ev) ∧
      load st._indexes 1 = some 253 ∧ load st._indexes 7 = some 0 := by
  obtain ⟨st, ev, hc, hp⟩ := construct_indexes sampleHeader 6 7 5 DisplayType.COMMON_CATHODE
    [4, 0] (by decide) DisplayDrive.MULTIPLEXED_DRIVE false [0, 1, 2, 3, 4, 5, 6, 9]
    (by decide)
  refine ⟨st, ev, hc, ?_, ?_⟩
  · have := ((hp 1 1 (by decide) rfl).1 (by decide)).1
    simpa using this
  · have := (hp 7 9 (by decide) rfl).2 (by decide)
    simpa using this

/-! ## Sections and indexes that do not exist -/

theorem isValidSection_false (st : State) (s : Int)
    (hs : ¬ (0 ≤ s ∧ s < st._sectionCount)) : isValidSection st s = false := by
  simp only [isValidSection, decide_eq_false_iff_not]
  omega

theorem isValidSection_true (st : State) (s : Int) (h0 : 0 ≤ s) (h1 : s < st._sectionCount) :
    isValidSection st s = true := by
  simp only [isValidSection, decide_eq_true_eq]
  omega

/-- C11: for a section index outside `[0, sectionCount)` every overload of `setAt`,
`changeDotAt` and `changeCharacterAt` return with the object, and so the whole
cache, as it was; and for a section index inside that range whose size is stored,
`changeDotAt` and `changeCharacterAt` with a relative index outside
`[0, size)` do the same. -/
theorem invalid_section_ignored (h : Header) (st : State) :
    (∀ s : Int, ¬ (0 ≤ s ∧ s < st._sectionCount) →
      (∀ args : SetAtArgs, setAt h st s args = some st) ∧
      (∀ (r : Int) (dot : Bool), changeDotAt st s r dot = some st) ∧
      (∀ (r : Int) (custom : Byte), changeCharacterAt st s r custom = some st)) ∧
    (∀ (s z r : Int), 0 ≤ s → s < st._sectionCount → load st._sectionSizes s = some z →
      ¬ (0 ≤ r ∧ r < z) →
      (∀ dot : Bool, changeDotAt st s r dot = some st) ∧
      (∀ custom : Byte, changeCharacterAt st s r custom = some st)) := by
  constructor
  · intro s hs
    have hv := isValidSection_false st s hs
    refine ⟨?_, ?_, ?_⟩
    · intro args
      cases args <;> simp [setAt, hv]
    · intro r dot
      simp [changeDotAt, hv]
    · intro r custom
      simp [changeCharacterAt, hv]
  · intro s z r h0 h1 hz hr
    have hv := isValidSection_true st s h0 h1
    have hr1 : ¬ (r ≥ 0 ∧ r < z) := by omega
    constructor
    · intro dot
      simp only [changeDotAt, hv, if_true, hz, Option.some_bind, hr1, if_false]
    · intro custom
      simp only [changeCharacterAt, hv, if_true, hz, Option.some_bind, hr1, if_false]

/-- C11, on an example: `changeDotAt(1, 0, true)` on a display with the single
section 0 of four digits, and `changeDotAt(0, 4, true)` on the same display. -/
theorem invalid_section_ignored_witness :
    ∃ st, sampleDisplay DisplayType.COMMON_CATHODE [4, 0] DisplayDrive.MULTIPLEXED_DRIVE =
        some st ∧
      changeDotAt st 1 0 true = some st ∧ changeDotAt st 0 4 true = some st := by
  refine ⟨_, rfl, ?_, ?_⟩
  · exact ((invalid_section_ignored sampleHeader _).1 1 (by decide)).2.1 0 true
  · exact ((invalid_section_ignored sampleHeader _).2 0 4 4 (by decide) (by decide) (by rfl)
      (by decide)).1 true

/-! ## update -/

theorem updateStaticLoop_eq (st : State) (seg : Nat → Byte) (n : Nat)
    (hseg : ∀ j : Nat, j < n → load st._cache (j : Int) = some (seg j)) :
    updateStaticLoop st n ((n : Int) - 1) =
      some ((List.range n).reverse.map fun j =>
        Event.shiftOut st._dataPin st._clockPin false (seg j)) := by
  induction n with
  | zero => rfl
  | succ n ih =>
    have h1 : (((n + 1 : Nat) : Int) - 1) = (n : Int) := by omega
    rw [h1]
    simp only [updateStaticLoop, hseg n (by omega), Option.some_bind,
      ih (fun j hj => hseg j (by omega)), Option.map_some', List.range_succ,
      List.reverse_append, List.reverse_singleton, List.singleton_append, List.map_cons]

theorem updateMultiplexedLoop_eq (h : Header) (st : State) (digit seg : Nat → Byte) (n : Nat) :
    ∀ i : Nat,
    (∀ j : Nat, j < n → load st._indexes ((i + j : Nat) : Int) = some (digit (i + j)) ∧
      load st._cache ((i + j : Nat) : Int) = some (seg (i + j))) →
    updateMultiplexedLoop h st n (i : Int) =
      some ((List.range n).flatMap fun j => scanStep h st (digit (i + j)) (seg (i + j))) := by
  induction n with
  | zero =>
    intro i _
    rfl
  | succ n ih =>
    intro i hds
    obtain ⟨hd, hs⟩ := hds 0 (by omega)
    have h1 : ((i : Nat) : Int) + 1 = ((i + 1 : Nat) : Int) := by omega
    have ih1 := ih (i + 1) (fun j hj => by
      have := hds (j + 1) (by omega)
      rw [show i + 1 + j = i + (j + 1) by omega]
      exact this)
    have hfun : (fun j => scanStep h st (digit (i + 1 + j)) (seg (i + 1 + j))) =
        ((fun j => scanStep h st (digit (i + j)) (seg (i + j))) ∘ Nat.succ) := by
      funext j
      simp only [Function.comp, Nat.succ_eq_add_one]
      rw [show i + 1 + j = i + (j + 1) by omega]
    simp only [Nat.add_zero] at hd hs
    have hstep : ∀ d s : Byte, [Event.digitalWrite st._latchPin false] ++
        (if !st._isSwapped then
          [Event.shiftOut st._dataPin st._clockPin false d,
           Event.shiftOut st._dataPin st._clockPin false s]
         else
          [Event.shiftOut st._dataPin st._clockPin false s,
           Event.shiftOut st._dataPin st._clockPin false d]) ++
        [Event.digitalWrite st._latchPin true, Event.delay h.POV] = scanStep h st d s := by
      intro d s
      cases hsw : st._isSwapped <;> simp [scanStep, hsw]
    simp only [updateMultiplexedLoop, hd, hs, Option.some_bind, h1, ih1, Option.map_some',
      hstep, List.range_succ_eq_map, List.flatMap_cons, List.flatMap_map, hfun, Nat.add_zero]
    rfl

theorem dwells_append (a b : List Event) : dwells (a ++ b) = dwells a + dwells b := by
  induction a with
  | nil => simp [dwells]
  | cons e a ih =>
    cases e <;> simp [dwells, ih]
    omega

theorem elapsed_append (a b : List Event) : elapsed (a ++ b) = elapsed a + elapsed b := by
  induction a with
  | nil => simp [elapsed]
  | cons e a ih =>
    cases e <;> simp [elapsed, ih]
    omega

theorem scan_dwells (h : Header) (st : State) (digit seg : Nat → Byte) (n : Nat) :
    dwells ((List.range n).flatMap fun j => scanStep h st (digit j) (seg j)) = n ∧
    elapsed ((List.range n).flatMap fun j => scanStep h st (digit j) (seg j)) = n * h.POV := by
  induction n with
  | zero => simp [dwells, elapsed]
  | succ n ih =>
    have h1 : dwells (scanStep h st (digit n) (seg n)) = 1 := by
      cases hsw : st._isSwapped <;> simp [scanStep, hsw, dwells]
    have h2 : elapsed (scanStep h st (digit n) (seg n)) = h.POV := by
      cases hsw : st._isSwapped <;> simp [scanStep, hsw, elapsed]
    rw [List.range_succ, List.flatMap_append, dwells_append, elapsed_append, ih.1, ih.2]
    simp only [List.flatMap_cons, List.flatMap_nil, List.append_nil, h1, h2]
    exact ⟨trivial, (Nat.succ_mul n h.POV).symm⟩

/-- C12: on a static-drive display of `N` digits whose cache cells below `N` are
stored, `update` makes exactly these calls: the latch low, then `N` calls of
`shiftOut` with the same bit order that carry the cache bytes as they are stored,
the byte of position `N - 1` first and that of position 0 last, then the latch
high; it takes no time and leaves the object as it was. -/
theorem update_static (h : Header) (m : Machine) (N : Nat) (seg : Nat → Byte)
    (hstatic : m.display._isMultiplexed = false) (hN : m.display._displaySize = (N : Int))
    (hseg : ∀ j : Nat, j < N → load m.display._cache (j : Int) = some (seg j)) :
    update h m = some
      { display := m.display,
        millis := m.millis % 2 ^ 32,
        trace := m.trace ++
          ([Event.digitalWrite m.display._latchPin false] ++
           ((List.range N).reverse.map fun j =>
              Event.shiftOut m.display._dataPin m.display._clockPin false (seg j)) ++
           [Event.digitalWrite m.display._latchPin true]) } := by
  have hloop := updateStaticLoop_eq m.display seg N hseg
  have helapsed : ∀ l : List Nat, elapsed (l.map fun j =>
      Event.shiftOut m.display._dataPin m.display._clockPin false (seg j)) = 0 := by
    intro l
    induction l with
    | nil => rfl
    | cons a l ih => simp [elapsed, ih]
  simp only [update, updateEvents, hstatic, Bool.false_eq_true, if_false, updateStaticDisplay,
    hN, Int.toNat_ofNat, hloop, Option.map_some', run, elapsed_append, helapsed]
  simp [elapsed]

/-- C12, on an example: a static display of three digits, written with `"ab"`. -/
theorem update_static_witness :
    ∃ st st1, sampleDisplay DisplayType.COMMON_CATHODE [3, 0] DisplayDrive.STATIC_DRIVE =
        some st ∧
      setAt sampleHeader st 0 (SetAtArgs.chars (codes "ab") Alignment.ALIGN_LEFT) = some st1 ∧
      update sampleHeader { display := st1, millis := 0, trace := [] } = some
        { display := st1, millis := 0,
          trace := [Event.digitalWrite 6 false, Event.shiftOut 5 7 false 0,
            Event.shiftOut 5 7 false (sampleHeader.LETTERS 1),
            Event.shiftOut 5 7 false (sampleHeader.LETTERS 0),
            Event.digitalWrite 6 true] } := by
  refine ⟨_, _, rfl, rfl, ?_⟩
  exact update_static sampleHeader _ 3
    (fun j => [sampleHeader.LETTERS 0, sampleHeader.LETTERS 1, 0].getD j 0) (by rfl) (by rfl)
    (by
      intro j hj
      interval_cases j <;> rfl)

/-- C13: on a multiplexed display of `N` digits whose digit codes and cache cells
below `N` are stored, `update` makes, for the positions 0, 1, ..., `N - 1` in this
order, exactly the calls: latch low, two calls of `shiftOut`, latch high,
`delay(POV)`; the two bytes are the digit code of the position followed by its
cache byte, and the other way round when the shift registers are swapped. There
are `N` calls of `delay`, the clock advances by `N * POV`, and the object is left
as it was. -/
theorem update_multiplexed (h : Header) (m : Machine) (N : Nat) (digit seg : Nat → Byte)
    (hmux : m.display._isMultiplexed = true) (hN : m.display._displaySize = (N : Int))
    (hdigit : ∀ j : Nat, j < N → load m.display._indexes (j : Int) = some (digit j))
    (hseg : ∀ j : Nat, j < N → load m.display._cache (j : Int) = some (seg j)) :
    update h m = some
      { display := m.display,
        millis := (m.millis + N * h.POV) % 2 ^ 32,
        trace := m.trace ++ (List.range N).flatMap fun j =>
          [Event.digitalWrite m.display._latchPin false] ++
          (if m.display._isSwapped then
            [Event.shiftOut m.display._dataPin m.display._clockPin false (seg j),
             Event.shiftOut m.display._dataPin m.display._clockPin false (digit j)]
           else
            [Event.shiftOut m.display._dataPin m.display._clockPin false (digit j),
             Event.shiftOut m.display._dataPin m.display._clockPin false (seg j)]) ++
          [Event.digitalWrite m.display._latchPin true, Event.delay h.POV] } ∧
    dwells ((List.range N).flatMap fun j => scanStep h m.display (digit j) (seg j)) = N := by
  have hloop := updateMultiplexedLoop_eq h m.display digit seg N 0 (by
    intro j hj
    rw [Nat.zero_add]
    exact ⟨hdigit j hj, hseg j hj⟩)
  simp only [Nat.zero_add, Nat.cast_zero] at hloop
  obtain ⟨hd, he⟩ := scan_dwells h m.display digit seg N
  refine ⟨?_, hd⟩
  simp only [update, updateEvents, hmux, if_true, updateMultiplexedDisplay, hN, Int.sub_zero,
    Int.toNat_ofNat, hloop, Option.map_some', run, he]
  rfl

/-- C13, on an example: a multiplexed common-anode display of two digits, written
with `"12"` and a dot on the first digit. -/
theorem update_multiplexed_witness :
    ∃ st st1, sampleDisplay DisplayType.COMMON_ANODE [2, 0] DisplayDrive.MULTIPLEXED_DRIVE =
        some st ∧
      setAt sampleHeader st 0 (SetAtArgs.charactersDots (codes "12") [true, false]) =
        some st1 ∧
      update sampleHeader { display := st1, millis := 0, trace := [] } = some
        { display := st1, millis := 2,
          trace := [Event.digitalWrite 6 false, Event.shiftOut 5 7 false 1,
            Event.shiftOut 5 7 false 158, Event.digitalWrite 6 true, Event.delay 1,
            Event.digitalWrite 6 false, Event.shiftOut 5 7 false 2,
            Event.shiftOut 5 7 false 37, Event.digitalWrite 6 true, Event.delay 1] } := by
  refine ⟨_, _, rfl, rfl, ?_⟩
  exact (update_multiplexed sampleHeader _ 2 (fun j => [1, 2].getD j 0)
    (fun j => [158, 37].getD j 0) (by rfl) (by rfl)
    (by
      intro j hj
      interval_cases j <;> rfl)
    (by
      intro j hj
      interval_cases j <;> rfl)).1

/-! ## One byte of the cache -/

theorem sampleDisplay_wellFormed (displayType : DisplayType) (sectionSizes : List Int)
    (hzero : (0 : Int) ∈ sectionSizes) (displayDrive : DisplayDrive) :
    ∃ st, sampleDisplay displayType sectionSizes displayDrive = some st ∧
      WellFormed sampleHeader st ∧ ByteCache st := by
  obtain ⟨st, ev, hc, hwf, hcache, _⟩ := construct_full sampleHeader 6 7 5 displayType
    sectionSizes hzero displayDrive false [0, 1, 2, 3, 4, 5, 6, 7] (by decide)
  refine ⟨st, ?_, hwf, construct_byteCache sampleHeader (by decide) _ st hcache⟩
  unfold sampleDisplay
  rw [hc]
  rfl


theorem load_some_range {α : Type} {a : List (Option α)} {i : Int} {v : α}
    (hl : load a i = some v) : 0 ≤ i ∧ i < a.length ∧ cell a i = some (some v) := by
  unfold load at hl
  by_cases h0 : 0 ≤ i
  · by_cases h1 : i < a.length
    · refine ⟨h0, h1, ?_⟩
      cases hc : cell a i with
      | none => rw [hc] at hl; cases hl
      | some c =>
        rw [hc] at hl
        cases c with
        | none => cases hl
        | some w =>
          have : w = v := by simpa using hl
          rw [this]
    · rw [cell_of_length_le a (by omega)] at hl
      cases hl
  · rw [cell_of_neg a (by omega)] at hl
    cases hl

theorem load_of_cell {α : Type} {a : List (Option α)} {i : Int} {v : α}
    (hc : cell a i = some (some v)) : load a i = some v := by
  unfold load
  rw [hc]
  rfl

theorem cell_map {α β : Type} (f : α → β) (l : List α) (k : Int) :
    cell (l.map f) k = (cell l k).map f := by
  unfold cell
  split <;> simp

set_option maxRecDepth 100000 in
theorem bitWrite0_bits : ∀ x : Nat, x < 256 →
    (x ||| 1) / 2 = x / 2 ∧ (x ||| 1) % 2 = 1 ∧ (x &&& 254) / 2 = x / 2 ∧
    (x &&& 254) % 2 = 0 ∧ (x ||| 1) < 256 ∧ (x &&& 254) < 256 := by
  decide

set_option maxRecDepth 100000 in
theorem bitWrite0_complement : ∀ x : Nat, x < 256 →
    (255 - x) &&& 254 = 255 - (x ||| 1) ∧ (255 - x) ||| 1 = 255 - (x &&& 254) := by
  decide

theorem bitWrite0_lt (x : Byte) (hx : x < 256) (bit : Bool) : bitWrite0 x bit < 256 := by
  have hb := bitWrite0_bits x hx
  unfold bitWrite0
  split
  · exact hb.2.2.2.2.1
  · exact hb.2.2.2.2.2

theorem polarity_bitWrite0 (isCathode : Bool) (x : Byte) (hx : x < 256) (dot : Bool) :
    bitWrite0 (polarity isCathode x) (if isCathode then dot else !dot) =
      polarity isCathode (bitWrite0 x dot) := by
  cases isCathode
  · have hc := bitWrite0_complement x hx
    have hl := bitWrite0_lt x hx dot
    rw [polarity_eq false x hx, polarity_eq false _ hl]
    cases dot
    · simp only [Bool.false_eq_true, if_false, Bool.not_false, bitWrite0, if_true]
      exact hc.2
    · simp only [Bool.false_eq_true, if_false, Bool.not_true, bitWrite0, if_true]
      exact hc.1
  · simp [polarity]

theorem modifyCacheDot_eq (st : State) (index : Int) (dot : Bool) (old : Byte)
    (hl : load st._cache index = some old) :
    modifyCacheDot st index dot = some { st with
      _cache := (st._cache.set index.toNat
        (some (bitWrite0 old (if st._isCathode then dot else !dot)))) } := by
  obtain ⟨h0, h1, _⟩ := load_some_range hl
  simp only [modifyCacheDot, hl, Option.some_bind, store_eq st._cache _ h0 h1, Option.map_some']

theorem cell_set {α : Type} (a : List (Option α)) (i : Int) (v : α) (h0 : 0 ≤ i)
    (h1 : i < a.length) (k : Int) :
    cell (a.set i.toNat (some v)) k = if k = i then some (some v) else cell a k :=
  cell_store (store_eq a v h0 h1) k

/-- C16: for a section below the section count of a well-formed object whose cache
holds bytes, and a relative index inside the section, `changeDotAt` returns, the
byte at `begin + relativeIndex` keeps its bits 1 to 7 and has bit 0 equal to `dot`
on a common-cathode display and to its negation on a common-anode display, and
every other cell of the cache and everything else in the object is as before;
`changeCharacterAt` returns and changes that one cell alone, to the
polarity-adjusted pattern. -/
theorem change_one_byte (h : Header) (st : State) (hwf : WellFormed h st)
    (hbytes : ByteCache st) (s b z r : Int) (hs0 : 0 ≤ s) (hs1 : s < st._sectionCount)
    (hb : load st._sectionBegins s = some b) (hz : load st._sectionSizes s = some z)
    (hr0 : 0 ≤ r) (hr1 : r < z) :
    (∀ dot : Bool, ∃ (st1 : State) (old new : Byte),
      changeDotAt st s r dot = some st1 ∧
      load st._cache (b + r) = some old ∧ load st1._cache (b + r) = some new ∧
      new / 2 = old / 2 ∧
      (st._isCathode = true → (new % 2 = 1 ↔ dot = true)) ∧
      (st._isCathode = false → (new % 2 = 1 ↔ dot = false)) ∧
      (∀ k : Int, k ≠ b + r → cell st1._cache k = cell st._cache k) ∧
      st1 = { st with _cache := st1._cache }) ∧
    (∀ custom : Byte, ∃ st2 : State,
      changeCharacterAt st s r custom = some st2 ∧
      load st2._cache (b + r) = some (polarity st._isCathode custom) ∧
      (∀ k : Int, k ≠ b + r → cell st2._cache k = cell st._cache k) ∧
      st2 = { st with _cache := st2._cache }) := by
  obtain ⟨hlen, hcache, _, _, _, hdisp, hsec⟩ := hwf
  obtain ⟨b1, z1, hb1, hz1, hb0, hz0, hbz⟩ := hsec s hs0 hs1
  rw [hb] at hb1
  rw [hz] at hz1
  cases hb1
  cases hz1
  have hv := isValidSection_true st s hs0 hs1
  have hin : r ≥ 0 ∧ r < z := ⟨hr0, hr1⟩
  obtain ⟨old, hold⟩ := hcache (b + r) (by omega) (by omega)
  obtain ⟨hi0, hi1, _⟩ := load_some_range hold
  constructor
  · intro dot
    have hold256 := hbytes _ _ hold
    have hbits := bitWrite0_bits old hold256
    refine ⟨{ st with _cache := (st._cache.set (b + r).toNat
        (some (bitWrite0 old (if st._isCathode then dot else !dot)))) }, old,
      bitWrite0 old (if st._isCathode then dot else !dot), ?_, hold, ?_, ?_, ?_, ?_, ?_, rfl⟩
    · simp only [changeDotAt, hv, if_true, hz, Option.some_bind, hin, and_self, hb,
        modifyCacheDot_eq st (b + r) dot old hold]
    · apply load_of_cell
      show cell (st._cache.set (b + r).toNat _) (b + r) = _
      rw [cell_set _ _ _ hi0 hi1, if_pos rfl]
    · generalize (if st._isCathode then dot else !dot) = bit
      cases bit
      · exact hbits.2.2.1
      · exact hbits.1
    · intro hc
      rw [hc]
      cases dot
      · simp only [if_true, bitWrite0, Bool.false_eq_true, if_false, hbits.2.2.2.1]
        simp
      · simp only [if_true, bitWrite0, hbits.2.1]
    · intro hc
      rw [hc]
      cases dot
      · simp only [Bool.false_eq_true, if_false, Bool.not_false, bitWrite0, if_true,
          hbits.2.1]
      · simp only [Bool.false_eq_true, if_false, Bool.not_true, bitWrite0, hbits.2.2.2.1]
        simp
    · intro k hk
      show cell (st._cache.set (b + r).toNat _) k = _
      rw [cell_set _ _ _ hi0 hi1, if_neg hk]
  · intro custom
    have hs := store_eq st._cache (polarity st._isCathode custom) hi0 hi1
    refine ⟨{ st with _cache := (st._cache.set (b + r).toNat
        (some (polarity st._isCathode custom))) }, ?_, ?_, ?_, rfl⟩
    · simp only [changeCharacterAt, hv, if_true, hz, Option.some_bind, hin, and_self, hb,
        modifyCache1, hs, Option.map_some']
    · apply load_of_cell
      show cell (st._cache.set (b + r).toNat _) (b + r) = _
      rw [cell_set _ _ _ hi0 hi1, if_pos rfl]
    · intro k hk
      show cell (st._cache.set (b + r).toNat _) k = _
      rw [cell_set _ _ _ hi0 hi1, if_neg hk]

/-- C16, on an example: `changeDotAt(0, 1, true)` and `changeCharacterAt(0, 1, 0x3E)`
on a common-cathode display with the single section 0 of four digits. -/
theorem change_one_byte_witness :
    ∃ st : State,
      sampleDisplay DisplayType.COMMON_CATHODE [4, 0] DisplayDrive.MULTIPLEXED_DRIVE =
        some st ∧
      (∃ (st1 : State) (old new : Byte),
        changeDotAt st 0 1 true = some st1 ∧
        load st._cache (0 + 1) = some old ∧ load st1._cache (0 + 1) = some new ∧
        new / 2 = old / 2 ∧
        (st._isCathode = true → (new % 2 = 1 ↔ true = true)) ∧
        (st._isCathode = false → (new % 2 = 1 ↔ true = false)) ∧
        (∀ k : Int, k ≠ 0 + 1 → cell st1._cache k = cell st._cache k) ∧
        st1 = { st with _cache := st1._cache }) ∧
      (∃ st2 : State,
        changeCharacterAt st 0 1 0x3E = some st2 ∧
        load st2._cache (0 + 1) = some (polarity st._isCathode 0x3E) ∧
        (∀ k : Int, k ≠ 0 + 1 → cell st2._cache k = cell st._cache k) ∧
        st2 = { st with _cache := st2._cache }) := by
  obtain ⟨st, hst, hwf, hbc⟩ := sampleDisplay_wellFormed DisplayType.COMMON_CATHODE [4, 0]
    (by decide) DisplayDrive.MULTIPLEXED_DRIVE
  have hev : ∃ x, sampleDisplay DisplayType.COMMON_CATHODE [4, 0]
      DisplayDrive.MULTIPLEXED_DRIVE = some x ∧ (0 : Int) < x._sectionCount ∧
      load x._sectionBegins 0 = some 0 ∧ load x._sectionSizes 0 = some 4 :=
    ⟨_, rfl, by decide, by rfl, by rfl⟩
  obtain ⟨x, hx, h1, h2, h3⟩ := hev
  rw [hst] at hx
  cases hx
  have hall := change_one_byte sampleHeader st hwf hbc 0 0 4 1 (by decide) h1 h2 h3
    (by decide) (by decide)
  exact ⟨st, hst, hall.1 true, hall.2 0x3E⟩

/-! ## show with a duration -/

theorem showLoop_top (h : Header) : ∀ (fuel : Nat) (m : Machine), m.millis < 2 ^ 32 →
    showLoop h (2 ^ 32 - 1) fuel m = none := by
  intro fuel
  induction fuel with
  | zero => intro m _; rfl
  | succ fuel ih =>
    intro m hm
    simp only [showLoop]
    rw [if_pos (by omega)]
    cases updateMultiplexedDisplay h m.display with
    | none => rfl
    | some events =>
      simp only [Option.some_bind]
      apply ih
      show (m.millis + elapsed events) % 2 ^ 32 < 2 ^ 32
      exact Nat.mod_lt _ (by norm_num)

/-- C14 as stated fails where the clock arithmetic wraps: on a multiplexed display of
four digits with a dwell of 1 ms per digit, one scan returns and waits four times;
`show(3)` called when the clock reads 0 computes `beforeLast = 0 + 3 - 4 = 4294967295`
in `unsigned long`, so the condition of its loop holds at every reading of the clock
and no number of evaluations of the condition ends the loop, where C14 has no scan
and one clear; and `show(10)` called when the clock reads `2^32 - 5` computes
`beforeLast = 1`, does not enter the loop and returns after the clear without any
wait, where C14 has two scans. -/
theorem show_duration_wraps :
    ∃ st, sampleDisplay DisplayType.COMMON_CATHODE [4, 0] DisplayDrive.MULTIPLEXED_DRIVE =
        some st ∧
      (∃ events, updateMultiplexedDisplay sampleHeader st = some events ∧ dwells events = 4) ∧
      (∀ fuel : Nat,
        showTime sampleHeader fuel { display := st, millis := 0, trace := [] } 3 = none) ∧
      (∃ m1, showTime sampleHeader 1 { display := st, millis := 2 ^ 32 - 5, trace := [] } 10 =
          some m1 ∧ dwells m1.trace = 0 ∧ m1.millis = 2 ^ 32 - 5) := by
  refine ⟨_, rfl, ⟨_, rfl, by rfl⟩, ?_, ⟨_, by rfl, by rfl, by rfl⟩⟩
  intro fuel
  have hb : toULong (((0 : Nat) : Int) + ((3 : Nat) : Int) - ((sampleHeader.POV : Int) * 4)) =
      2 ^ 32 - 1 := by decide
  simp only [showTime]
  rw [if_pos (by rfl)]
  show Option.map _ (showLoop sampleHeader (toULong (((0 : Nat) : Int) + ((3 : Nat) : Int) -
    ((sampleHeader.POV : Int) * 4))) fuel _) = none
  rw [hb, showLoop_top sampleHeader fuel _ (by decide)]
  rfl

/-! ## scroll -/

/-- C15 as stated fails: `scroll(const char value[], int speed)` and
`scroll(String &value, int speed)` have the call `scroll(value, speed)` of the same
overload as their whole body, so for every text, every speed and every display no
depth of calls makes them return, and no window is set or shown:
`scroll("HELLO", speed)` on a 3-digit display shows none of `"HEL"`, `"ELL"`,
`"LLO"`. -/
theorem scroll_never_returns (h : Header) (fuel : Nat) (m : Machine) (value : List CChar)
    (speed : Int) :
    scrollChars h fuel m value speed = none ∧ scrollString h fuel m value speed = none := by
  induction fuel with
  | zero => exact ⟨rfl, rfl⟩
  | succ fuel ih =>
    simp only [scrollChars, scrollString]
    exact ih

/-! ## Writing a whole section -/

theorem splice_length (cache : List (Option Byte)) (b : Nat) (w : List Byte)
    (hfit : b + w.length ≤ cache.length) : (splice cache b w).length = cache.length := by
  simp [splice, ofList]
  omega

theorem cell_splice (cache : List (Option Byte)) (b : Nat) (w : List Byte)
    (hfit : b + w.length ≤ cache.length) (k : Int) :
    cell (splice cache b w) k =
      if (b : Int) ≤ k ∧ k < (b : Int) + w.length then (cell w (k - b)).map some
      else cell cache k := by
  by_cases hk : 0 ≤ k
  · obtain ⟨n, rfl⟩ := Int.eq_ofNat_of_zero_le hk
    rw [cell_natCast, cell_natCast]
    unfold splice
    by_cases h1 : n < b
    · rw [if_neg (by omega), List.append_assoc, List.getElem?_append_left (by simp; omega)]
      simp [List.getElem?_take, h1]
    · by_cases h2 : n < b + w.length
      · rw [if_pos (by omega), List.getElem?_append_left (by simp [ofList]; omega),
          List.getElem?_append_right (by simp; omega)]
        have h3 : ((n : Int) - (b : Int)) = ((n - b : Nat) : Int) := by omega
        rw [h3, cell_natCast]
        have h4 : (List.take b cache).length = b := by simp; omega
        rw [h4]
        simp [ofList]
      · rw [if_neg (by omega), List.getElem?_append_right (by simp [ofList]; omega)]
        have h4 : (List.take b cache ++ ofList w).length = b + w.length := by
          simp [ofList]; omega
        rw [h4, List.getElem?_drop]
        congr 1
        omega
  · rw [cell_of_neg _ (by omega), if_neg (by omega), cell_of_neg _ (by omega)]

theorem modifyCache_splice (st : State) (b z : Nat) (codes : List Byte)
    (hz : z ≤ codes.length) (hfit : b + z ≤ st._cache.length) :
    modifyCache st (b : Int) (z : Int) (ofList codes) =
      some { st with
        _cache := (splice st._cache b ((codes.take z).map (polarity st._isCathode))) } := by
  obtain ⟨c1, e, l, c⟩ := modifyCacheLoop_spec st._isCathode b codes z 0 st._cache
    (by omega) (by omega) (by omega) (by omega)
  have hlen : ((codes.take z).map (polarity st._isCathode)).length = z := by
    simp
    omega
  have hc1 : c1 = splice st._cache b ((codes.take z).map (polarity st._isCathode)) := by
    apply cell_ext
    intro k hk
    rw [c k, cell_splice _ _ _ (by omega), hlen]
    by_cases hr : (b : Int) ≤ k ∧ k < (b : Int) + z
    · rw [if_pos (by omega), if_pos hr]
      obtain ⟨j, hj⟩ := Int.eq_ofNat_of_zero_le (show 0 ≤ k - (b : Int) by omega)
      have hjz : j < z := by omega
      rw [hj, cell_natCast, cell_natCast]
      simp [List.getElem?_take, hjz]
      rfl
    · rw [if_neg (by omega), if_neg hr]
  simp only [modifyCache, Int.sub_zero, Int.toNat_ofNat, e, Option.map_some', hc1]

theorem encodeCharacters_take (h : Header) (inp : List CChar) (z : Nat) (hz : z ≤ inp.length)
    (out0 : List (Option Byte)) (hlen : out0.length = z) :
    encodeCharacters h (z : Int) (ofList inp) out0 (-1) =
      some (ofList ((inp.take z).map (encodeChar h))) := by
  obtain ⟨out, e, l, c⟩ := encodeLoop_spec h inp z 0 out0 (by omega) (by omega) (by omega)
  have hout : out = ofList ((inp.take z).map (encodeChar h)) := by
    apply eq_ofList (by simp; omega)
    intro n hn
    have hnz : n < z := by
      simp at hn
      omega
    have hlt : n < inp.length := by omega
    rw [c n, if_pos (by omega), cell_natCast]
    simp [List.getElem?_take, hnz, List.getElem?_eq_getElem hlt]
  simp [encodeCharacters, e, hout]

theorem encodeChar_lt (h : Header) (hh : ByteHeader h) (c : CChar) : encodeChar h c < 256 := by
  obtain ⟨hn, hl, hm, he, _⟩ := hh
  unfold encodeChar
  split
  · exact hn _
  · split
    · exact hl _
    · split
      · exact hl _
      · split
        · exact hm
        · exact he

theorem dotLoop_spec (beginIndex : Int) (dots : List Bool) (n : Nat) :
    ∀ (i : Int) (st : State), 0 ≤ i → i + n ≤ dots.length → 0 ≤ beginIndex →
      (∀ k : Int, i + beginIndex ≤ k → k < i + beginIndex + n →
        ∃ v, load st._cache k = some v) →
    ∃ cache1, dotLoop beginIndex dots n i st = some { st with _cache := cache1 } ∧
      cache1.length = st._cache.length ∧
      (∀ k : Int, ¬ (i + beginIndex ≤ k ∧ k < i + beginIndex + n) →
        cell cache1 k = cell st._cache k) ∧
      (∀ (k : Int) (old : Byte) (d : Bool), i + beginIndex ≤ k → k < i + beginIndex + n →
        load st._cache k = some old → cell dots (k - beginIndex) = some d →
        cell cache1 k = some (some (bitWrite0 old (if st._isCathode then d else !d)))) := by
  induction n with
  | zero =>
    intro i st _ _ _ _
    refine ⟨st._cache, rfl, rfl, fun k _ => rfl, ?_⟩
    intro k old d h1 h2
    omega
  | succ n ih =>
    intro i st h0 hd hb hst
    obtain ⟨d0, hd0⟩ := cell_of_lt dots (k := i) h0 (by omega)
    obtain ⟨old0, hold0⟩ := hst (i + beginIndex) (by omega) (by omega)
    obtain ⟨hi0, hi1, _⟩ := load_some_range hold0
    have hm := modifyCacheDot_eq st (i + beginIndex) d0 old0 hold0
    have hset := cell_set st._cache (i + beginIndex)
      (bitWrite0 old0 (if st._isCathode then d0 else !d0)) hi0 hi1
    obtain ⟨c1, e1, l1, f1, w1⟩ := ih (i + 1)
      { st with _cache := (st._cache.set (i + beginIndex).toNat
          (some (bitWrite0 old0 (if st._isCathode then d0 else !d0)))) }
      (by omega) (by omega) hb (by
        intro k hk1 hk2
        obtain ⟨v, hv⟩ := hst k (by omega) (by omega)
        refine ⟨v, ?_⟩
        apply load_of_cell
        show cell (st._cache.set _ _) k = _
        rw [hset k, if_neg (by omega)]
        exact (load_some_range hv).2.2)
    refine ⟨c1, ?_, ?_, ?_, ?_⟩
    · simp only [dotLoop, hd0, Option.some_bind, hm]
      exact e1
    · rw [l1]
      show (st._cache.set _ _).length = _
      simp
    · intro k hk
      rw [f1 k (by omega)]
      show cell (st._cache.set _ _) k = _
      rw [hset k, if_neg (by omega)]
    · intro k old d hk1 hk2 hold hdk
      by_cases hki : k = i + beginIndex
      · subst hki
        rw [f1 _ (by omega)]
        show cell (st._cache.set _ _) _ = _
        rw [hset _, if_pos rfl]
        have hsub : i + beginIndex - beginIndex = i := by omega
        rw [hsub, hd0] at hdk
        rw [hold0] at hold
        cases hdk
        cases hold
        rfl
      · apply w1 k old d (by omega) (by omega) _ hdk
        apply load_of_cell
        show cell (st._cache.set _ _) k = _
        rw [hset k, if_neg hki]
        exact (load_some_range hold).2.2

theorem setAt_charactersDots_eq (h : Header) (st : State) (s : Int) (b z : Nat)
    (hs0 : 0 ≤ s) (hs1 : s < st._sectionCount)
    (hb : load st._sectionBegins s = some (b : Int))
    (hz : load st._sectionSizes s = some (z : Int))
    (hfit : b + z ≤ st._cache.length) (characters : List CChar) (dots : List Bool)
    (hc : z ≤ characters.length) (hd : z ≤ dots.length) :
    ∃ cache1, setAt h st s (SetAtArgs.charactersDots characters dots) =
        some { st with _cache := cache1 } ∧
      cache1.length = st._cache.length ∧
      (∀ k : Int, ¬ ((b : Int) ≤ k ∧ k < (b : Int) + z) → cell cache1 k = cell st._cache k) ∧
      (∀ (i : Nat) (c : CChar) (d : Bool), i < z → characters[i]? = some c →
        dots[i]? = some d →
        cell cache1 ((b : Int) + i) = some (some (bitWrite0
          (polarity st._isCathode (encodeChar h c)) (if st._isCathode then d else !d)))) := by
  have hv := isValidSection_true st s hs0 hs1
  have henc := encodeCharacters_take h characters z hc (List.replicate z none)
    (List.length_replicate _ _)
  have hmod := modifyCache_splice st b z ((characters.take z).map (encodeChar h))
    (by simp; omega) hfit
  have hwl : ((((characters.take z).map (encodeChar h)).take z).map
      (polarity st._isCathode)).length = z := by
    simp
    omega
  have hcs := cell_splice st._cache b ((((characters.take z).map (encodeChar h)).take z).map
    (polarity st._isCathode)) (by omega)
  rw [hwl] at hcs
  have hwcell : ∀ (i : Nat), i < z →
      cell ((((characters.take z).map (encodeChar h)).take z).map (polarity st._isCathode))
        (i : Int) = (characters[i]?).map fun c => polarity st._isCathode (encodeChar h c) := by
    intro i hi
    rw [cell_natCast]
    simp [List.getElem?_take, hi]
    rfl
  obtain ⟨c1, e1, l1, f1, w1⟩ := dotLoop_spec (b : Int) dots z 0
    { st with _cache := (splice st._cache b ((((characters.take z).map (encodeChar h)).take
        z).map (polarity st._isCathode))) }
    (by omega) (by omega) (by omega) (by
      intro k hk1 hk2
      obtain ⟨j, hj⟩ := Int.eq_ofNat_of_zero_le (show 0 ≤ k - (b : Int) by omega)
      have hjz : j < z := by omega
      obtain ⟨c, hcj⟩ : ∃ c, characters[j]? = some c :=
        ⟨characters[j], List.getElem?_eq_getElem (by omega)⟩
      refine ⟨polarity st._isCathode (encodeChar h c), ?_⟩
      apply load_of_cell
      show cell (splice _ _ _) k = _
      rw [hcs k, if_pos (by omega), hj, hwcell j hjz, hcj]
      rfl)
  refine ⟨c1, ?_, ?_, ?_, ?_⟩
  · simp only [setAt, hv, if_true, hz, Option.some_bind, newArray_eq, henc, hb, hmod,
      Int.sub_zero, Int.toNat_ofNat]
    exact e1
  · rw [l1]
    exact splice_length _ _ _ (by omega)
  · intro k hk
    rw [f1 k (by omega)]
    show cell (splice _ _ _) k = _
    rw [hcs k, if_neg hk]
  · intro i c d hi hci hdi
    apply w1 ((b : Int) + i) _ d (by omega) (by omega)
    · apply load_of_cell
      show cell (splice _ _ _) _ = _
      have hsub : (b : Int) + (i : Int) - (b : Int) = (i : Int) := by omega
      rw [hcs _, if_pos (by omega), hsub, hwcell i hi, hci]
      rfl
    · have hsub : (b : Int) + (i : Int) - (b : Int) = (i : Int) := by omega
      rw [hsub, cell_natCast, hdi]

/-- C17: for a section below the section count of a well-formed object, a header
whose patterns are bytes, and arrays of characters and of dots of the section's
size, `setAt(section, characters, dots)` returns, and the cache byte at
`begin + i` is the encoding of `characters[i]` with bit 0 set to `dots[i]`, complemented
as a whole on a common-anode display; this is the byte the code computes, the
polarity-adjusted encoding with bit 0 then set to `dots[i]` on common cathode and to its
negation on common anode. -/
theorem setAt_dots_polarity (h : Header) (hh : ByteHeader h) (st : State)
    (hwf : WellFormed h st) (s b z : Int) (hs0 : 0 ≤ s) (hs1 : s < st._sectionCount)
    (hb : load st._sectionBegins s = some b) (hz : load st._sectionSizes s = some z)
    (characters : List CChar) (dots : List Bool)
    (hc : (characters.length : Int) = z) (hd : (dots.length : Int) = z) :
    ∃ st1, setAt h st s (SetAtArgs.charactersDots characters dots) = some st1 ∧
      ∀ (i : Nat) (c : CChar) (d : Bool), characters[i]? = some c → dots[i]? = some d →
        load st1._cache (b + i) =
          some (polarity st._isCathode (bitWrite0 (encodeChar h c) d)) ∧
        load st1._cache (b + i) =
          some (bitWrite0 (polarity st._isCathode (encodeChar h c))
            (if st._isCathode then d else !d)) := by
  obtain ⟨hlen, _, _, _, _, hdisp, hsec⟩ := hwf
  obtain ⟨b1, z1, hb1, hz1, hb0, hz0, hbz⟩ := hsec s hs0 hs1
  rw [hb] at hb1
  rw [hz] at hz1
  cases hb1
  cases hz1
  obtain ⟨bn, rfl⟩ := Int.eq_ofNat_of_zero_le hb0
  obtain ⟨zn, rfl⟩ := Int.eq_ofNat_of_zero_le (le_of_lt hz0)
  obtain ⟨c1, e1, _, _, w1⟩ := setAt_charactersDots_eq h st s bn zn hs0 hs1 hb hz
    (by omega) characters dots (by omega) (by omega)
  refine ⟨_, e1, ?_⟩
  intro i c d hci hdi
  have hi : i < zn := by
    rcases List.getElem?_eq_some.mp hci with ⟨hlt, _⟩
    omega
  have hcell := w1 i c d hi hci hdi
  have hload := load_of_cell hcell
  refine ⟨?_, hload⟩
  rw [← polarity_bitWrite0 st._isCathode (encodeChar h c) (encodeChar_lt h hh c) d]
  exact hload

theorem sampleHeader_bytes : ByteHeader sampleHeader := by
  refine ⟨?_, ?_, by decide, by decide, ?_⟩
  · intro i
    show [0xFC, 0x60, 0xDA, 0xF2, 0x66, 0xB6, 0xBE, 0xE0, 0xFE, 0xF6].getD i 0 < 256
    rcases Nat.lt_or_ge i 10 with hi | hi
    · interval_cases i <;> decide
    · rw [List.getD_eq_default _ _ (by simpa using hi)]
      decide
  · intro i
    show [0xEE, 0x3E, 0x1A, 0x7A, 0xDE, 0x8E, 0xF6, 0x2E, 0x60, 0x70, 0xAE, 0x1C,
      0xA8, 0x2A, 0x3A, 0xCE, 0xE6, 0x0A, 0xB6, 0x1E, 0x38, 0x7C, 0x54, 0x6E, 0x76,
      0xDA].getD i 0 < 256
    rcases Nat.lt_or_ge i 26 with hi | hi
    · interval_cases i <;> decide
    · rw [List.getD_eq_default _ _ (by simpa using hi)]
      decide
  · intro i
    show [0x01, 0x02, 0x04, 0x08, 0x10, 0x20, 0x40, 0x80].getD i 0 < 256
    rcases Nat.lt_or_ge i 8 with hi | hi
    · interval_cases i <;> decide
    · rw [List.getD_eq_default _ _ (by simpa using hi)]
      decide

/-- C17, on an example: `setAt(1, "A-3", {false, true, true})` on a common-anode
display with the sections of two and of three digits: the bytes of section 1 are the
complements of `A`, of `-` with the dot and of `3` with the dot. -/
theorem setAt_dots_polarity_witness :
    ∃ st st1 : State,
      sampleDisplay DisplayType.COMMON_ANODE [2, 3, 0] DisplayDrive.MULTIPLEXED_DRIVE =
        some st ∧
      setAt sampleHeader st 1 (SetAtArgs.charactersDots (codes "A-3") [false, true, true]) =
        some st1 ∧
      load st1._cache (2 + (0 : Nat)) = some (255 - 0xEE) ∧
      load st1._cache (2 + (1 : Nat)) = some (255 - 0x03) ∧
      load st1._cache (2 + (2 : Nat)) = some (255 - 0xF3) := by
  obtain ⟨st, hst, hwf, _⟩ := sampleDisplay_wellFormed DisplayType.COMMON_ANODE [2, 3, 0]
    (by decide) DisplayDrive.MULTIPLEXED_DRIVE
  have hev : ∃ x, sampleDisplay DisplayType.COMMON_ANODE [2, 3, 0]
      DisplayDrive.MULTIPLEXED_DRIVE = some x ∧ (1 : Int) < x._sectionCount ∧
      load x._sectionBegins 1 = some 2 ∧ load x._sectionSizes 1 = some 3 ∧
      x._isCathode = false :=
    ⟨_, rfl, by decide, by rfl, by rfl, by rfl⟩
  obtain ⟨x, hx, h1, h2, h3, h4⟩ := hev
  rw [hst] at hx
  cases hx
  obtain ⟨st1, e1, hp⟩ := setAt_dots_polarity sampleHeader sampleHeader_bytes st hwf 1 2 3
    (by decide) h1 h2 h3 (codes "A-3") [false, true, true] (by decide) (by decide)
  refine ⟨st, st1, hst, e1, ?_, ?_, ?_⟩
  · have := (hp 0 (chr 'A') false (by decide) (by decide)).1
    rw [h4] at this
    exact this
  · have := (hp 1 (chr '-') true (by decide) (by decide)).1
    rw [h4] at this
    exact this
  · have := (hp 2 (chr '3') true (by decide) (by decide)).1
    rw [h4] at this
    exact this

/-! ## The bytes a call of setAt writes -/

theorem dotIndexOf_range (r w dp : Int) :
    dotIndexOf r w dp = -1 ∨ (0 ≤ dotIndexOf r w dp ∧ dotIndexOf r w dp < w) := by
  unfold dotIndexOf
  split
  · left
    rfl
  · split
    · left
      rfl
    · right
      omega

theorem setInteger_writes (h : Header) (n : Int) (hn : n ≠ LONG_MIN) (lz : Bool)
    (a : Alignment) (s b : Int) (z : Nat) :
    ∃ codes : List Byte, z ≤ codes.length ∧ ∀ st : State,
      load st._sectionSizes s = some (z : Int) → load st._sectionBegins s = some b →
      setInteger h st n lz a s = modifyCache st b z (ofList codes) := by
  obtain ⟨chars, e, l, _⟩ := formatCharacters_eq (decimalRepr n) z (List.replicate z none)
    (List.length_replicate _ _) a lz (-1)
  refine ⟨chars.map (encodeChar h), by simp [l], ?_⟩
  intro st hz hb
  have henc := encodeCharacters_plain h chars (List.replicate z none) (by simp [l])
  rw [l] at henc
  simp only [setInteger, hz, Option.some_bind, setIntegerEncoded, setIntegerFormatted_eq n hn,
    e, Option.map_some', newArray_eq, henc, hb]

theorem LONG_MAX_eq : LONG_MAX = 2147483647 := by decide

theorem LONG_MIN_eq : LONG_MIN = -2147483648 := by decide

theorem roundLong_of_abs_lt (p : ℚ) (hp : |p| < (LONG_MAX : ℚ) + 1 / 2) :
    ∃ v, roundLong p = some v ∧ v ≠ LONG_MIN := by
  have hmax : (LONG_MAX : ℚ) = 2147483647 := by
    rw [LONG_MAX_eq]
    norm_num
  rw [hmax] at hp
  obtain ⟨hlo, hhi⟩ := abs_lt.mp hp
  unfold roundLong
  by_cases h0 : 0 ≤ p
  · have h1 : 0 ≤ ⌊p + 1 / 2⌋ := Int.floor_nonneg.mpr (by linarith)
    have h2 : ⌊p + 1 / 2⌋ < 2147483648 := Int.floor_lt.mpr (by push_cast; linarith)
    simp only [h0, if_true]
    rw [if_pos (by rw [LONG_MIN_eq, LONG_MAX_eq]; omega)]
    exact ⟨_, rfl, by rw [LONG_MIN_eq]; omega⟩
  · have h1 : 0 ≤ ⌊-p + 1 / 2⌋ := Int.floor_nonneg.mpr (by linarith)
    have h2 : ⌊-p + 1 / 2⌋ < 2147483648 := Int.floor_lt.mpr (by push_cast; linarith)
    simp only [h0, if_false]
    rw [if_pos (by rw [LONG_MIN_eq, LONG_MAX_eq]; omega)]
    exact ⟨_, rfl, by rw [LONG_MIN_eq]; omega⟩

theorem castLong_of_abs_lt (x : ℚ) (hx : |x| < (LONG_MAX : ℚ) + 1) :
    castLong x = some (if 0 ≤ x then ⌊x⌋ else -⌊-x⌋) ∧
      (if 0 ≤ x then ⌊x⌋ else -⌊-x⌋) ≠ LONG_MIN := by
  have hmax : (LONG_MAX : ℚ) = 2147483647 := by
    rw [LONG_MAX_eq]
    norm_num
  rw [hmax] at hx
  obtain ⟨hlo, hhi⟩ := abs_lt.mp hx
  unfold castLong
  by_cases h0 : 0 ≤ x
  · have h1 : 0 ≤ ⌊x⌋ := Int.floor_nonneg.mpr h0
    have h2 : ⌊x⌋ < 2147483648 := Int.floor_lt.mpr (by push_cast; linarith)
    simp only [h0, if_true]
    rw [if_pos (by rw [LONG_MIN_eq, LONG_MAX_eq]; omega)]
    exact ⟨rfl, by rw [LONG_MIN_eq]; omega⟩
  · have h1 : 0 ≤ ⌊-x⌋ := Int.floor_nonneg.mpr (by linarith)
    have h2 : ⌊-x⌋ < 2147483648 := Int.floor_lt.mpr (by push_cast; linarith)
    simp only [h0, if_false]
    rw [if_pos (by rw [LONG_MIN_eq, LONG_MAX_eq]; omega)]
    exact ⟨rfl, by rw [LONG_MIN_eq]; omega⟩

theorem countCharactersDouble_eq (x : ℚ) (hx : |x| < (LONG_MAX : ℚ) + 1) :
    countCharactersDouble x = some (realCount x) := by
  obtain ⟨hcast, hne⟩ := castLong_of_abs_lt x hx
  unfold countCharactersDouble realCount
  by_cases hc : x > -1 ∧ x < 0
  · rw [if_pos hc, if_pos hc]
  · rw [if_neg hc, if_neg hc, hcast, Option.some_bind, countCharacters_eq _ hne]

theorem realCount_pos (x : ℚ) : 1 ≤ realCount x := by
  unfold realCount
  split
  · decide
  · generalize (if 0 ≤ x then ⌊x⌋ else -⌊-x⌋) = n
    have hl := decimalRepr_length n
    have hp := decimalDigits_length_pos n.natAbs
    split at hl <;> omega

theorem setRealCharacters_some (h : Header) (x : ℚ) (dp : Int) (hacc : AcceptedReal h x dp) :
    (setRealCharacters h x dp).isSome = true := by
  obtain ⟨hx, hp, hsize, _⟩ := hacc
  obtain ⟨v, hv, hvn⟩ := roundLong_of_abs_lt _ hp
  have hcount := countCharactersDouble_eq x hx
  obtain ⟨n, hn⟩ : ∃ n : Nat, realCount x + dp = (n : Int) :=
    ⟨(realCount x + dp).toNat, by omega⟩
  obtain ⟨out, hget, _, _⟩ := getCharacters_spec v hvn n (List.replicate n none)
    (List.length_replicate _ _) (fun _ => by omega)
  simp only [setRealCharacters, hv, hcount, Option.some_bind, hn, newArray_eq, hget,
    Option.map_some', Option.isSome_some]

theorem setReal_writes (h : Header) (x : ℚ) (dp : Int) (lz : Bool) (a : Alignment)
    (s b : Int) (z : Nat) (hc : (setRealCharacters h x dp).isSome = true) :
    ∃ codes : List Byte, z ≤ codes.length ∧ ∀ st : State,
      load st._sectionSizes s = some (z : Int) → load st._sectionBegins s = some b →
      setReal h st x dp lz a s = modifyCache st b z (ofList codes) := by
  obtain ⟨⟨vs, buf⟩, hvb⟩ := Option.isSome_iff_exists.mp hc
  obtain ⟨value, count, inp, _, _, _, hbuf, hl, _⟩ :=
    setRealCharacters_defined h x dp vs buf hvb
  subst hl
  subst hbuf
  obtain ⟨chars, e, l, _⟩ := formatCharacters_eq inp z (List.replicate z none)
    (List.length_replicate _ _) a lz dp
  have hfmt : setRealFormatted h x dp lz a z =
      some (ofList chars, dotIndexOf (rightBorder inp.length z a) z dp) := by
    simp only [setRealFormatted, hvb, Option.some_bind, newArray_eq]
    exact e
  rcases dotIndexOf_range (rightBorder inp.length z a) z dp with hd | ⟨hd0, hd1⟩
  · refine ⟨chars.map (encodeChar h), by simp [l], ?_⟩
    intro st hz hb
    have henc := encodeCharacters_plain h chars (List.replicate z none) (by simp [l])
    rw [l] at henc
    simp only [setReal, hz, Option.some_bind, setRealEncoded, hfmt, newArray_eq, hd, henc, hb]
  · obtain ⟨dn, hdn⟩ := Int.eq_ofNat_of_zero_le hd0
    have henc := encodeCharacters_dot h chars (List.replicate z none) (by simp [l]) dn
      (by omega)
    rw [l] at henc
    refine ⟨(chars.map (encodeChar h)).set dn (bitWrite0 (encodeChar h (chars.getD dn 0)) true),
      by simp [l], ?_⟩
    intro st hz hb
    simp only [setReal, hz, Option.some_bind, setRealEncoded, hfmt, newArray_eq, hdn, henc, hb]

theorem setNumberLong_writes (h : Header) (n dp : Int) (hacc : AcceptedLong h n dp) (lz : Bool)
    (a : Alignment) (s b : Int) (z : Nat) :
    ∃ codes : List Byte, z ≤ codes.length ∧ ∀ st : State,
      load st._sectionSizes s = some (z : Int) → load st._sectionBegins s = some b →
      setNumberLong h st n dp lz a s = modifyCache st b z (ofList codes) := by
  unfold AcceptedLong at hacc
  by_cases hdp : dp = 0
  · rw [if_pos hdp] at hacc
    obtain ⟨codes, hl, hw⟩ := setInteger_writes h n hacc lz a s b z
    refine ⟨codes, hl, ?_⟩
    intro st hz hb
    simp only [setNumberLong, hdp, if_true]
    exact hw st hz hb
  · rw [if_neg hdp] at hacc
    obtain ⟨codes, hl, hw⟩ := setReal_writes h (h.longToDouble n) dp lz a s b z
      (setRealCharacters_some h _ dp hacc)
    refine ⟨codes, hl, ?_⟩
    intro st hz hb
    simp only [setNumberLong, hdp, if_false]
    exact hw st hz hb

theorem setNumberDouble_writes (h : Header) (x : ℚ) (dp : Int) (hacc : AcceptedDouble h x dp)
    (lz : Bool) (a : Alignment) (s b : Int) (z : Nat) :
    ∃ codes : List Byte, z ≤ codes.length ∧ ∀ st : State,
      load st._sectionSizes s = some (z : Int) → load st._sectionBegins s = some b →
      setNumberDouble h st x dp lz a s = modifyCache st b z (ofList codes) := by
  unfold AcceptedDouble at hacc
  by_cases hdp : dp = 0
  · rw [if_pos hdp] at hacc
    obtain ⟨r, hr, hrn⟩ := roundLong_of_abs_lt x hacc
    obtain ⟨codes, hl, hw⟩ := setInteger_writes h r hrn lz a s b z
    refine ⟨codes, hl, ?_⟩
    intro st hz hb
    simp only [setNumberDouble, hdp, if_true, hr, Option.some_bind]
    exact hw st hz hb
  · rw [if_neg hdp] at hacc
    obtain ⟨codes, hl, hw⟩ := setReal_writes h x dp lz a s b z
      (setRealCharacters_some h x dp hacc)
    refine ⟨codes, hl, ?_⟩
    intro st hz hb
    simp only [setNumberDouble, hdp, if_false]
    exact hw st hz hb

theorem setTextChars_writes (h : Header) (value : List CChar) (a : Alignment) (s b : Int)
    (z : Nat) :
    ∃ codes : List Byte, z ≤ codes.length ∧ ∀ st : State,
      load st._sectionSizes s = some (z : Int) → load st._sectionBegins s = some b →
      setTextChars h st value a s = modifyCache st b z (ofList codes) := by
  obtain ⟨chars, e, l, _⟩ := formatCharacters_eq value z (List.replicate z none)
    (List.length_replicate _ _) a false (-1)
  refine ⟨chars.map (encodeChar h), by simp [l], ?_⟩
  intro st hz hb
  have henc := encodeCharacters_plain h chars (List.replicate z none) (by simp [l])
  rw [l] at henc
  simp only [setTextChars, hz, Option.some_bind, newArray_eq, e, henc, hb]

theorem setTextChar_writes (h : Header) (value : CChar) (a : Alignment) (s b : Int)
    (z : Nat) :
    ∃ codes : List Byte, z ≤ codes.length ∧ ∀ st : State,
      load st._sectionSizes s = some (z : Int) → load st._sectionBegins s = some b →
      setTextChar h st value a s = modifyCache st b z (ofList codes) := by
  obtain ⟨chars, e, l, _⟩ := formatCharacters_eq [value] z (List.replicate z none)
    (List.length_replicate _ _) a false (-1)
  refine ⟨chars.map (encodeChar h), by simp [l], ?_⟩
  intro st hz hb
  have henc := encodeCharacters_plain h chars (List.replicate z none) (by simp [l])
  rw [l] at henc
  have e1 : formatCharacters 1 (ofList [value]) (z : Int) (List.replicate z none) a false
      (-1) = some (ofList chars, dotIndexOf (rightBorder 1 z a) z (-1)) := e
  simp only [setTextChar, hz, Option.some_bind, newArray_eq, e1, henc, hb]

theorem writes_section (st : State) (s : Int) (b z : Nat)
    (hb : load st._sectionBegins s = some (b : Int))
    (hz : load st._sectionSizes s = some (z : Int)) (hfit : b + z ≤ st._cache.length)
    (F : State → Option State)
    (hF : ∃ codes : List Byte, z ≤ codes.length ∧ ∀ st1 : State,
      load st1._sectionSizes s = some (z : Int) → load st1._sectionBegins s = some (b : Int) →
      F st1 = modifyCache st1 b z (ofList codes)) :
    ∃ written : List Byte, written.length = z ∧
      ∀ cache : List (Option Byte), cache.length = st._cache.length →
        F { st with _cache := cache } = some { st with _cache := splice cache b written } := by
  obtain ⟨codes, hl, hw⟩ := hF
  refine ⟨(codes.take z).map (polarity st._isCathode), by simp; omega, ?_⟩
  intro cache hcl
  rw [hw { st with _cache := cache } hz hb]
  exact modifyCache_splice { st with _cache := cache } b z codes hl (by
    show b + z ≤ cache.length
    omega)

theorem setAt_splice (h : Header) (st : State) (s : Int) (b z : Nat)
    (hs0 : 0 ≤ s) (hs1 : s < st._sectionCount)
    (hb : load st._sectionBegins s = some (b : Int))
    (hz : load st._sectionSizes s = some (z : Int)) (hfit : b + z ≤ st._cache.length)
    (args : SetAtArgs) (hacc : Accepted h z args) :
    ∃ written : List Byte, written.length = z ∧
      ∀ cache : List (Option Byte), cache.length = st._cache.length →
        setAt h { st with _cache := cache } s args =
          some { st with _cache := splice cache b written } := by
  have hv : ∀ cache : List (Option Byte),
      isValidSection { st with _cache := cache } s = true :=
    fun cache => isValidSection_true { st with _cache := cache } s hs0 hs1
  have key : ∀ F : State → Option State,
      (∀ cache : List (Option Byte),
        setAt h { st with _cache := cache } s args = F { st with _cache := cache }) →
      (∃ codes : List Byte, z ≤ codes.length ∧ ∀ st1 : State,
        load st1._sectionSizes s = some (z : Int) →
        load st1._sectionBegins s = some (b : Int) →
        F st1 = modifyCache st1 b z (ofList codes)) →
      ∃ written : List Byte, written.length = z ∧
        ∀ cache : List (Option Byte), cache.length = st._cache.length →
          setAt h { st with _cache := cache } s args =
            some { st with _cache := splice cache b written } := by
    intro F hF hcodes
    obtain ⟨written, hl, hw⟩ := writes_section st s b z hb hz hfit F hcodes
    refine ⟨written, hl, ?_⟩
    intro cache hcl
    rw [hF cache]
    exact hw cache hcl
  cases args with
  | intDecimalsZeros n dp lz a =>
    exact key (fun st1 => setNumberLong h st1 n dp lz a s)
      (fun cache => by simp only [setAt, hv cache, if_true])
      (setNumberLong_writes h n dp hacc lz a s b z)
  | intZeros n lz a =>
    exact key (fun st1 => setNumberLong h st1 n h.DEFAULT_DECIMAL_PLACES_INTEGER lz a s)
      (fun cache => by simp only [setAt, hv cache, if_true])
      (setNumberLong_writes h n _ hacc lz a s b z)
  | intDecimals n dp a =>
    exact key (fun st1 => setNumberLong h st1 n dp h.DEFAULT_LEADING_ZEROS a s)
      (fun cache => by simp only [setAt, hv cache, if_true])
      (setNumberLong_writes h n dp hacc _ a s b z)
  | intOnly n a =>
    exact key (fun st1 => setNumberLong h st1 n h.DEFAULT_DECIMAL_PLACES_INTEGER
        h.DEFAULT_LEADING_ZEROS a s)
      (fun cache => by simp only [setAt, hv cache, if_true])
      (setNumberLong_writes h n _ hacc _ a s b z)
  | longDecimalsZeros n dp lz a =>
    exact key (fun st1 => setNumberLong h st1 n dp lz a s)
      (fun cache => by simp only [setAt, hv cache, if_true])
      (setNumberLong_writes h n dp hacc lz a s b z)
  | longZeros n lz a =>
    exact key (fun st1 => setNumberLong h st1 n h.DEFAULT_DECIMAL_PLACES_INTEGER lz a s)
      (fun cache => by simp only [setAt, hv cache, if_true])
      (setNumberLong_writes h n _ hacc lz a s b z)
  | longDecimals n dp a =>
    exact key (fun st1 => setNumberLong h st1 n dp h.DEFAULT_LEADING_ZEROS a s)
      (fun cache => by simp only [setAt, hv cache, if_true])
      (setNumberLong_writes h n dp hacc _ a s b z)
  | longOnly n a =>
    exact key (fun st1 => setNumberLong h st1 n h.DEFAULT_DECIMAL_PLACES_INTEGER
        h.DEFAULT_LEADING_ZEROS a s)
      (fun cache => by simp only [setAt, hv cache, if_true])
      (setNumberLong_writes h n _ hacc _ a s b z)
  | doubleDecimalsZeros x dp lz a =>
    exact key (fun st1 => setNumberDouble h st1 x dp lz a s)
      (fun cache => by simp only [setAt, hv cache, if_true])
      (setNumberDouble_writes h x dp hacc lz a s b z)
  | doubleZeros x lz a =>
    exact key (fun st1 => setNumberDouble h st1 x h.DEFAULT_DECIMAL_PLACES_REAL lz a s)
      (fun cache => by simp only [setAt, hv cache, if_true])
      (setNumberDouble_writes h x _ hacc lz a s b z)
  | doubleDecimals x dp a =>
    exact key (fun st1 => setNumberDouble h st1 x dp h.DEFAULT_LEADING_ZEROS a s)
      (fun cache => by simp only [setAt, hv cache, if_true])
      (setNumberDouble_writes h x dp hacc _ a s b z)
  | doubleOnly x a =>
    exact key (fun st1 => setNumberDouble h st1 x h.DEFAULT_DECIMAL_PLACES_REAL
        h.DEFAULT_LEADING_ZEROS a s)
      (fun cache => by simp only [setAt, hv cache, if_true])
      (setNumberDouble_writes h x _ hacc _ a s b z)
  | char value a =>
    exact key (fun st1 => setTextChar h st1 value a s)
      (fun cache => by simp only [setAt, hv cache, if_true])
      (setTextChar_writes h value a s b z)
  | chars value a =>
    exact key (fun st1 => setTextChars h st1 value a s)
      (fun cache => by simp only [setAt, hv cache, if_true])
      (setTextChars_writes h value a s b z)
  | string value a =>
    exact key (fun st1 => setTextChars h st1 value a s)
      (fun cache => by simp only [setAt, hv cache, if_true, setTextString])
      (setTextChars_writes h value a s b z)
  | customs customs =>
    have hlen : z ≤ customs.length := by
      have : (z : Int) ≤ customs.length := hacc
      omega
    exact key (fun st1 => (load st1._sectionSizes s).bind fun sectionSize =>
        (load st1._sectionBegins s).bind fun beginIndex =>
        modifyCache st1 beginIndex sectionSize (ofList customs))
      (fun cache => by simp only [setAt, hv cache, if_true])
      ⟨customs, hlen, fun st1 hz1 hb1 => by simp only [hz1, hb1, Option.some_bind]⟩
  | charactersDots characters dots =>
    obtain ⟨hc, hd⟩ : (z : Int) ≤ characters.length ∧ (z : Int) ≤ dots.length := hacc
    refine ⟨(List.range z).map fun i => bitWrite0
      (polarity st._isCathode (encodeChar h (characters.getD i 0)))
      (if st._isCathode then dots.getD i false else !(dots.getD i false)), by simp, ?_⟩
    intro cache hcl
    obtain ⟨c1, e1, l1, f1, w1⟩ := setAt_charactersDots_eq h { st with _cache := cache } s b z
      hs0 hs1 hb hz (by show b + z ≤ cache.length; omega) characters dots (by omega) (by omega)
    rw [e1]
    have hc1 : c1 = splice cache b ((List.range z).map fun i => bitWrite0
        (polarity st._isCathode (encodeChar h (characters.getD i 0)))
        (if st._isCathode then dots.getD i false else !(dots.getD i false))) := by
      apply cell_ext
      intro k hk
      rw [cell_splice _ _ _ (by simp; omega)]
      simp only [List.length_map, List.length_range]
      by_cases hr : (b : Int) ≤ k ∧ k < (b : Int) + z
      · rw [if_pos hr]
        obtain ⟨j, hj⟩ := Int.eq_ofNat_of_zero_le (show 0 ≤ k - (b : Int) by omega)
        have hjz : j < z := by omega
        have hk1 : k = (b : Int) + j := by omega
        have hcj : characters[j]? = some (characters.getD j 0) := by
          rw [List.getD_eq_getElem?_getD, List.getElem?_eq_getElem (by omega)]
          rfl
        have hdj : dots[j]? = some (dots.getD j false) := by
          rw [List.getD_eq_getElem?_getD, List.getElem?_eq_getElem (by omega)]
          rfl
        rw [hj, cell_natCast, hk1, w1 j _ _ hjz hcj hdj]
        simp [List.getElem?_range hjz]
      · rw [if_neg hr]
        exact f1 k hr
    rw [hc1]

/-- C18: for a section below the section count of a well-formed object, with begin
`b` and size `z`, whatever the floating-point arithmetic of the board, and for
every overload of `setAt` with arguments that keep it clear of undefined behaviour
(`Accepted`: an integer other than the least `long`; a real strictly between `-2^31`
and `2^31` whose scaled value is strictly between `-(2^31 - 1/2)` and `2^31 - 1/2`,
with a buffer whose size is positive and an `int`; every character and every text;
arrays of at least `z` elements), there are `z` bytes, the same whatever the cache held
before, such that the call returns, every cell of the cache in `[b, b + z)` holds the
byte of its position among them, every cell outside `[b, b + z)` is as before, the
cache keeps its length, and nothing else in the object changes. -/
theorem setAt_overwrites_section (h : Header) (st : State) (hwf : WellFormed h st)
    (s b z : Int) (hs0 : 0 ≤ s) (hs1 : s < st._sectionCount)
    (hb : load st._sectionBegins s = some b) (hz : load st._sectionSizes s = some z)
    (args : SetAtArgs) (hacc : Accepted h z args) :
    ∃ written : List Byte, (written.length : Int) = z ∧
      ∀ cache : List (Option Byte), cache.length = st._cache.length →
        ∃ st1 : State, setAt h { st with _cache := cache } s args = some st1 ∧
          st1 = { st with _cache := st1._cache } ∧
          st1._cache.length = cache.length ∧
          (∀ k : Int, b ≤ k → k < b + z → ∃ w : Byte, cell written (k - b) = some w ∧
            load st1._cache k = some w) ∧
          (∀ k : Int, ¬ (b ≤ k ∧ k < b + z) → cell st1._cache k = cell cache k) := by
  obtain ⟨hlen, _, _, _, _, hdisp, hsec⟩ := hwf
  obtain ⟨b1, z1, hb1, hz1, hb0, hz0, hbz⟩ := hsec s hs0 hs1
  rw [hb] at hb1
  rw [hz] at hz1
  cases hb1
  cases hz1
  obtain ⟨bn, rfl⟩ := Int.eq_ofNat_of_zero_le hb0
  obtain ⟨zn, rfl⟩ := Int.eq_ofNat_of_zero_le (le_of_lt hz0)
  obtain ⟨written, hwl, hw⟩ := setAt_splice h st s bn zn hs0 hs1 hb hz (by omega) args hacc
  refine ⟨written, by omega, ?_⟩
  intro cache hcl
  have hfit : bn + written.length ≤ cache.length := by omega
  refine ⟨_, hw cache hcl, rfl, splice_length cache bn written hfit, ?_, ?_⟩
  · intro k hk0 hk1
    obtain ⟨w, hcw⟩ := cell_of_lt written (k := k - (bn : Int)) (by omega) (by omega)
    refine ⟨w, hcw, ?_⟩
    apply load_of_cell
    show cell (splice cache bn written) k = _
    rw [cell_splice cache bn written hfit k, if_pos (by omega), hcw]
    rfl
  · intro k hk
    show cell (splice cache bn written) k = _
    rw [cell_splice cache bn written hfit k, if_neg (by omega)]

theorem setRealCharacters_quarter :
    setRealCharacters sampleHeader (49 / 4) 2 = some (4, ofList (codes "1225")) := by
  have hr : roundLong (sampleHeader.scaleDouble (49 / 4) 2) = some 1225 := by
    rw [sampleHeader_scaleDouble]
    norm_num [roundLong, LONG_MIN, LONG_MAX, LONG_BITS]
  have hfl : ⌊(49 / 4 : ℚ)⌋ = 12 := by
    rw [Int.floor_eq_iff]
    norm_num
  have hcast : castLong (49 / 4 : ℚ) = some 12 := by
    norm_num [castLong, LONG_MIN, LONG_MAX, LONG_BITS, hfl]
  have hcount : countCharacters 12 = some 2 := by
    rw [countCharacters_eq 12 (by decide)]
    simp [decimalRepr, decimalDigits]
  have hcd : countCharactersDouble (49 / 4 : ℚ) = some 2 := by
    unfold countCharactersDouble
    rw [if_neg (by norm_num), hcast]
    exact hcount
  have hnew : newArray (α := CChar) ((2 : Int) + 2) = some (List.replicate 4 none) := by
    decide
  have hget : getCharacters 1225 ((2 : Int) + 2) (List.replicate 4 none) =
      some (ofList (codes "1225")) := by
    decide
  simp only [setRealCharacters, hr, hcd, Option.some_bind, hnew, hget, Option.map_some']
  rfl

theorem accepted_quarter :
    Accepted sampleHeader 5 (SetAtArgs.doubleDecimals (49 / 4) 2 Alignment.ALIGN_RIGHT) := by
  show AcceptedDouble sampleHeader (49 / 4) 2
  unfold AcceptedDouble
  rw [if_neg (by decide)]
  have hfl : ⌊(49 / 4 : ℚ)⌋ = 12 := by
    rw [Int.floor_eq_iff]
    norm_num
  have hcount : realCount (49 / 4) = 2 := by
    unfold realCount
    rw [if_neg (by norm_num), if_pos (by norm_num), hfl]
    simp [decimalRepr, decimalDigits]
  refine ⟨?_, ?_, ?_, ?_⟩
  · rw [LONG_MAX_eq, abs_lt]
    constructor <;> norm_num
  · rw [sampleHeader_scaleDouble, LONG_MAX_eq, abs_lt]
    constructor <;> norm_num
  · rw [hcount]
    decide
  · rw [hcount]
    decide

/-- C18, on an example: `setAt(1, 12.25, 2)` on a display with the sections of two
and of five digits: the arguments are handled without undefined behaviour, the five
cells of section 1 get the patterns of `" 1225"` with the decimal point on the
first `2`, whatever the cache held, and the cells of section 0 and cell 7 keep
their content; 12.25 and 1225 are binary fractions, so that binary64 arithmetic
gives the same product as the exact arithmetic of `sampleHeader`. -/
theorem setAt_overwrites_section_witness :
    ∃ st : State,
      sampleDisplay DisplayType.COMMON_CATHODE [2, 5, 0] DisplayDrive.MULTIPLEXED_DRIVE =
        some st ∧
      Accepted sampleHeader 5 (SetAtArgs.doubleDecimals (49 / 4) 2 Alignment.ALIGN_RIGHT) ∧
      (∃ written : List Byte, (written.length : Int) = 5 ∧
        ∀ cache : List (Option Byte), cache.length = st._cache.length →
          ∃ st1 : State, setAt sampleHeader { st with _cache := cache } 1
              (SetAtArgs.doubleDecimals (49 / 4) 2 Alignment.ALIGN_RIGHT) = some st1 ∧
            st1 = { st with _cache := st1._cache } ∧
            st1._cache.length = cache.length ∧
            (∀ k : Int, 2 ≤ k → k < 2 + 5 → ∃ w : Byte, cell written (k - 2) = some w ∧
              load st1._cache k = some w) ∧
            (∀ k : Int, ¬ (2 ≤ k ∧ k < 2 + 5) → cell st1._cache k = cell cache k)) ∧
      setAt sampleHeader st 1 (SetAtArgs.doubleDecimals (49 / 4) 2 Alignment.ALIGN_RIGHT) =
        some { st with _cache := [some 0, some 0, some 0, some 0x60, some 0xDB, some 0xDA,
          some 0xB6, some 0] } := by
  obtain ⟨st, hst, hwf, _⟩ := sampleDisplay_wellFormed DisplayType.COMMON_CATHODE [2, 5, 0]
    (by decide) DisplayDrive.MULTIPLEXED_DRIVE
  have hev : ∃ x, sampleDisplay DisplayType.COMMON_CATHODE [2, 5, 0]
      DisplayDrive.MULTIPLEXED_DRIVE = some x ∧ (1 : Int) < x._sectionCount ∧
      load x._sectionBegins 1 = some 2 ∧ load x._sectionSizes 1 = some 5 ∧
      (setRealFormatted sampleHeader (49 / 4) 2 sampleHeader.DEFAULT_LEADING_ZEROS
          Alignment.ALIGN_RIGHT 5).bind (fun fd =>
        (newArray (α := Byte) 5).bind fun encodedCharacters0 =>
        (encodeCharacters sampleHeader 5 fd.1 encodedCharacters0 fd.2).bind fun e =>
        modifyCache x 2 5 e) =
        some { x with _cache := [some 0, some 0, some 0, some 0x60, some 0xDB, some 0xDA,
          some 0xB6, some 0] } :=
    ⟨_, rfl, by decide, by rfl, by rfl, by
      simp only [setRealFormatted, setRealCharacters_quarter, Option.some_bind]
      rfl⟩
  obtain ⟨x, hx, h1, h2, h3, h4⟩ := hev
  rw [hst] at hx
  cases hx
  have hv := isValidSection_true st 1 (by decide) h1
  refine ⟨st, hst, accepted_quarter, setAt_overwrites_section sampleHeader st hwf 1 2 5
    (by decide) h1 h2 h3 (SetAtArgs.doubleDecimals (49 / 4) 2 Alignment.ALIGN_RIGHT)
    accepted_quarter, ?_⟩
  rw [← h4]
  simp only [setAt, hv, if_true, setNumberDouble, setReal, setRealEncoded, h2, h3,
    Option.some_bind, Option.bind_assoc]
  rfl

/-! ## The cache under update, clear and show -/

theorem updateMultiplexedDisplay_returns (h : Header) (st : State) (hwf : WellFormed h st) :
    ∃ events, updateMultiplexedDisplay h st = some events ∧
      elapsed events = st._displaySize.toNat * h.POV := by
  obtain ⟨_, hcache, hidx, _, hd0, hdM, _⟩ := hwf
  have hloop := updateMultiplexedLoop_eq h st
    (fun j => (load st._indexes (j : Int)).getD 0) (fun j => (load st._cache (j : Int)).getD 0)
    st._displaySize.toNat 0 (by
      intro j hj
      rw [Nat.zero_add]
      obtain ⟨v, hv⟩ := hidx j (by omega) (by omega)
      obtain ⟨w, hw⟩ := hcache j (by omega) (by omega)
      show load st._indexes (j : Int) = some ((load st._indexes (j : Int)).getD 0) ∧
        load st._cache (j : Int) = some ((load st._cache (j : Int)).getD 0)
      rw [hv, hw]
      exact ⟨rfl, rfl⟩)
  simp only [Nat.zero_add, Nat.cast_zero] at hloop
  refine ⟨_, ?_, (scan_dwells h st (fun j => (load st._indexes (j : Int)).getD 0)
    (fun j => (load st._cache (j : Int)).getD 0) st._displaySize.toNat).2⟩
  simp only [updateMultiplexedDisplay, Int.sub_zero]
  exact hloop

theorem updateStaticDisplay_returns (h : Header) (st : State) (hwf : WellFormed h st) :
    ∃ events, updateStaticDisplay st = some events := by
  obtain ⟨_, hcache, _, _, hd0, hdM, _⟩ := hwf
  have hloop := updateStaticLoop_eq st (fun j => (load st._cache (j : Int)).getD 0)
    st._displaySize.toNat (by
      intro j hj
      obtain ⟨w, hw⟩ := hcache j (by omega) (by omega)
      show load st._cache (j : Int) = some ((load st._cache (j : Int)).getD 0)
      rw [hw]
      rfl)
  have hcast : ((st._displaySize.toNat : Nat) : Int) = st._displaySize := by omega
  rw [hcast] at hloop
  rw [updateStaticDisplay, hloop]
  exact ⟨_, rfl⟩

theorem showLoop_display (h : Header) (beforeLast : Nat) :
    ∀ (fuel : Nat) (m m1 : Machine), showLoop h beforeLast fuel m = some m1 →
      m1.display = m.display := by
  intro fuel
  induction fuel with
  | zero =>
    intro m m1 hm
    cases hm
  | succ fuel ih =>
    intro m m1 hm
    simp only [showLoop] at hm
    split at hm
    · cases hu : updateMultiplexedDisplay h m.display with
      | none =>
        rw [hu] at hm
        cases hm
      | some events =>
        rw [hu] at hm
        exact ih (run m events) m1 hm
    · cases hm
      rfl

theorem showLoop_returns (h : Header) (st : State) (events : List Event) (D beforeLast : Nat)
    (hev : updateMultiplexedDisplay h st = some events) (hD : elapsed events = D)
    (hbl : beforeLast + D < 2 ^ 32) :
    ∀ (fuel : Nat) (m : Machine), m.display = st → beforeLast < m.millis + fuel * D →
      ∃ m1, showLoop h beforeLast (fuel + 1) m = some m1 := by
  intro fuel
  induction fuel with
  | zero =>
    intro m _ hlt
    refine ⟨m, ?_⟩
    simp only [showLoop]
    rw [if_neg (by omega)]
  | succ fuel ih =>
    intro m hd hlt
    by_cases hc : m.millis ≤ beforeLast
    · have hstep : showLoop h beforeLast (fuel + 1 + 1) m =
          showLoop h beforeLast (fuel + 1) (run m events) := by
        rw [showLoop, if_pos hc, hd, hev]
        rfl
      rw [hstep]
      apply ih (run m events) hd
      show beforeLast < (m.millis + elapsed events) % 2 ^ 32 + fuel * D
      rw [hD, Nat.mod_eq_of_lt (by omega)]
      rw [Nat.succ_mul] at hlt
      omega
    · refine ⟨m, ?_⟩
      rw [showLoop, if_neg hc]

theorem wellFormed_splice (h : Header) (st : State) (hwf : WellFormed h st) (b : Nat)
    (written : List Byte) (hfit : b + written.length ≤ st._cache.length) :
    WellFormed h { st with _cache := splice st._cache b written } := by
  obtain ⟨hlen, hcache, hidx, hc0, hd0, hdM, hsec⟩ := hwf
  refine ⟨?_, ?_, hidx, hc0, hd0, hdM, hsec⟩
  · show (splice st._cache b written).length = _
    rw [splice_length _ _ _ hfit]
    exact hlen
  · intro k hk0 hk1
    show ∃ v, load (splice st._cache b written) k = some v
    by_cases hr : (b : Int) ≤ k ∧ k < (b : Int) + written.length
    · obtain ⟨w, hw⟩ := cell_of_lt written (k := k - (b : Int)) (by omega) (by omega)
      refine ⟨w, load_of_cell ?_⟩
      rw [cell_splice _ _ _ hfit, if_pos hr, hw]
      rfl
    · obtain ⟨v, hv⟩ := hcache k hk0 hk1
      refine ⟨v, load_of_cell ?_⟩
      rw [cell_splice _ _ _ hfit, if_neg hr]
      exact (load_some_range hv).2.2

theorem setAt_wellFormed (h : Header) (st : State) (hwf : WellFormed h st) (s z : Int)
    (hs0 : 0 ≤ s) (hs1 : s < st._sectionCount) (hz : load st._sectionSizes s = some z)
    (args : SetAtArgs) (hacc : Accepted h z args) :
    ∃ st1, setAt h st s args = some st1 ∧ WellFormed h st1 := by
  have hwf0 := hwf
  obtain ⟨hlen, _, _, _, _, hdisp, hsec⟩ := hwf
  obtain ⟨b1, z1, hb1, hz1, hb0, hz0, hbz⟩ := hsec s hs0 hs1
  rw [hz] at hz1
  cases hz1
  obtain ⟨bn, rfl⟩ := Int.eq_ofNat_of_zero_le hb0
  obtain ⟨zn, rfl⟩ := Int.eq_ofNat_of_zero_le (le_of_lt hz0)
  obtain ⟨written, hwl, hw⟩ := setAt_splice h st s bn zn hs0 hs1 hb1 hz (by omega) args hacc
  exact ⟨_, hw st._cache rfl, wellFormed_splice h st hwf0 bn written (by omega)⟩

/-- C19: on a well-formed object of either drive, `update` and `clear` return and
leave the object, and so every byte of the cache, as it was; so does every call of
`show` that returns, which a call on a static display always does, and a call on
a multiplexed display does when `POV * displaySize` is positive and at most the
clock reading plus the duration, which is below `2^32`; and `clear` followed by
`update` makes, after the calls of `clear`, exactly the calls `update` makes for the
cache as it was before `clear`. -/
theorem scan_leaves_cache (h : Header) (m : Machine) (hwf : WellFormed h m.display) :
    (∃ m1, update h m = some m1 ∧ m1.display = m.display) ∧
    (∃ m1, clearDisplay h m = some m1 ∧ m1.display = m.display) ∧
    (∀ (fuel time : Nat) (m1 : Machine), showTime h fuel m time = some m1 →
      m1.display = m.display) ∧
    (m.display._isMultiplexed = false → ∀ fuel time : Nat,
      ∃ m1, showTime h fuel m time = some m1) ∧
    (m.display._isMultiplexed = true → ∀ time : Nat,
      0 < h.POV * m.display._displaySize.toNat →
      h.POV * m.display._displaySize.toNat ≤ m.millis + time → m.millis + time < 2 ^ 32 →
      ∃ fuel m1, showTime h fuel m time = some m1) ∧
    (∃ mc mu events, clearDisplay h m = some mc ∧ update h mc = some mu ∧
      updateEvents h m.display = some events ∧ mu.trace = mc.trace ++ events ∧
      mu.display = m.display) := by
  obtain ⟨evm, hevm, helm⟩ := updateMultiplexedDisplay_returns h m.display hwf
  obtain ⟨evs, hevs⟩ := updateStaticDisplay_returns h m.display hwf
  have hupd : ∃ events, updateEvents h m.display = some events := by
    unfold updateEvents
    split
    · exact ⟨evm, hevm⟩
    · exact ⟨evs, hevs⟩
  obtain ⟨events, hevents⟩ := hupd
  refine ⟨?_, ⟨_, rfl, rfl⟩, ?_, ?_, ?_, ?_⟩
  · exact ⟨run m events, by simp only [update, hevents, Option.map_some'], rfl⟩
  · intro fuel time m1 hshow
    unfold showTime at hshow
    split at hshow
    · simp only [Option.map_eq_some'] at hshow
      obtain ⟨m2, hm2, hrun⟩ := hshow
      rw [← hrun]
      exact showLoop_display h _ fuel m m2 hm2
    · rw [hevs] at hshow
      cases hshow
      rfl
  · intro hstatic fuel time
    simp only [showTime, hstatic, Bool.false_eq_true, if_false, hevs, Option.map_some']
    exact ⟨_, rfl⟩
  · intro hmux time hpos hlow hhigh
    obtain ⟨hlen, _, _, _, hd0, hdM, _⟩ := hwf
    have hD : elapsed evm = h.POV * m.display._displaySize.toNat := by
      rw [helm, Nat.mul_comm]
    have hcast : ((h.POV : Int) * m.display._displaySize) =
        ((h.POV * m.display._displaySize.toNat : Nat) : Int) := by
      rw [Nat.cast_mul, Int.toNat_of_nonneg hd0]
    have hbl : toULong ((m.millis : Int) + (time : Int) -
        ((h.POV : Int) * m.display._displaySize)) =
        m.millis + time - h.POV * m.display._displaySize.toNat := by
      rw [hcast]
      unfold toULong
      omega
    obtain ⟨m1, hm1⟩ := showLoop_returns h m.display evm
      (h.POV * m.display._displaySize.toNat)
      (m.millis + time - h.POV * m.display._displaySize.toNat) hevm hD (by omega)
      (m.millis + time + 1) m rfl (by
        have : m.millis + time + 1 ≤
            (m.millis + time + 1) * (h.POV * m.display._displaySize.toNat) :=
          Nat.le_mul_of_pos_right _ hpos
        omega)
    refine ⟨m.millis + time + 1 + 1, run m1 (clearMultiplexedDisplay h m1.display), ?_⟩
    simp only [showTime, hmux, if_true, hbl, hm1, Option.map_some']
  · refine ⟨run m (clear h m.display), run (run m (clear h m.display)) events, events, rfl,
      ?_, hevents, rfl, rfl⟩
    show (updateEvents h m.display).map _ = _
    rw [hevents]
    rfl

/-- C19, on an example: on a static display of three digits, `setAt(0, "ab")`, then
`clear`, then `update`: the object after `update` is the one `setAt` left, and the
calls of `update` are those for the cache `setAt` wrote. -/
theorem scan_leaves_cache_witness :
    ∃ (st st1 : State) (mc mu : Machine) (events : List Event),
      sampleDisplay DisplayType.COMMON_CATHODE [3, 0] DisplayDrive.STATIC_DRIVE = some st ∧
      setAt sampleHeader st 0 (SetAtArgs.chars (codes "ab") Alignment.ALIGN_LEFT) = some st1 ∧
      clearDisplay sampleHeader { display := st1, millis := 0, trace := [] } = some mc ∧
      update sampleHeader mc = some mu ∧
      updateEvents sampleHeader st1 = some events ∧
      mu.trace = mc.trace ++ events ∧ mu.display = st1 := by
  obtain ⟨st, hst, hwf, _⟩ := sampleDisplay_wellFormed DisplayType.COMMON_CATHODE [3, 0]
    (by decide) DisplayDrive.STATIC_DRIVE
  have hev : ∃ x, sampleDisplay DisplayType.COMMON_CATHODE [3, 0]
      DisplayDrive.STATIC_DRIVE = some x ∧ (0 : Int) < x._sectionCount ∧
      load x._sectionSizes 0 = some 3 :=
    ⟨_, rfl, by decide, by rfl⟩
  obtain ⟨x, hx, h1, h3⟩ := hev
  rw [hst] at hx
  cases hx
  obtain ⟨st1, hset, hwf1⟩ := setAt_wellFormed sampleHeader st hwf 0 3 (by decide) h1 h3
    (SetAtArgs.chars (codes "ab") Alignment.ALIGN_LEFT) trivial
  obtain ⟨mc, mu, events, hc, hu, he, ht, hd⟩ :=
    (scan_leaves_cache sampleHeader { display := st1, millis := 0, trace := [] } hwf1).2.2.2.2.2
  exact ⟨st, st1, mc, mu, events, hst, hset, hc, hu, he, ht, hd⟩

/-! ## The size of the integer buffer -/

theorem decimalDigits_lt_pow (m : Nat) : m < 10 ^ (decimalDigits m).length := by
  unfold decimalDigits
  split
  next h =>
    subst h
    decide
  next h =>
    rw [List.length_reverse]
    exact Nat.lt_base_pow_length_digits (by decide)

theorem digitLoop_padded (m : Nat) :
    digitLoop ((decimalDigits m).length + 1) (((decimalDigits m).length + 1 : Nat) - 1 : Int)
      (m : Int) (List.replicate ((decimalDigits m).length + 1) none) =
      some (ofList (chr '0' :: (decimalDigits m).map (fun d => d + chr '0'))) := by
  obtain ⟨out, e, l, c⟩ := digitLoop_spec ((decimalDigits m).length + 1)
    (((decimalDigits m).length + 1 : Nat) - 1 : Int) m
    (List.replicate ((decimalDigits m).length + 1) none) rfl (by simp)
  rw [e]
  congr 1
  apply eq_ofList (by simpa using l)
  intro idx hidx
  have hidx1 : idx < (decimalDigits m).length + 1 := by simpa using hidx
  rw [c idx, if_pos (by omega)]
  by_cases h0 : idx = 0
  · subst h0
    have he : ((((decimalDigits m).length + 1 : Nat) : Int) - 1 - ((0 : Nat) : Int)).toNat =
        (decimalDigits m).length := by omega
    rw [he, Nat.div_eq_of_lt (decimalDigits_lt_pow m), List.getElem?_cons_zero]
    simp
  · obtain ⟨j, rfl⟩ : ∃ j, idx = j + 1 := ⟨idx - 1, by omega⟩
    have hj : j < (decimalDigits m).length := by omega
    have he : ((((decimalDigits m).length + 1 : Nat) : Int) - 1 - ((j + 1 : Nat) : Int)).toNat =
        (decimalDigits m).length - 1 - j := by omega
    rw [he, List.getElem?_cons_succ, List.getElem?_map, decimalDigits_getElem? m j hj]
    rfl

/-- C21 as stated fails: `countCharacters(-42)` is 3, one more than the two decimal
digits of 42. -/
theorem countCharacters_counts_sign_counterexample :
    (decimalDigits (-42 : Int).natAbs).length = 2 ∧ countCharacters (-42) = some 3 ∧
    countCharacters (-42) ≠ some (((decimalDigits (-42 : Int).natAbs).length : Nat) : Int) := by
  have hd : (decimalDigits (-42 : Int).natAbs).length = 2 := by
    simp [decimalDigits]
  have hc : countCharacters (-42) = some 3 := by
    rw [countCharacters_eq (-42) (by decide)]
    simp [decimalRepr, decimalDigits]
  refine ⟨hd, hc, ?_⟩
  rw [hc, hd]
  decide

/-- C21, as the code has it: for every `long` but the least one, `countCharacters(n)`
is the number of decimal digits of `|n|` (1 below 10, else one more than for
`|n| / 10`), plus one when `n` is negative ("minus counts as a character"); the buffer
`setInteger` builds has this size and holds the minus sign, when there is one,
followed by all the digits of `|n|`, most significant first; and for a negative `n`
the digit loop of `getCharacters` leaves `'0'` followed by those digits, so that the
minus sign written at position 0 replaces this `'0'` and none of the digits. -/
theorem countCharacters_counts_sign (n : Int) (hn : n ≠ LONG_MIN) :
    countCharacters n =
      some (((decimalDigits n.natAbs).length : Int) + (if n < 0 then 1 else 0)) ∧
    (decimalDigits n.natAbs).length =
      (if n.natAbs < 10 then 1 else 1 + (decimalDigits (n.natAbs / 10)).length) ∧
    setIntegerCharacters n =
      some (((decimalDigits n.natAbs).length : Int) + (if n < 0 then 1 else 0),
        ofList ((if n < 0 then [chr '-'] else []) ++
          (decimalDigits n.natAbs).map (fun d => d + chr '0'))) ∧
    (n < 0 →
      digitLoop ((decimalDigits n.natAbs).length + 1)
        (((decimalDigits n.natAbs).length + 1 : Nat) - 1 : Int) (-n)
        (List.replicate ((decimalDigits n.natAbs).length + 1) none) =
      some (ofList (chr '0' :: (decimalDigits n.natAbs).map (fun d => d + chr '0')))) := by
  have hlen := decimalRepr_length n
  have hsize : ((decimalRepr n).length : Int) =
      ((decimalDigits n.natAbs).length : Int) + (if n < 0 then 1 else 0) := by
    rw [hlen]
    omega
  refine ⟨?_, ?_, ?_, ?_⟩
  · rw [countCharacters_eq n hn, hsize]
  · by_cases h10 : n.natAbs < 10
    · rw [if_pos h10, decimalDigits_small _ h10]
    · rw [if_neg h10, decimalDigits_step _ (by omega)]
      omega
  · rw [setIntegerCharacters_eq n hn, hsize]
    rfl
  · intro hneg
    have habs : -n = ((n.natAbs : Nat) : Int) := by omega
    rw [habs]
    exact digitLoop_padded n.natAbs

/-- C21, on an example: `countCharacters(-42)` is 3 and the buffer is `"-42"`; the
digit loop alone leaves `"042"`. -/
theorem countCharacters_counts_sign_witness :
    (-42 : Int) ≠ LONG_MIN ∧
    countCharacters (-42) =
      some (((decimalDigits (-42 : Int).natAbs).length : Int) +
        (if (-42 : Int) < 0 then 1 else 0)) ∧
    setIntegerCharacters (-42) =
      some (((decimalDigits (-42 : Int).natAbs).length : Int) +
          (if (-42 : Int) < 0 then 1 else 0),
        ofList ((if (-42 : Int) < 0 then [chr '-'] else []) ++
          (decimalDigits (-42 : Int).natAbs).map (fun d => d + chr '0'))) :=
  ⟨by decide, (countCharacters_counts_sign (-42) (by decide)).1,
    (countCharacters_counts_sign (-42) (by decide)).2.2.1⟩

/-! ## A real whose rounding carries -/

/-- C22 as stated fails: for 9.99 with one decimal place, in exact arithmetic
(`sampleHeader`), the value `setReal` rounds to is 100, but the size of its buffer is
`countCharacters(9.99) + 1 = 2`, counted on the integer part 9 of the number before
rounding, and `getCharacters(100, 2, ...)`
fills the buffer with `"00"`: the leading 1 of the rounded value is dropped. With no
decimal places `setNumber` rounds first and counts afterwards, so that 9.5 gets the
two characters `"10"`. -/
theorem setReal_rounding_carry :
    roundLong ((999 / 100 : ℚ) * (10 : ℚ) ^ (1 : Int)) = some 100 ∧
    countCharactersDouble (999 / 100) = some 1 ∧
    setRealCharacters sampleHeader (999 / 100) 1 = some (2, ofList (codes "00")) ∧
    setRealCharacters sampleHeader (999 / 100) 1 ≠ some (3, ofList (codes "100")) ∧
    (roundLong (19 / 2 : ℚ)).bind setIntegerCharacters = some (2, ofList (codes "10")) := by
  have hr : roundLong ((999 / 100 : ℚ) * (10 : ℚ) ^ (1 : Int)) = some 100 := by
    norm_num [roundLong, LONG_MIN, LONG_MAX, LONG_BITS]
  have hfl : ⌊(999 / 100 : ℚ)⌋ = 9 := by
    rw [Int.floor_eq_iff]
    norm_num
  have hcast : castLong (999 / 100 : ℚ) = some 9 := by
    norm_num [castLong, LONG_MIN, LONG_MAX, LONG_BITS, hfl]
  have hcount : countCharacters 9 = some 1 := by
    rw [countCharacters_eq 9 (by decide)]
    simp [decimalRepr, decimalDigits]
  have hcd : countCharactersDouble (999 / 100 : ℚ) = some 1 := by
    unfold countCharactersDouble
    rw [if_neg (by norm_num), hcast]
    exact hcount
  have hnew : newArray (α := CChar) ((1 : Int) + 1) = some (List.replicate 2 none) := by
    decide
  have hget : getCharacters 100 ((1 : Int) + 1) (List.replicate 2 none) =
      some (ofList (codes "00")) := by
    decide
  have hset : setRealCharacters sampleHeader (999 / 100) 1 =
      some (2, ofList (codes "00")) := by
    simp only [setRealCharacters, sampleHeader_scaleDouble, hr, hcd, Option.some_bind, hnew,
      hget, Option.map_some']
    rfl
  have hr2 : roundLong (19 / 2 : ℚ) = some 10 := by
    norm_num [roundLong, LONG_MIN, LONG_MAX, LONG_BITS]
  have hten : decimalRepr 10 = codes "10" := by
    simp [decimalRepr, decimalDigits, codes, chr]
  refine ⟨hr, hcd, hset, ?_, ?_⟩
  · rw [hset]
    decide
  · rw [hr2, Option.some_bind, setIntegerCharacters_eq 10 (by decide), hten]
    rfl

/-! ## The accesses of formatCharacters -/

theorem writesOf_append (a b : List Access) : writesOf (a ++ b) = writesOf a ++ writesOf b := by
  induction a with
  | nil => rfl
  | cons x a ih =>
    cases x <;> simp [writesOf, ih]

theorem readsOf_append (a b : List Access) : readsOf (a ++ b) = readsOf a ++ readsOf b := by
  induction a with
  | nil => rfl
  | cons x a ih =>
    cases x <;> simp [readsOf, ih]

theorem fillLoopLog_eq (c : CChar) (n : Nat) : ∀ (i : Int) (out : List (Option CChar)),
    fillLoopLog c n i out = (fillLoop c n i out).map fun o => (o, fillAccesses n i) := by
  induction n with
  | zero =>
    intro i out
    rfl
  | succ n ih =>
    intro i out
    simp only [fillLoopLog, fillLoop, fillAccesses]
    cases store out i c with
    | none => rfl
    | some o1 =>
      simp only [Option.some_bind, ih]
      cases fillLoop c n (i + 1) o1 <;> rfl

theorem copyLoopLog_eq (minimum maximum : Int) (input : List (Option CChar)) (n : Nat) :
    ∀ (i j : Int) (out : List (Option CChar)),
    copyLoopLog minimum maximum input n i j out =
      (copyLoop minimum maximum input n i j out).map fun o =>
        (o, copyAccesses minimum maximum n i j) := by
  induction n with
  | zero =>
    intro i j out
    rfl
  | succ n ih =>
    intro i j out
    simp only [copyLoopLog, copyLoop, copyAccesses]
    by_cases hb : i ≥ minimum ∧ i ≤ maximum
    · rw [if_pos hb, if_pos hb, if_pos hb]
      cases load input j with
      | none => rfl
      | some v =>
        simp only [Option.some_bind]
        cases store out i v with
        | none => rfl
        | some o1 =>
          simp only [Option.some_bind, ih]
          cases copyLoop minimum maximum input n (i + 1) (j + 1) o1 <;> rfl
    · rw [if_neg hb, if_neg hb, if_neg hb, ih]
      simp only [Option.some_bind, List.nil_append]

theorem fillAccesses_reads (n : Nat) : ∀ i : Int, readsOf (fillAccesses n i) = [] := by
  induction n with
  | zero => intro i; rfl
  | succ n ih =>
    intro i
    simp only [fillAccesses, readsOf, ih]

theorem fillAccesses_mem (n : Nat) : ∀ (i k : Int),
    k ∈ writesOf (fillAccesses n i) ↔ i ≤ k ∧ k < i + n := by
  induction n with
  | zero =>
    intro i k
    simp only [fillAccesses, writesOf, List.not_mem_nil, false_iff]
    omega
  | succ n ih =>
    intro i k
    simp only [fillAccesses, writesOf, List.mem_cons, ih]
    constructor
    · rintro (h | h) <;> omega
    · intro h
      by_cases hk : k = i
      · exact Or.inl hk
      · exact Or.inr (by omega)

theorem fillAccesses_sorted (n : Nat) : ∀ i : Int,
    List.Pairwise (fun x y : Int => x < y) (writesOf (fillAccesses n i)) := by
  induction n with
  | zero =>
    intro i
    exact List.Pairwise.nil
  | succ n ih =>
    intro i
    simp only [fillAccesses, writesOf, List.pairwise_cons]
    refine ⟨?_, ih (i + 1)⟩
    intro b hb
    have := (fillAccesses_mem n (i + 1) b).mp hb
    omega

theorem copyAccesses_mem (minimum maximum : Int) (n : Nat) : ∀ (i j k : Int),
    k ∈ writesOf (copyAccesses minimum maximum n i j) ↔
      i ≤ k ∧ k < i + n ∧ minimum ≤ k ∧ k ≤ maximum := by
  induction n with
  | zero =>
    intro i j k
    simp only [copyAccesses, writesOf, List.not_mem_nil, false_iff]
    omega
  | succ n ih =>
    intro i j k
    by_cases hb : i ≥ minimum ∧ i ≤ maximum
    · simp only [copyAccesses, if_pos hb, List.cons_append, List.nil_append, writesOf,
        List.mem_cons, ih]
      constructor
      · rintro (h | h) <;> omega
      · intro h
        by_cases hk : k = i
        · exact Or.inl hk
        · exact Or.inr (by omega)
    · simp only [copyAccesses, if_neg hb, List.nil_append, ih]
      constructor
      · intro h
        omega
      · intro h
        refine ⟨?_, ?_, h.2.2.1, h.2.2.2⟩
        · by_cases hk : k = i
          · subst hk
            exact absurd ⟨h.2.2.1, h.2.2.2⟩ hb
          · omega
        · omega

theorem copyAccesses_sorted (minimum maximum : Int) (n : Nat) : ∀ i j : Int,
    List.Pairwise (fun x y : Int => x < y)
      (writesOf (copyAccesses minimum maximum n i j)) := by
  induction n with
  | zero =>
    intro i j
    exact List.Pairwise.nil
  | succ n ih =>
    intro i j
    by_cases hb : i ≥ minimum ∧ i ≤ maximum
    · simp only [copyAccesses, if_pos hb, List.cons_append, List.nil_append, writesOf,
        List.pairwise_cons]
      refine ⟨?_, ih (i + 1) (j + 1)⟩
      intro b hmem
      have := (copyAccesses_mem minimum maximum n (i + 1) (j + 1) b).mp hmem
      omega
    · simp only [copyAccesses, if_neg hb, List.nil_append]
      exact ih (i + 1) (j + 1)

theorem copyAccesses_reads (minimum maximum : Int) (n : Nat) : ∀ (i j r : Int),
    r ∈ readsOf (copyAccesses minimum maximum n i j) →
      j ≤ r ∧ r < j + n ∧ minimum ≤ i + (r - j) ∧ i + (r - j) ≤ maximum := by
  induction n with
  | zero =>
    intro i j r h
    simp [copyAccesses, readsOf] at h
  | succ n ih =>
    intro i j r h
    by_cases hb : i ≥ minimum ∧ i ≤ maximum
    · simp only [copyAccesses, if_pos hb, List.cons_append, List.nil_append, readsOf,
        List.mem_cons] at h
      rcases h with h | h
      · subst h
        refine ⟨le_refl _, by omega, ?_, ?_⟩ <;> omega
      · have := ih (i + 1) (j + 1) r h
        omega
    · simp only [copyAccesses, if_neg hb, List.nil_append] at h
      have := ih (i + 1) (j + 1) r h
      omega

theorem formatCharactersLog_eq (inSize : Int) (input : List (Option CChar)) (outSize : Int)
    (output : List (Option CChar)) (a : Alignment) (lz : Bool) (dp : Int) :
    formatCharactersLog inSize input outSize output a lz dp =
      (formatCharacters inSize input outSize output a lz dp).map fun r =>
        (r.1, r.2,
          fillAccesses (leftBorder inSize outSize a - 0).toNat 0 ++
          copyAccesses 0 (outSize - 1)
            (rightBorder inSize outSize a + 1 - leftBorder inSize outSize a).toNat
            (leftBorder inSize outSize a) 0 ++
          fillAccesses (outSize - (rightBorder inSize outSize a + 1)).toNat
            (rightBorder inSize outSize a + 1)) := by
  simp only [formatCharactersLog, formatCharacters, fillLoopLog_eq, copyLoopLog_eq]
  generalize fillLoop (if lz = true then chr '0' else chr ' ')
    (leftBorder inSize outSize a - 0).toNat 0 output = x1
  cases x1 with
  | none => rfl
  | some o1 =>
    simp only [Option.map_some', Option.some_bind]
    generalize copyLoop 0 (outSize - 1) input
      (rightBorder inSize outSize a + 1 - leftBorder inSize outSize a).toNat
      (leftBorder inSize outSize a) 0 o1 = x2
    cases x2 with
    | none => rfl
    | some o2 =>
      simp only [Option.map_some', Option.some_bind]
      generalize fillLoop (chr ' ') (outSize - (rightBorder inSize outSize a + 1)).toNat
        (rightBorder inSize outSize a + 1) o2 = x3
      cases x3 with
      | none => rfl
      | some o3 =>
        simp only [Option.map_some', Option.some_bind]
        split
        · rfl
        · split <;> rfl

/-- C23: for a source of `inSize` characters and a target array of `outSize` cells,
whatever the alignment, the leading-zeros flag and the decimal places,
`formatCharacters` returns without a fault and every cell of the target holds a
character afterwards; the indices of its stores, in the order they are made, are
strictly increasing and are exactly the indices in `[0, outSize)`, so every index is
written once and none outside, the three loops writing `[0, left)`, the part of
`[left, right]` inside the target and `[right + 1, outSize)`; and every load from
the source is at an index in `[0, inSize)`. -/
theorem formatCharacters_accesses (inp : List CChar) (outSize : Nat)
    (out0 : List (Option CChar)) (hlen : out0.length = outSize) (a : Alignment) (lz : Bool)
    (dp : Int) :
    ∃ (chars : List CChar) (dot : Int) (log1 log2 log3 : List Access),
      formatCharactersLog inp.length (ofList inp) outSize out0 a lz dp =
        some (ofList chars, dot, log1 ++ log2 ++ log3) ∧
      formatCharacters inp.length (ofList inp) outSize out0 a lz dp =
        some (ofList chars, dot) ∧
      chars.length = outSize ∧
      List.Pairwise (fun x y : Int => x < y) (writesOf (log1 ++ log2 ++ log3)) ∧
      (∀ k : Int, k ∈ writesOf (log1 ++ log2 ++ log3) ↔ 0 ≤ k ∧ k < outSize) ∧
      (∀ k : Int, k ∈ writesOf log1 ↔ 0 ≤ k ∧ k < leftBorder inp.length outSize a) ∧
      (∀ k : Int, k ∈ writesOf log2 ↔ leftBorder inp.length outSize a ≤ k ∧
        k ≤ rightBorder inp.length outSize a ∧ 0 ≤ k ∧ k < outSize) ∧
      (∀ k : Int, k ∈ writesOf log3 ↔ rightBorder inp.length outSize a < k ∧ k < outSize) ∧
      (∀ j : Int, j ∈ readsOf (log1 ++ log2 ++ log3) → 0 ≤ j ∧ j < inp.length) := by
  obtain ⟨chars, e, l, _⟩ := formatCharacters_eq inp outSize out0 hlen a lz dp
  obtain ⟨hR, hL, hLn⟩ := border_facts inp.length outSize a (by omega) (by omega)
  have hlog := formatCharactersLog_eq inp.length (ofList inp) outSize out0 a lz dp
  rw [e] at hlog
  simp only [Option.map_some'] at hlog
  have hm1 := fillAccesses_mem (leftBorder inp.length outSize a - 0).toNat 0
  have hm2 := copyAccesses_mem 0 ((outSize : Int) - 1)
    (rightBorder inp.length outSize a + 1 - leftBorder inp.length outSize a).toNat
    (leftBorder inp.length outSize a) 0
  have hm3 := fillAccesses_mem
    ((outSize : Int) - (rightBorder inp.length outSize a + 1)).toNat
    (rightBorder inp.length outSize a + 1)
  have hs1 := fillAccesses_sorted (leftBorder inp.length outSize a - 0).toNat 0
  have hs2 := copyAccesses_sorted 0 ((outSize : Int) - 1)
    (rightBorder inp.length outSize a + 1 - leftBorder inp.length outSize a).toNat
    (leftBorder inp.length outSize a) 0
  have hs3 := fillAccesses_sorted
    ((outSize : Int) - (rightBorder inp.length outSize a + 1)).toNat
    (rightBorder inp.length outSize a + 1)
  have hr2 := copyAccesses_reads 0 ((outSize : Int) - 1)
    (rightBorder inp.length outSize a + 1 - leftBorder inp.length outSize a).toNat
    (leftBorder inp.length outSize a) 0
  generalize leftBorder (inp.length : Int) outSize a = L at *
  generalize rightBorder (inp.length : Int) outSize a = R at *
  refine ⟨chars, dotIndexOf R outSize dp, fillAccesses (L - 0).toNat 0,
    copyAccesses 0 ((outSize : Int) - 1) (R + 1 - L).toNat L 0,
    fillAccesses ((outSize : Int) - (R + 1)).toNat (R + 1), ?_, e, l, ?_, ?_, ?_, ?_, ?_, ?_⟩
  · exact hlog
  · rw [writesOf_append, writesOf_append, List.pairwise_append, List.pairwise_append]
    refine ⟨⟨hs1, hs2, ?_⟩, hs3, ?_⟩
    · intro x hx y hy
      have h1 := (hm1 x).mp hx
      have h2 := (hm2 y).mp hy
      omega
    · intro x hx y hy
      have h3 := (hm3 y).mp hy
      rcases List.mem_append.mp hx with hx | hx
      · have h1 := (hm1 x).mp hx
        omega
      · have h2 := (hm2 x).mp hx
        omega
  · intro k
    rw [writesOf_append, writesOf_append, List.mem_append, List.mem_append, hm1, hm2, hm3]
    omega
  · intro k
    rw [hm1]
    omega
  · intro k
    rw [hm2]
    omega
  · intro k
    rw [hm3]
    omega
  · intro j hj
    rw [readsOf_append, readsOf_append, fillAccesses_reads, fillAccesses_reads,
      List.nil_append, List.append_nil] at hj
    have := hr2 j hj
    omega

/-- C23, on an example: `"HELLO"` centred in a target of three cells: the stores go
to the indices 0, 1, 2 in this order, each after the load of the source character
1, 2, 3, and the target holds `"ELL"`. -/
theorem formatCharacters_accesses_witness :
    (List.replicate 3 (none : Option CChar)).length = 3 ∧
    formatCharactersLog (codes "HELLO").length (ofList (codes "HELLO")) (3 : Nat)
      (List.replicate 3 none) Alignment.ALIGN_CENTER false (-1) =
      some (ofList (codes "ELL"), -1,
        [Access.read 1, Access.write 0, Access.read 2, Access.write 1, Access.read 3,
          Access.write 2]) ∧
    ∃ (chars : List CChar) (dot : Int) (log1 log2 log3 : List Access),
      formatCharactersLog (codes "HELLO").length (ofList (codes "HELLO")) (3 : Nat)
        (List.replicate 3 none) Alignment.ALIGN_CENTER false (-1) =
        some (ofList chars, dot, log1 ++ log2 ++ log3) ∧
      chars.length = 3 ∧
      List.Pairwise (fun x y : Int => x < y) (writesOf (log1 ++ log2 ++ log3)) ∧
      (∀ k : Int, k ∈ writesOf (log1 ++ log2 ++ log3) ↔ 0 ≤ k ∧ k < (3 : Nat)) ∧
      (∀ j : Int, j ∈ readsOf (log1 ++ log2 ++ log3) → 0 ≤ j ∧ j < (codes "HELLO").length) := by
  refine ⟨rfl, by decide, ?_⟩
  obtain ⟨chars, dot, log1, log2, log3, h1, _, h3, h4, h5, _, _, _, h9⟩ :=
    formatCharacters_accesses (codes "HELLO") 3 (List.replicate 3 none) rfl
      Alignment.ALIGN_CENTER false (-1)
  exact ⟨chars, dot, log1, log2, log3, h1, h3, h4, h5, h9⟩

/-! ## The section loop in the arithmetic of int -/

theorem wrapInt_of_range (h : Header) (x : Int) (hlo : -(h.INT_MAX + 1) ≤ x)
    (hhi : x ≤ h.INT_MAX) : wrapInt h x = x := by
  unfold wrapInt
  rw [Int.emod_eq_of_lt (by omega) (by omega)]
  omega

theorem store_some_range {α : Type} {a a1 : List (Option α)} {i : Int} {v : α}
    (hs : store a i v = some a1) : 0 ≤ i ∧ i < a.length := by
  unfold store at hs
  split at hs
  next hb => exact hb
  next => cases hs

theorem sectionLoopInt_eq (h : Header) (hmax : (h.MAX_DISPLAY_SIZE : Int) ≤ h.INT_MAX) :
    ∀ (rest : List Int) (st : State),
    (∀ s ∈ rest, s ≤ h.INT_MAX - h.MAX_DISPLAY_SIZE) →
    0 ≤ st._displaySize → st._displaySize ≤ h.MAX_DISPLAY_SIZE →
    st._sectionBegins.length = h.MAX_DISPLAY_SIZE →
    sectionLoopInt h rest st = sectionLoop h rest st := by
  intro rest
  induction rest with
  | nil =>
    intro st _ _ _ _
    rfl
  | cons s rest ih =>
    intro st hb hd0 hdm hlen
    have hs := hb s (List.mem_cons_self _ _)
    by_cases hpos : s > 0
    · have hw : wrapInt h (st._displaySize + s) = st._displaySize + s :=
        wrapInt_of_range h _ (by omega) (by omega)
      simp only [sectionLoopInt, sectionLoop, hpos, if_true, hw]
      by_cases hover : st._displaySize + s > h.MAX_DISPLAY_SIZE
      · rw [if_pos hover, if_pos hover]
      · rw [if_neg hover, if_neg hover]
        cases hsb : store st._sectionBegins st._sectionCount st._displaySize with
        | none => rfl
        | some begins =>
          obtain ⟨hc0, hc1⟩ := store_some_range hsb
          have hwc : wrapInt h (st._sectionCount + 1) = st._sectionCount + 1 :=
            wrapInt_of_range h _ (by omega) (by omega)
          simp only [Option.some_bind, hwc]
          cases hss : store st._sectionSizes st._sectionCount s with
          | none => rfl
          | some sizes =>
            simp only [Option.some_bind]
            apply ih _ (fun z hz => hb z (List.mem_cons_of_mem _ hz))
            · show 0 ≤ st._displaySize + s
              omega
            · show st._displaySize + s ≤ h.MAX_DISPLAY_SIZE
              omega
            · show begins.length = h.MAX_DISPLAY_SIZE
              rw [store_length hsb]
              exact hlen
    · simp only [sectionLoopInt, sectionLoop, hpos, if_false]

theorem constructInt_eq (h : Header) (hmax : (h.MAX_DISPLAY_SIZE : Int) ≤ h.INT_MAX)
    (latchPin clockPin dataPin : Int) (displayType : DisplayType) (sectionSizes : List Int)
    (hbound : ∀ s ∈ sectionSizes, s ≤ h.INT_MAX - h.MAX_DISPLAY_SIZE)
    (displayDrive : DisplayDrive) (swapped : Bool) (indexes : List Int) :
    constructInt h latchPin clockPin dataPin displayType sectionSizes displayDrive swapped
      indexes =
    construct h latchPin clockPin dataPin displayType sectionSizes displayDrive swapped
      indexes := by
  simp only [constructInt, construct]
  congr 1
  funext idx
  rw [sectionLoopInt_eq h hmax sectionSizes _ hbound (le_refl _) (by
    show (0 : Int) ≤ h.MAX_DISPLAY_SIZE
    omega) (List.length_replicate _ _)]

/-- The section table in the arithmetic of `int`, for sizes at most
`INT_MAX - MAX_DISPLAY_SIZE`: the rule of `construct_sections` holds of
`constructInt`. -/
theorem constructInt_sections (h : Header) (hmax : (h.MAX_DISPLAY_SIZE : Int) ≤ h.INT_MAX)
    (latchPin clockPin dataPin : Int) (displayType : DisplayType) (sectionSizes : List Int)
    (hzero : (0 : Int) ∈ sectionSizes)
    (hbound : ∀ s ∈ sectionSizes, s ≤ h.INT_MAX - h.MAX_DISPLAY_SIZE)
    (displayDrive : DisplayDrive) (swapped : Bool) (indexes : List Int)
    (hidx : h.MAX_DISPLAY_SIZE ≤ indexes.length) :
    ∃ (st : State) (ev : List Event) (k : Nat),
      constructInt h latchPin clockPin dataPin displayType sectionSizes displayDrive swapped
        indexes = some (st, ev) ∧
      st._sectionCount = (k : Int) ∧ k < sectionSizes.length ∧
      st._displaySize = (sectionSizes.take k).sum ∧
      st._displaySize ≤ (h.MAX_DISPLAY_SIZE : Int) ∧
      (∀ i : Nat, i < k → ∃ s, sectionSizes[i]? = some s ∧ 0 < s ∧
        (sectionSizes.take (i + 1)).sum ≤ (h.MAX_DISPLAY_SIZE : Int) ∧
        load st._sectionSizes (i : Int) = some s ∧
        load st._sectionBegins (i : Int) = some (sectionSizes.take i).sum) ∧
      (∃ s, sectionSizes[k]? = some s ∧
        (s ≤ 0 ∨ (sectionSizes.take (k + 1)).sum > (h.MAX_DISPLAY_SIZE : Int))) := by
  obtain ⟨st, ev, k, e, hcount, hk, hdisp, hm, hacc, hterm⟩ := construct_spec h latchPin
    clockPin dataPin displayType sectionSizes hzero displayDrive swapped indexes hidx
  refine ⟨st, ev, k, ?_, hcount, hk, hdisp, hm, hacc, hterm⟩
  rw [constructInt_eq h hmax latchPin clockPin dataPin displayType sectionSizes hbound]
  exact e

/-- C9 as stated fails where the sum of the guard overflows: on a board with a
16-bit `int` and a display of at most 8 digits, `construct` given the sizes
`{1, 32767, 0}` accepts the entry 32767, which raises the running total above
`MAX_DISPLAY_SIZE`: the sum `1 + 32767` of the guard `_displaySize + sSize >
MAX_DISPLAY_SIZE`, whose comment is "check overflow", wraps to -32768, so the object
has two sections, section 1 begins at 1 with size 32767, and the display size is
-32768, where C9 has the single section of size 1 and the display size 1; the same
happens with a 32-bit `int` at the sizes `{1, 2147483647, 0}`. -/
theorem construct_size_overflow :
    (1 : Int) + 32767 > (sampleHeader.MAX_DISPLAY_SIZE : Int) ∧
    (∃ (st : State) (ev : List Event),
      constructInt sampleHeader 6 7 5 DisplayType.COMMON_CATHODE [1, 32767, 0]
        DisplayDrive.MULTIPLEXED_DRIVE false [0, 1, 2, 3, 4, 5, 6, 7] = some (st, ev) ∧
      st._sectionCount = 2 ∧ st._displaySize = -32768 ∧
      load st._sectionBegins 0 = some 0 ∧ load st._sectionSizes 0 = some 1 ∧
      load st._sectionBegins 1 = some 1 ∧ load st._sectionSizes 1 = some 32767) ∧
    (∃ (st : State) (ev : List Event),
      constructInt { sampleHeader with INT_MAX := 2147483647 } 6 7 5
        DisplayType.COMMON_CATHODE [1, 2147483647, 0]
        DisplayDrive.MULTIPLEXED_DRIVE false [0, 1, 2, 3, 4, 5, 6, 7] = some (st, ev) ∧
      st._sectionCount = 2 ∧ st._displaySize = -2147483648 ∧
      load st._sectionBegins 1 = some 1 ∧ load st._sectionSizes 1 = some 2147483647) := by
  refine ⟨by decide, ⟨_, _, rfl, by rfl, by rfl, by rfl, by rfl, by rfl, by rfl⟩,
    ⟨_, _, rfl, by rfl, by rfl, by rfl, by rfl⟩⟩

end ShiftDisplay2
